import Mathlib

/-!
VAST query and indexing core: a shallow embedding.

The definitions below follow the C++ sources of the index coordinator
(`libvast/src/system/index.cpp`), the evaluator
(`libvast/src/system/evaluator.cpp`) and the column index
(`libvast/src/column_index.cpp`).  Machine state is passed explicitly; calls
whose behaviour is undefined in C++ (indexing an empty vector, dereferencing
a null pointer) return `none`.  Debug assertions (`VAST_ASSERT`) and log
statements have no counterpart.
-/

namespace vast

/-! ## Bitmaps -/

/-- Modelled from the spec: the bitmap type (`vast/bitmap.hpp`, `vast/ids.hpp`)
is not part of the sources at hand.  A bitmap is a finite sequence of bits
indexed by event id; position `i` holds the bit of id `i`. -/
abbrev bitmap := List Bool

/-- Set of event ids, `using ids = bitmap`. -/
abbrev ids := bitmap

namespace bitmap

/-- Modelled from the spec: `bitmap::empty()`, true when the bitmap holds no bit. -/
def empty (b : bitmap) : Bool := b.isEmpty

/-- Modelled from the spec: the bit stored for id `i`; ids beyond the size are unset. -/
def test (b : bitmap) (i : Nat) : Bool := b.getD i false

/-- Modelled from the spec: `all<0>(bm)`, the bitmap is uniformly zero (no bit is set). -/
def all_0 (b : bitmap) : Bool := b.all (fun x => !x)

/-- Modelled from the spec: `all<1>(bm)`, the bitmap is uniformly one (no bit is unset). -/
def all_1 (b : bitmap) : Bool := b.all (fun x => x)

/-- Modelled from the spec: intersection (`operator&=`); the shorter operand is
padded with zeros, so the result has the size of the longer one. -/
def and : bitmap → bitmap → bitmap
  | [], ys => ys.map (fun _ => false)
  | x :: xs, [] => (x :: xs).map (fun _ => false)
  | x :: xs, y :: ys => (x && y) :: and xs ys

/-- Modelled from the spec: union (`operator|=`); the result has the size of
the longer operand. -/
def or : bitmap → bitmap → bitmap
  | [], ys => ys
  | x :: xs, [] => x :: xs
  | x :: xs, y :: ys => (x || y) :: or xs ys

/-- Modelled from the spec: negation (`flip()`), complementing every bit within the size. -/
def flip (b : bitmap) : bitmap := b.map (fun x => !x)

end bitmap

/-! ## Expressions -/

/-- Modelled from the spec: the relational operators of `vast/operator.hpp`
(the header is absent), as listed for the value index. -/
inductive relational_operator where
  | equal
  | not_equal
  | less
  | less_equal
  | greater
  | greater_equal
  | in_
  | match_
  deriving DecidableEq, Repr

/-- Operand of a predicate (`vast/expression.hpp` is absent; the alternatives
are the ones `partition.cpp` and `column_index.cpp` visit).  `D` is the type
of data values. -/
inductive operand (D : Type) where
  | attribute_extractor (attr : String)
  | data_extractor (offset : List Nat)
  | data (x : D)
  deriving DecidableEq, Repr

/-- A predicate `lhs op rhs`. -/
structure predicate (D : Type) where
  lhs : operand D
  op : relational_operator
  rhs : operand D
  deriving DecidableEq, Repr

/-- Query expression: `variant<none, conjunction, disjunction, negation, predicate>`,
where conjunctions and disjunctions are vectors of expressions. -/
inductive expression (D : Type) where
  | none : expression D
  | conjunction (c : List (expression D)) : expression D
  | disjunction (d : List (expression D)) : expression D
  | negation (expr : expression D) : expression D
  | predicate (pred : predicate D) : expression D

/-- The hits per predicate, `std::unordered_map<predicate, ids>`, as an
association list with unique keys. -/
abbrev predicate_map (D : Type) := List (predicate D × ids)

/-- Lookup `xs.find(pred)`. -/
def predicate_map.find {D : Type} [DecidableEq D] (xs : predicate_map D)
    (pred : predicate D) : Option ids :=
  match List.find? (fun kv => decide (kv.1 = pred)) xs with
  | some kv => some kv.2
  | Option.none => Option.none

/-- Insertion `xs.emplace(pred, hits)`: an existing entry is kept. -/
def predicate_map.emplace {D : Type} [DecidableEq D] (xs : predicate_map D)
    (pred : predicate D) (hits : ids) : predicate_map D :=
  match xs.find pred with
  | some _ => xs
  | Option.none => xs ++ [(pred, hits)]

/-! ## `ids_evaluator` (evaluator.cpp) -/

mutual

/-- Visitor `ids_evaluator`: folds the per-predicate hits `xs` through the
expression.  A conjunction without operands reads `c[0]` out of bounds and has
no defined result. -/
def ids_evaluator {D : Type} [DecidableEq D] (xs : predicate_map D) :
    expression D → Option ids
  | .none => some []
  | .conjunction [] => Option.none
  | .conjunction (c0 :: rest) =>
    match ids_evaluator xs c0 with
    | Option.none => Option.none
    | some result =>
      if result.empty || result.all_0 then some []
      else ids_evaluator.conjunction_loop xs result rest
  | .disjunction d => ids_evaluator.disjunction_loop xs [] d
  | .negation expr =>
    match ids_evaluator xs expr with
    | Option.none => Option.none
    | some result => some result.flip
  | .predicate pred =>
    match xs.find pred with
    | some hits => some hits
    | Option.none => some []

/-- The loop `for (i = 1; i < c.size(); ++i)` of the conjunction visitor. -/
def ids_evaluator.conjunction_loop {D : Type} [DecidableEq D] (xs : predicate_map D)
    (result : ids) : List (expression D) → Option ids
  | [] => some result
  | ci :: rest =>
    match ids_evaluator xs ci with
    | Option.none => Option.none
    | some r =>
      if (result.and r).empty || (result.and r).all_0 then some []
      else ids_evaluator.conjunction_loop xs (result.and r) rest

/-- The loop `for (auto& op : d)` of the disjunction visitor. -/
def ids_evaluator.disjunction_loop {D : Type} [DecidableEq D] (xs : predicate_map D)
    (result : ids) : List (expression D) → Option ids
  | [] => some result
  | op :: rest =>
    match ids_evaluator xs op with
    | Option.none => Option.none
    | some r =>
      if (result.or r).all_1 then some (result.or r)
      else ids_evaluator.disjunction_loop xs (result.or r) rest

end

/-! ## The evaluator actor (evaluator.cpp) -/

/-- Handle of an actor (`caf::actor`). -/
abbrev actor := Nat

mutual

/-- Modelled from the spec: the visitor `predicatizer` (`vast/expression_visitors.hpp`
is absent) flattens an expression to its predicates, in order of appearance. -/
def predicatizer {D : Type} : expression D → List (predicate D)
  | .none => []
  | .conjunction c => predicatizer.operands c
  | .disjunction d => predicatizer.operands d
  | .negation expr => predicatizer expr
  | .predicate pred => [pred]

/-- The predicates of a sequence of operands. -/
def predicatizer.operands {D : Type} : List (expression D) → List (predicate D)
  | [] => []
  | op :: rest => predicatizer op ++ predicatizer.operands rest

end

/-- State of the evaluator actor (`evaluator_state`).  The response promise is
represented by the values handed to `promise.deliver`, oldest first. -/
structure evaluator_state (D : Type) where
  hits : ids
  sub_hits : predicate_map D
  pending_responses : Nat
  promise : List ids

/-- A freshly spawned evaluator. -/
def evaluator_state.init (D : Type) : evaluator_state D :=
  { hits := [], sub_hits := [], pending_responses := 0, promise := [] }

/-- Pre-decrement of a `size_t` counter. -/
def size_t_decrement (n : Nat) : Nat := (n + 2 ^ 64 - 1) % 2 ^ 64

/-- The requests `self->request(x, caf::infinite, pred)` issued for an
expression: one per indexer and predicate. -/
def evaluator.requests {D : Type} (indexers : List actor) (expr : expression D) :
    List (actor × predicate D) :=
  indexers.flatMap (fun x => (predicatizer expr).map (fun pred => (x, pred)))

/-- Handler for an expression: returns the new state, the immediate result
(`return ids{}` when no predicate could be generated) and the requests sent. -/
def evaluator.on_expression {D : Type} (st : evaluator_state D) (indexers : List actor)
    (expr : expression D) : evaluator_state D × Option ids × List (actor × predicate D) :=
  if (predicatizer expr).isEmpty then (st, some [], [])
  else
    let pending := (st.pending_responses + (evaluator.requests indexers expr).length) % 2 ^ 64
    ({ hits := st.hits, sub_hits := st.sub_hits, pending_responses := pending, promise := [] },
     Option.none, evaluator.requests indexers expr)

/-- Response handler `[=](const ids& hits)` of the request for `pred`.  The
expression is re-evaluated into `expr_hits`, which is not used afterwards; the
value delivered is `hits`. -/
def evaluator.on_hits {D : Type} [DecidableEq D] (st : evaluator_state D)
    (expr : expression D) (pred : predicate D) (hits : ids) : Option (evaluator_state D) :=
  let sub_hits := st.sub_hits.emplace pred hits
  match ids_evaluator sub_hits expr with
  | Option.none => Option.none
  | some _expr_hits =>
    let st_hits := st.hits.or hits
    let pending := size_t_decrement st.pending_responses
    if pending == 0 then
      some { hits := st_hits, sub_hits := sub_hits, pending_responses := pending,
             promise := st.promise ++ [hits] }
    else
      some { hits := st_hits, sub_hits := sub_hits, pending_responses := pending,
             promise := st.promise }

/-- Response handler `[=](caf::error& err)`.  The `if` on the decremented
counter guards the debug log only; `deliver` follows unconditionally and moves
`st.hits` out (the moved-from bitmap is taken to be empty). -/
def evaluator.on_error {D : Type} (st : evaluator_state D) : evaluator_state D :=
  { hits := [], sub_hits := st.sub_hits,
    pending_responses := size_t_decrement st.pending_responses,
    promise := st.promise ++ [st.hits] }

/-- Response of an indexer to the request for a predicate. -/
inductive indexer_response (D : Type) where
  | hits (pred : predicate D) (x : ids)
  | error (pred : predicate D)

/-- Handling of one response. -/
def evaluator.on_response {D : Type} [DecidableEq D] (st : evaluator_state D)
    (expr : expression D) : indexer_response D → Option (evaluator_state D)
  | .hits pred x => evaluator.on_hits st expr pred x
  | .error _ => some (evaluator.on_error st)

/-- Handling of a sequence of responses, in arrival order. -/
def evaluator.run {D : Type} [DecidableEq D] (expr : expression D) :
    evaluator_state D → List (indexer_response D) → Option (evaluator_state D)
  | st, [] => some st
  | st, r :: rs =>
    match evaluator.on_response st expr r with
    | Option.none => Option.none
    | some st1 => evaluator.run expr st1 rs

/-- The evaluator after an expression and a sequence of responses. -/
def evaluator.session {D : Type} [DecidableEq D] (indexers : List actor)
    (expr : expression D) (rs : List (indexer_response D)) : Option (evaluator_state D) :=
  evaluator.run expr (evaluator.on_expression (evaluator_state.init D) indexers expr).1 rs

/-! ## Sample predicates -/

/-- Sample predicate `A`. -/
def pA : predicate Nat := ⟨.data_extractor [0], .equal, .data 1⟩

/-- Sample predicate `B`. -/
def pB : predicate Nat := ⟨.data_extractor [1], .equal, .data 2⟩

/-- Sample expression `A && B`. -/
def exprAandB : expression Nat := .conjunction [.predicate pA, .predicate pB]

/-- Sample expression `A || B`. -/
def exprAorB : expression Nat := .disjunction [.predicate pA, .predicate pB]

/-! ## Value index and column index (column_index.cpp) -/

/-- Error codes (`vast/error.hpp` is absent; the codes are the ones the
sources at hand return). -/
inductive ec where
  | unspecified
  | no_such_file
  | unsupported_operator
  | filesystem_error
  | invalid_table_slice_type
  deriving DecidableEq, Repr

/-- File system path. -/
abbrev path := String

/-- Modelled from the spec: what a value index does with data values.
`stored` is the form in which the index keeps an appended value (a string
longer than the configured maximum is truncated, a container is capped at the
configured number of elements, other values are kept as they are); `evaluate`
is the meaning of the relational operators (`evaluate(lhs, op, rhs)`), which a
lookup computes over the stored form; `supported` tells the operators the
index supports. -/
structure data_semantics (D : Type) where
  stored : D → D
  evaluate : D → relational_operator → D → Bool
  supported : relational_operator → Bool

/-- Modelled from the spec: the value index (`vast/value_index.hpp` is absent),
an ordered sequence of `(id, value)` appends with monotonic ids; `offset` is
one past the last appended id. -/
structure value_index (D : Type) where
  entries : List (Nat × D)
  offset : Nat

/-- Modelled from the spec: a new, empty value index. -/
def value_index.make (D : Type) : value_index D := { entries := [], offset := 0 }

/-- Modelled from the spec: `append(value, id)` requires `id ≥ offset`; the
appended row becomes the only new bit and the offset moves one past `id`.
An append below the offset is rejected and leaves the index unchanged. -/
def value_index.append {D : Type} (idx : value_index D) (x : D) (id : Nat) : value_index D :=
  if idx.offset ≤ id then { entries := idx.entries ++ [(id, x)], offset := id + 1 }
  else idx

/-- Modelled from the spec: `lookup(op, rhs)` returns a bitmap whose set bits
are exactly the ids in `[0, offset)` whose stored value satisfies `op rhs`,
the stored value being the truncated or capped form of the appended one; it
fails with `unsupported_operator` for an operator the index does not support. -/
def value_index.lookup {D : Type} (sem : data_semantics D) (idx : value_index D)
    (op : relational_operator) (rhs : D) : Except ec bitmap :=
  if sem.supported op then
    .ok ((List.range idx.offset).map
      (fun i => idx.entries.any
        (fun e => decide (e.1 = i) && sem.evaluate (sem.stored e.2) op rhs)))
  else .error ec.unsupported_operator

/-- Modelled from the spec: `deserialize` yields the value index that was
serialised, given here by the appends `(value, id)` it was built from. -/
def value_index.deserialize {D : Type} (appends : List (D × Nat)) : value_index D :=
  appends.foldl (fun idx e => idx.append e.1 e.2) (value_index.make D)

/-- Invariant of the value index: every stored id lies below the offset. -/
def value_index.wf {D : Type} (idx : value_index D) : Prop :=
  ∀ e ∈ idx.entries, e.1 < idx.offset

/-- Table slice: a batch of rows with a layout, a starting offset and
positional cell access. -/
structure table_slice (D : Type) where
  layout_name : String
  offset : Nat
  columns : Nat
  xs : List (List D)

/-- Number of rows, `rows()`. -/
def table_slice.rows {D : Type} (x : table_slice D) : Nat := x.xs.length

/-- Cell access `at(row, col)`, empty when the slice holds no such cell. -/
def table_slice.at_ {D : Type} (x : table_slice D) (row col : Nat) : Option D :=
  match x.xs[row]? with
  | some r => r[col]?
  | Option.none => Option.none

/-- Column index: the value index of one column together with its
persistence bookkeeping.  The value is an initialised index (`idx_` is set). -/
structure column_index (D : Type) where
  index_type_ : String
  filename_ : path
  idx_ : value_index D
  last_flush_ : Nat
  col_ : Nat

/-- What `column_index::init` finds on disk and what `value_index::make` can
construct.  `load` reads `last_flush` and the serialised value index, given by
its appends. -/
structure init_env (D : Type) where
  file_exists : path → Bool
  load : path → Except ec (Nat × List (D × Nat))
  constructible : String → Bool

/-- Initialisation `column_index::init`: materialises the index from the
backing file when it exists, constructs a new one otherwise. -/
def column_index.init {D : Type} (env : init_env D) (index_type : String) (filename : path)
    (col : Nat) : Except ec (column_index D) :=
  if env.file_exists filename then
    match env.load filename with
    | .error e => .error e
    | .ok (last_flush, appends) =>
      .ok { index_type_ := index_type, filename_ := filename,
            idx_ := value_index.deserialize appends, last_flush_ := last_flush, col_ := col }
  else if env.constructible index_type then
    .ok { index_type_ := index_type, filename_ := filename, idx_ := value_index.make D,
          last_flush_ := 0, col_ := col }
  else .error ec.unspecified

/-- Factory `make_column_index(filename, column_type, column)`. -/
def make_column_index {D : Type} (env : init_env D) (filename : path) (column_type : String)
    (column : Nat) : Except ec (column_index D) :=
  column_index.init env column_type filename column

/-- One iteration of the loop of `add`: the cell of `row` in column `col`, if
present, is appended under id `offset + row`. -/
def column_index.add_row {D : Type} (col : Nat) (x : table_slice D)
    (idx : value_index D) (row : Nat) : value_index D :=
  match x.at_ row col with
  | some element => idx.append element ((x.offset + row) % 2 ^ 64)
  | Option.none => idx

/-- Member `add` of the column index made by `make_column_index`. -/
def column_index.add {D : Type} (c : column_index D) (x : table_slice D) : column_index D :=
  { c with idx_ := (List.range x.rows).foldl (column_index.add_row c.col_ x) c.idx_ }

/-- Lookup `column_index::lookup(pred)`; `caf::get<data>(pred.rhs)` has no
defined result unless the right-hand side is a data value. -/
def column_index.lookup {D : Type} (sem : data_semantics D) (c : column_index D)
    (pred : predicate D) : Option (Except ec bitmap) :=
  match pred.rhs with
  | .data rhs => some (c.idx_.lookup sem pred.op rhs)
  | _ => Option.none

/-- Sample semantics on numbers: numbers are stored as they are, with
equality and order; pattern matching is unsupported. -/
def nat_semantics : data_semantics Nat where
  stored := fun x => x
  evaluate := fun x op y =>
    match op with
    | .equal => decide (x = y)
    | .not_equal => decide (x ≠ y)
    | .less => decide (x < y)
    | .less_equal => decide (x ≤ y)
    | .greater => decide (x > y)
    | .greater_equal => decide (x ≥ y)
    | _ => false
  supported := fun op =>
    match op with
    | .in_ => false
    | .match_ => false
    | _ => true

/-- Sample environment: no file exists, every type is constructible. -/
def fresh_env : init_env Nat where
  file_exists := fun _ => false
  load := fun _ => .error ec.no_such_file
  constructible := fun _ => true

/-- Sample environment: the backing file holds a value index with the value 7
at id 0, flushed at offset 1. -/
def loaded_env : init_env Nat where
  file_exists := fun _ => true
  load := fun _ => .ok (1, [(7, 0)])
  constructible := fun _ => true

/-- Sample semantics on strings: a string is stored with at most `max_length`
characters; equality and inequality are supported. -/
def string_semantics (max_length : Nat) : data_semantics (List Char) where
  stored := fun x => x.take max_length
  evaluate := fun x op y =>
    match op with
    | .equal => decide (x = y)
    | .not_equal => decide (x ≠ y)
    | _ => false
  supported := fun op =>
    match op with
    | .equal => true
    | .not_equal => true
    | _ => false

/-- Sample environment for strings: no file exists, every type is constructible. -/
def fresh_string_env : init_env (List Char) where
  file_exists := fun _ => false
  load := fun _ => .error ec.no_such_file
  constructible := fun _ => true

/-- Sample slice with one string of six characters at id 0. -/
def string_slice : table_slice (List Char) := { layout_name := "t", offset := 0, columns := 1, xs := [["abcdef".toList]] }

/-- Sample slices with ids `[2, 4)` and `[5, 6)`. -/
def slice1 : table_slice Nat := { layout_name := "t", offset := 2, columns := 2, xs := [[7, 1], [8, 2]] }

/-- Second sample slice. -/
def slice2 : table_slice Nat := { layout_name := "t", offset := 5, columns := 2, xs := [[7, 3]] }

/-! ## Index coordinator (index.cpp) -/

/-- Partition and query identifier (`vast/uuid.hpp` is absent): the 128-bit
value of the uuid. -/
abbrev uuid := Nat

/-- The nil uuid, `uuid::nil()`. -/
def uuid.nil : uuid := 0

/-- A predicate without its extractor. -/
structure curried_predicate (D : Type) where
  op : relational_operator
  rhs : D

/-- Evaluation map of a partition: per layout (given by name) the triples
`(offset, curried predicate, INDEXER)`. -/
abbrev evaluation_map (D : Type) := List (String × List (List Nat × curried_predicate D × actor))

/-- A partition as the coordinator uses it: its id and the evaluation map
`partition::eval` produces for an expression (layout resolution, `resolve`,
is not part of the sources at hand). -/
structure partition (D : Type) where
  id : uuid
  eval : expression D → evaluation_map D

/-- Candidates of a query that are still to be evaluated (`lookup_state`). -/
structure lookup_state (D : Type) where
  expr : expression D
  partitions : List uuid

/-- Result of `build_query_map`, `unordered_flat_map<uuid, evaluation_map>`:
entries in insertion order, keys unique. -/
abbrev pending_query_map (D : Type) := List (uuid × evaluation_map D)

/-- Insertion `result.emplace(id, eval)`: an existing entry is kept. -/
def pending_query_map.emplace {D : Type} (result : pending_query_map D) (id : uuid)
    (eval : evaluation_map D) : pending_query_map D :=
  if result.any (fun kv => decide (kv.1 = id)) then result else result ++ [(id, eval)]

/-- An EVALUATOR actor spawned by `launch_evaluators`, given by its arguments. -/
structure spawned_evaluator (D : Type) where
  expr : expression D
  eval : evaluation_map D

/-- Map from partition id to the evaluators launched for it (`query_map`). -/
abbrev query_map (D : Type) := List (uuid × List (spawned_evaluator D))

/-- Modelled from the spec: the partition cache (`vast/detail/cache.hpp` is
absent), a bounded LRU map from partition id to loaded partition; `elements`
lists the cached partitions, least recently used first. -/
structure lru_cache (D : Type) where
  capacity : Nat
  elements : List (partition D)

/-- Modelled from the spec: `contains(id)`. -/
def lru_cache.contains {D : Type} (c : lru_cache D) (id : uuid) : Bool :=
  c.elements.any (fun p => decide (p.id = id))

/-- Modelled from the spec: `get_or_add(id)` returns the cached partition and
marks it most recently used; on a miss the factory loads the partition,
evicting the least recently used one when the cache is full. -/
def lru_cache.get_or_add {D : Type} (c : lru_cache D) (factory : uuid → partition D)
    (id : uuid) : partition D × lru_cache D :=
  match c.elements.find? (fun p => decide (p.id = id)) with
  | some p =>
    (p, { capacity := c.capacity,
          elements := c.elements.filter (fun q => !decide (q.id = id)) ++ [p] })
  | Option.none =>
    let kept := if c.elements.length < c.capacity then c.elements else c.elements.drop 1
    (factory id, { capacity := c.capacity, elements := kept ++ [factory id] })

/-- State of the index coordinator (`index_state`).  `disk` stands for the
partitions persisted below `dir`: the evaluation map a partition loaded from
disk produces. -/
structure index_state (D : Type) where
  disk : uuid → expression D → evaluation_map D
  meta_idx : expression D → List uuid
  max_partition_size : Nat
  taste_partitions : Nat
  active : Option (partition D)
  active_partition_indexers : Nat
  unpersisted : List (partition D × Nat)
  lru_partitions : lru_cache D
  pending : List (uuid × lookup_state D)
  idle_workers : List actor

/-- The partition factory: loads partition `id` from disk. -/
def index_state.partition_factory {D : Type} (st : index_state D) (id : uuid) : partition D :=
  { id := id, eval := st.disk id }

/-- Test `worker_available`. -/
def index_state.worker_available {D : Type} (st : index_state D) : Bool :=
  !st.idle_workers.isEmpty

/-- Removal `next_worker`: takes the last idle worker; undefined on an empty list. -/
def index_state.next_worker {D : Type} (st : index_state D) : Option (actor × index_state D) :=
  match st.idle_workers.getLast? with
  | some w => some (w, { st with idle_workers := st.idle_workers.dropLast })
  | Option.none => Option.none

/-- Search `find_unpersisted`. -/
def index_state.find_unpersisted {D : Type} (st : index_state D) (id : uuid) :
    Option (partition D) :=
  match st.unpersisted.find? (fun kvp => decide (kvp.1.id = id)) with
  | some kvp => some kvp.1
  | Option.none => Option.none

/-- Update `decrement_indexer_count`.  Without an active partition, or for an
id that is neither active nor unpersisted, a null or end iterator is
dereferenced. -/
def index_state.decrement_indexer_count {D : Type} (st : index_state D) (partition_id : uuid) :
    Option (index_state D) :=
  match st.active with
  | Option.none => Option.none
  | some act =>
    if partition_id = act.id then
      some { st with active_partition_indexers := size_t_decrement st.active_partition_indexers }
    else
      match st.unpersisted.findIdx? (fun kvp => decide (kvp.1.id = partition_id)) with
      | Option.none => Option.none
      | some i =>
        match st.unpersisted[i]? with
        | Option.none => Option.none
        | some kvp =>
          if size_t_decrement kvp.2 = 0 then
            some { st with unpersisted := st.unpersisted.eraseIdx i }
          else
            some { st with unpersisted := st.unpersisted.set i (kvp.1, size_t_decrement kvp.2) }

/-- The predicate handed to `std::partition`: the candidate is the active
partition, an unpersisted partition, or present in the LRU cache. -/
def index_state.resident {D : Type} (st : index_state D) (candidate : uuid) : Bool :=
  (match st.active with
    | some act => decide (act.id = candidate)
    | Option.none => false)
  || (st.find_unpersisted candidate).isSome
  || st.lru_partitions.contains candidate

/-- The contract of `std::partition`: the range is permuted so that the
elements satisfying the predicate precede the others; the order within the two
groups is up to the implementation. -/
structure partition_algorithm where
  run : (uuid → Bool) → List uuid → List uuid
  perm : ∀ p xs, (run p xs).Perm xs
  partitioned : ∀ p xs, ∃ k, (∀ x ∈ (run p xs).take k, p x = true) ∧
    (∀ x ∈ (run p xs).drop k, p x = false)

/-- Helper `spin_up` of `build_query_map`: evaluates the expression on one
partition and records a non-empty evaluation map. -/
def index_state.spin_up {D : Type} (st : index_state D) (expr : expression D)
    (result : pending_query_map D) (partition_id : uuid) :
    index_state D × pending_query_map D :=
  let found : partition D × index_state D :=
    match st.active.filter (fun act => decide (act.id = partition_id)) with
    | some act => (act, st)
    | Option.none =>
      match st.find_unpersisted partition_id with
      | some ptr => (ptr, st)
      | Option.none =>
        let r := st.lru_partitions.get_or_add st.partition_factory partition_id
        (r.1, { st with lru_partitions := r.2 })
  let eval := found.1.eval expr
  if eval.isEmpty then (found.2, result)
  else (found.2, result.emplace partition_id eval)

/-- The loop of `build_query_map` over the candidates: returns the state, the
map and the candidates not visited. -/
def index_state.build_query_map.loop {D : Type} (expr : expression D) (num_partitions : Nat) :
    index_state D → pending_query_map D → List uuid →
      index_state D × pending_query_map D × List uuid
  | st, result, [] => (st, result, [])
  | st, result, i :: rest =>
    if result.length < num_partitions then
      index_state.build_query_map.loop expr num_partitions
        (st.spin_up expr result i).1 (st.spin_up expr result i).2 rest
    else (st, result, i :: rest)

/-- Scheduling `build_query_map(lookup, num_partitions)`: returns the state,
the lookup state with the visited candidates erased, and the map. -/
def index_state.build_query_map {D : Type} (alg : partition_algorithm) (st : index_state D)
    (lookup : lookup_state D) (num_partitions : Nat) :
    index_state D × lookup_state D × pending_query_map D :=
  if num_partitions = 0 ∨ lookup.partitions = [] then (st, lookup, [])
  else
    let r := index_state.build_query_map.loop lookup.expr num_partitions st []
      (alg.run st.resident lookup.partitions)
    (r.1, { expr := lookup.expr, partitions := r.2.2 }, r.2.1)

/-- Spawning `launch_evaluators`: one evaluator per scheduled partition. -/
def index_state.launch_evaluators {D : Type} (pqm : pending_query_map D) (expr : expression D) :
    query_map D :=
  pqm.map (fun kv => (kv.1, [{ expr := expr, eval := kv.2 }]))

/-- Modelled from the spec: `detail::narrow<uint32_t>` (`vast/detail/narrow.hpp`
is absent) converts a count that fits into 32 bits; it has no result otherwise. -/
def detail.narrow (x : Nat) : Option Nat :=
  if x < 2 ^ 32 then some x else Option.none

/-- The index actor: its state, the constructor argument `taste_partitions`
(a `size_t`) captured by the handlers, and whether the `has_worker` behaviour
is installed on top of the default behaviour. -/
structure index_actor (D : Type) where
  state : index_state D
  taste_partitions : Nat
  has_worker : Bool

/-- Messages of the coordinator.  A query carries the id `uuid::random()`
draws for it; `sender` is `none` for an anonymous message. -/
inductive index_message (D : Type) where
  | query (expr : expression D) (sender : Option actor) (random_id : uuid)
  | continuation (query_id : uuid) (num_partitions : Nat) (sender : Option actor)
  | worker (w : actor)
  | done (partition_id : uuid)

/-- What a handler sends. -/
inductive index_output (D : Type) where
  | respond_invalid_argument
  | respond (client : actor) (query_id : uuid) (hits scheduling : Nat)
  | done (client : actor)
  | dispatch (worker : actor) (expr : expression D) (qm : query_map D) (client : actor)

/-- Is the output the `done` signal for the client? -/
def index_output.is_done {D : Type} (client : actor) : index_output D → Bool
  | .done c => decide (c = client)
  | _ => false

/-- Lookup `pending.find(query_id)`. -/
def pending_find {D : Type} (pending : List (uuid × lookup_state D)) (query_id : uuid) :
    Option (lookup_state D) :=
  match pending.find? (fun kv => decide (kv.1 = query_id)) with
  | some kv => some kv.2
  | Option.none => Option.none

/-- Removal `pending.erase(query_id)`. -/
def pending_erase {D : Type} (pending : List (uuid × lookup_state D)) (query_id : uuid) :
    List (uuid × lookup_state D) :=
  pending.filter (fun kv => !decide (kv.1 = query_id))

/-- Insertion `pending.emplace(query_id, lookup)`: an existing entry is kept. -/
def pending_emplace {D : Type} (pending : List (uuid × lookup_state D)) (query_id : uuid)
    (lookup : lookup_state D) : List (uuid × lookup_state D) :=
  if pending.any (fun kv => decide (kv.1 = query_id)) then pending
  else pending ++ [(query_id, lookup)]

/-- Assignment through the iterator `iter->second` of the entry of `query_id`. -/
def pending_assign {D : Type} (pending : List (uuid × lookup_state D)) (query_id : uuid)
    (lookup : lookup_state D) : List (uuid × lookup_state D) :=
  pending.map (fun kv => if kv.1 = query_id then (kv.1, lookup) else kv)

/-- Handler of `has_worker` for a new query expression. -/
def index.on_query {D : Type} (alg : partition_algorithm) (a : index_actor D)
    (expr : expression D) (sender : Option actor) (random_id : uuid) :
    Option (index_actor D × List (index_output D)) :=
  match sender with
  | Option.none => some (a, [.respond_invalid_argument])
  | some client =>
    let candidates := a.state.meta_idx expr
    if candidates = [] then some (a, [.respond client uuid.nil 0 0, .done client])
    else
      let r := a.state.build_query_map alg { expr := expr, partitions := candidates }
        a.state.taste_partitions
      let st := r.1
      let lookup := r.2.1
      let pqm := r.2.2
      if pqm.isEmpty then
        some ({ a with state := st }, [.respond client uuid.nil 0 0, .done client])
      else
        let hits := pqm.length + lookup.partitions.length
        let scheduling := min a.taste_partitions hits
        let query_id := if scheduling = hits then uuid.nil else random_id
        match detail.narrow hits, detail.narrow scheduling with
        | some hits32, some scheduling32 =>
          let qm := index_state.launch_evaluators pqm expr
          let st1 : index_state D :=
            if lookup.partitions = [] then st
            else { st with pending := pending_emplace st.pending query_id lookup }
          match st1.next_worker with
          | Option.none => Option.none
          | some (w, st2) =>
            some ({ state := st2, taste_partitions := a.taste_partitions,
                    has_worker := if st2.worker_available then a.has_worker else false },
                  [.respond client query_id hits32 scheduling32, .dispatch w expr qm client])
        | _, _ => Option.none

/-- Handler of `has_worker` for a continuation `(query_id, num_partitions)`. -/
def index.on_continuation {D : Type} (alg : partition_algorithm) (a : index_actor D)
    (query_id : uuid) (num_partitions : Nat) (sender : Option actor) :
    Option (index_actor D × List (index_output D)) :=
  if num_partitions = 0 then
    some ({ a with state := { a.state with pending := pending_erase a.state.pending query_id } },
          [])
  else
    match sender with
    | Option.none => some (a, [])
    | some client =>
      match pending_find a.state.pending query_id with
      | Option.none => some (a, [.done client])
      | some entry =>
        let r := a.state.build_query_map alg entry num_partitions
        let st := r.1
        let lookup := r.2.1
        let pqm := r.2.2
        if pqm.isEmpty then
          some ({ a with state := { st with pending := pending_erase st.pending query_id } },
                [.done client])
        else
          let qm := index_state.launch_evaluators pqm lookup.expr
          match st.next_worker with
          | Option.none => Option.none
          | some (w, st1) =>
            let pending :=
              if lookup.partitions = [] then pending_erase st1.pending query_id
              else pending_assign st1.pending query_id lookup
            some ({ a with state := { st1 with pending := pending } },
                  [.dispatch w lookup.expr qm client])

/-- Handler for a worker that announces itself: the default behaviour also
installs `has_worker`. -/
def index.on_worker {D : Type} (a : index_actor D) (w : actor) : index_actor D :=
  { state := { a.state with idle_workers := a.state.idle_workers ++ [w] },
    taste_partitions := a.taste_partitions, has_worker := true }

/-- One message handled by the coordinator.  Under the default behaviour
queries and continuations are skipped and stay in the mailbox. -/
def index.step {D : Type} (alg : partition_algorithm) (a : index_actor D) :
    index_message D → Option (index_actor D × List (index_output D))
  | .query expr sender random_id =>
    if a.has_worker then index.on_query alg a expr sender random_id else some (a, [])
  | .continuation query_id num_partitions sender =>
    if a.has_worker then index.on_continuation alg a query_id num_partitions sender
    else some (a, [])
  | .worker w => some (index.on_worker a w, [])
  | .done partition_id =>
    match a.state.decrement_indexer_count partition_id with
    | some st => some ({ a with state := st }, [])
    | Option.none => Option.none

/-- A sequence of messages handled in order; the outputs are collected. -/
def index.run {D : Type} (alg : partition_algorithm) :
    index_actor D → List (index_message D) → Option (index_actor D × List (index_output D))
  | a, [] => some (a, [])
  | a, msg :: rest =>
    match index.step alg a msg with
    | Option.none => Option.none
    | some (a1, out1) =>
      match index.run alg a1 rest with
      | Option.none => Option.none
      | some (a2, out2) => some (a2, out1 ++ out2)

/-- The coordinator after `index_state::init`: no active partition, no worker
announced yet, the default behaviour installed.  `init` takes the taste and
the cache size as `uint32_t`. -/
def index.spawn {D : Type} (disk : uuid → expression D → evaluation_map D)
    (meta_idx : expression D → List uuid)
    (max_partition_size in_mem_partitions taste_partitions : Nat) : index_actor D :=
  { state :=
      { disk := disk, meta_idx := meta_idx, max_partition_size := max_partition_size,
        taste_partitions := taste_partitions % 2 ^ 32, active := Option.none,
        active_partition_indexers := 0, unpersisted := [],
        lru_partitions := { capacity := in_mem_partitions % 2 ^ 32, elements := [] },
        pending := [], idle_workers := [] },
    taste_partitions := taste_partitions, has_worker := false }

/-- States the coordinator reaches from `a0` by handling the messages of
`index.step` (queries, continuations, workers announcing themselves, `done`
of an INDEXER).  The stream of slices that fills and rotates partitions is not
among these messages; its effect on the state is described by
`index_state.rotation_reachable`. -/
inductive index.reachable {D : Type} (alg : partition_algorithm) (a0 : index_actor D) :
    index_actor D → Prop where
  | start : index.reachable alg a0 a0
  | step (a a1 : index_actor D) (msg : index_message D) (out : List (index_output D)) :
      index.reachable alg a0 a → index.step alg a msg = some (a1, out) →
      index.reachable alg a0 a1

/-- A `std::partition` that keeps the relative order within both groups. -/
def stable_partition : partition_algorithm where
  run := fun p xs => xs.filter p ++ xs.filter (fun x => !p x)
  perm := fun p xs => List.filter_append_perm p xs
  partitioned := fun p xs => by
    refine ⟨(xs.filter p).length, ?_, ?_⟩
    · intro x hx
      rw [List.take_left' rfl] at hx
      exact (List.mem_filter.mp hx).2
    · intro x hx
      rw [List.drop_left' rfl] at hx
      simpa using (List.mem_filter.mp hx).2

/-- Sample evaluation map with one triple. -/
def sample_eval : evaluation_map Nat := [("t", [([0], ⟨.equal, 1⟩, 7)])]

/-- Sample disk: partition 3 resolves no layout, every other partition yields one triple. -/
def sample_disk : uuid → expression Nat → evaluation_map Nat :=
  fun id _ => if id = 3 then [] else sample_eval

/-- Sample meta index: partitions 1 to 4 are candidates for every expression. -/
def sample_meta_idx : expression Nat → List uuid := fun _ => [1, 2, 3, 4]

/-- Sample coordinator with `taste_partitions = 1` and room for 10 cached partitions. -/
def sample_index : index_actor Nat := index.spawn sample_disk sample_meta_idx 100 10 1

/-! ## Further bitmap operations -/

/-- Modelled from the spec: `append_bits(bit, n)` appends `n` copies of `bit`. -/
def bitmap.append_bits (b : bitmap) (bit : Bool) (n : Nat) : bitmap :=
  b ++ List.replicate n bit

/-- Modelled from the spec: `append_bit(bit)` appends one bit. -/
def bitmap.append_bit (b : bitmap) (bit : Bool) : bitmap := b ++ [bit]

/-- Modelled from the spec: difference (`operator-=`), the ids of the left
operand that are not in the right one; the result has the size of the longer
operand. -/
def bitmap.sub : bitmap → bitmap → bitmap
  | [], ys => ys.map (fun _ => false)
  | x :: xs, [] => x :: xs
  | x :: xs, y :: ys => (x && !y) :: bitmap.sub xs ys

/-- Modelled from the spec: `rank(bm)`, the number of set bits. -/
def bitmap.rank (b : bitmap) : Nat := b.count true

/-- Modelled from the spec: `select(bm)`, the positions of the set bits in
increasing order. -/
def bitmap.select (b : bitmap) : List Nat :=
  (List.range b.length).filter (fun i => b.test i)

/-- Subtraction of two `size_t` values. -/
def size_t_sub (a b : Nat) : Nat := (a + 2 ^ 64 - b % 2 ^ 64) % 2 ^ 64

/-! ## Types and table indexer (table_indexer.cpp) -/

/-- Modelled from the spec: the kinds of types (`vast/type.hpp` is absent). -/
inductive type_kind where
  | none
  | bool
  | integer
  | count
  | real
  | duration
  | time
  | string
  | pattern
  | address
  | subnet
  | port
  | vector
  | set
  | map
  deriving DecidableEq, Repr

/-- Modelled from the spec: a type is a kind together with its attributes
(given by their keys, such as "skip" or "timestamp"). -/
structure type where
  kind : type_kind
  attributes : List String
  deriving DecidableEq, Repr

/-- Modelled from the spec: `has_attribute(t, key)`. -/
def has_attribute (t : type) (key : String) : Bool := t.attributes.contains key

/-- Field of a record: a name and a type. -/
structure record_field where
  name : String
  type : type
  deriving DecidableEq, Repr

/-- Modelled from the spec: the layout of a table, a flat record type: a name
and the fields of the columns. -/
structure record_type where
  name : String
  fields : List record_field
  deriving DecidableEq, Repr

/-- Table indexer: the layout, the lazily spawned INDEXER handles (one slot
per column), the ids of the rows of this layout and the skip mask. -/
structure table_indexer where
  layout : record_type
  indexers_ : List (Option actor)
  row_ids_ : ids
  last_flush_size_ : Nat
  skip_mask_ : List Bool

/-- Constructor `table_indexer(parent, layout)`. -/
def table_indexer.new (layout : record_type) : table_indexer :=
  { layout := layout, indexers_ := List.replicate layout.fields.length Option.none,
    row_ids_ := [], last_flush_size_ := 0,
    skip_mask_ := layout.fields.map (fun f => has_attribute f.type "skip") }

/-- Member `table_indexer::add`: stores the ids of the rows of a slice with
offset `offset` (`x->offset()`) and `rows` rows. -/
def table_indexer.add (t : table_indexer) (offset rows : Nat) : table_indexer :=
  let first := offset
  let last := (offset + rows) % 2 ^ 64
  let gap := t.row_ids_.append_bits false (size_t_sub first t.row_ids_.length)
  { t with row_ids_ := gap.append_bits true (size_t_sub last first) }

/-! ## Partition rotation (index.cpp) -/

/-- Factory `make_partition(id)`: a new partition without layouts, whose
evaluation map is empty for every expression. -/
def index_state.make_partition {D : Type} (id : uuid) : partition D :=
  { id := id, eval := fun _ => [] }

/-- Rotation `reset_active_partition`; `new_id` is the id `uuid::random()`
draws for the new partition.  The flushes write files and log their errors;
they do not change the state kept here. -/
def index_state.reset_active_partition {D : Type} (st : index_state D) (new_id : uuid) :
    index_state D :=
  let unpersisted :=
    match st.active with
    | some act =>
      if st.active_partition_indexers > 0 then
        st.unpersisted ++ [(act, st.active_partition_indexers)]
      else st.unpersisted
    | Option.none => st.unpersisted
  let active : Option (partition D) := some (index_state.make_partition new_id)
  { st with unpersisted := unpersisted, active := active, active_partition_indexers := 0 }

/-- A coordinator state with active partition 7 and no INDEXER of it running. -/
def sample_rotation_state : index_state Nat :=
  { sample_index.state with active := some (index_state.make_partition 7),
                            active_partition_indexers := 0 }

/-- A coordinator state with active partition 7, two of its INDEXERs running,
and the unpersisted partitions 5 (counter 1) and 6 (counter 3). -/
def sample_rotation_state2 : index_state Nat :=
  { sample_index.state with
      active := some (index_state.make_partition 7),
      active_partition_indexers := 2,
      unpersisted := [(index_state.make_partition 5, 1), (index_state.make_partition 6, 3)] }

/-- States reached from `st0` by `reset_active_partition` and
`decrement_indexer_count`.  The id `uuid::random()` draws for a new partition is
taken to be fresh: it names neither the active nor an unpersisted partition.
`decrement_indexer_count` has a result exactly for the ids of the active or an
unpersisted partition.  The counter of the active partition is raised by code
outside the two functions when INDEXER actors are spawned. -/
inductive index_state.rotation_reachable {D : Type} (st0 : index_state D) :
    index_state D → Prop where
  | start : index_state.rotation_reachable st0 st0
  | reset (st : index_state D) (new_id : uuid) :
      index_state.rotation_reachable st0 st →
      (∀ act, st.active = some act → act.id ≠ new_id) →
      (∀ kvp ∈ st.unpersisted, kvp.1.id ≠ new_id) →
      index_state.rotation_reachable st0 (st.reset_active_partition new_id)
  | decrement (st st1 : index_state D) (partition_id : uuid) :
      index_state.rotation_reachable st0 st →
      st.decrement_indexer_count partition_id = some st1 →
      index_state.rotation_reachable st0 st1
  | spawn_indexers (st : index_state D) (n : Nat) :
      index_state.rotation_reachable st0 st →
      index_state.rotation_reachable st0 { st with active_partition_indexers := n }

/-- Applies `add` for a sequence of slices given by offset and number of rows. -/
def table_indexer.add_all (t : table_indexer) (slices : List (Nat × Nat)) : table_indexer :=
  slices.foldl (fun acc x => acc.add x.1 x.2) t

/-- Slices that `add` accepts one after the other when the row ids have size
`size`: each has rows, starts at or after the ids present, and fits into 64 bits. -/
def valid_slices : Nat → List (Nat × Nat) → Bool
  | _, [] => true
  | size, (offset, rows) :: rest =>
    decide (0 < rows) && decide (size ≤ offset) && decide (offset < 2 ^ 64)
      && decide (rows < 2 ^ 64) && valid_slices (offset + rows) rest

/-! ## Flushing a column index (column_index.cpp) -/

/-- Write operations `flush_to_disk` attempts on the file system. -/
inductive fs_operation where
  | mkdir (dir : path)
  | save (filename : path) (last_flush : Nat)
  deriving DecidableEq, Repr

/-- The file system as `flush_to_disk` meets it: the parent directory of a
path, whether a directory exists, and the error, if any, of creating a
directory and of saving a file. -/
structure flush_env where
  parent : path → path
  dir_exists : path → Bool
  mkdir : path → Option ec
  save : path → Option ec

/-- Persisting `column_index::flush_to_disk`: returns the column index, the
error (`none` for `caf::none`) and the write operations attempted. -/
def column_index.flush_to_disk {D : Type} (env : flush_env) (c : column_index D) :
    column_index D × Option ec × List fs_operation :=
  let offset := c.idx_.offset
  if offset = c.last_flush_ then (c, Option.none, [])
  else
    let dir := env.parent c.filename_
    let created : Option ec × List fs_operation :=
      if env.dir_exists dir then (Option.none, []) else (env.mkdir dir, [.mkdir dir])
    match created.1 with
    | some err => (c, some err, created.2)
    | Option.none =>
      let c1 : column_index D := { c with last_flush_ := offset }
      match env.save c.filename_ with
      | some err => (c1, some err, created.2 ++ [.save c.filename_ offset])
      | Option.none => (c1, Option.none, created.2 ++ [.save c.filename_ offset])

/-- A file system in which directories exist and every write succeeds. -/
def sample_fs_ok : flush_env :=
  { parent := fun _ => "dir", dir_exists := fun _ => true,
    mkdir := fun _ => Option.none, save := fun _ => Option.none }

/-- A file system in which directories exist and saving fails. -/
def sample_fs_save_fails : flush_env :=
  { parent := fun _ => "dir", dir_exists := fun _ => true,
    mkdir := fun _ => Option.none, save := fun _ => some ec.filesystem_error }

/-- A file system without the directory, in which creating it fails. -/
def sample_fs_mkdir_fails : flush_env :=
  { parent := fun _ => "dir", dir_exists := fun _ => false,
    mkdir := fun _ => some ec.filesystem_error, save := fun _ => Option.none }

/-- A column index holding one append (id 0) that has not been persisted. -/
def sample_dirty_column : column_index Nat :=
  { index_type_ := "count", filename_ := "dir/col",
    idx_ := (value_index.make Nat).append 7 0, last_flush_ := 0, col_ := 0 }

/-! ## Resolving extractors to INDEXER handles (partition.cpp) -/

/-- What `fetch_indexer` takes from its surroundings: the handle of the INDEXER
`make_indexer` spawns for a column, the handle of the one-shot actor spawned
for a bitmap of row ids, whether a data value holds a timestamp, and
`evaluate(name, op, x)` for the layout name. -/
structure indexer_env (D : Type) where
  make_indexer : Nat → actor
  spawn_row_ids : ids → actor
  is_timestamp : D → Bool
  evaluate_name : String → relational_operator → D → Bool

/-- Member `table_indexer::indexer_at`: the handle in the slot of the column,
spawned on first use; undefined for a column without slot. -/
def table_indexer.indexer_at {D : Type} (env : indexer_env D) (tbl : table_indexer)
    (column : Nat) : Option (actor × table_indexer) :=
  match tbl.indexers_[column]? with
  | Option.none => Option.none
  | some (some hdl) => some (hdl, tbl)
  | some Option.none =>
    some (env.make_indexer column,
          { tbl with indexers_ := tbl.indexers_.set column (some (env.make_indexer column)) })

/-- Modelled from the spec: `record_type::flat_index_at` for a flat layout:
an offset with the single component `i` names column `i`. -/
def record_type.flat_index_at (r : record_type) (offset : List Nat) : Option Nat :=
  match offset with
  | [i] => if i < r.fields.length then some i else Option.none
  | _ => Option.none

/-- Overload `fetch_indexer(tbl, data_extractor, op, x)`; the record type of
the extractor is the layout of the table.  The inner `none` is the null handle. -/
def fetch_indexer.data_extractor {D : Type} (env : indexer_env D) (tbl : table_indexer)
    (offset : List Nat) : Option (Option actor × table_indexer) :=
  if offset.isEmpty then some (Option.none, tbl)
  else
    match tbl.layout.flat_index_at offset with
    | Option.none => some (Option.none, tbl)
    | some index =>
      match tbl.indexer_at env index with
      | Option.none => Option.none
      | some (hdl, tbl1) => some (some hdl, tbl1)

/-- The predicate of `std::find_if` in `fetch_indexer`: a time type with the
attribute "timestamp". -/
def is_timestamp_field (x : record_field) : Bool :=
  decide (x.type.kind = type_kind.time) && has_attribute x.type "timestamp"

/-- Overload `fetch_indexer(tbl, attribute_extractor, op, x)`. -/
def fetch_indexer.attribute_extractor {D : Type} (env : indexer_env D) (tbl : table_indexer)
    (attr : String) (op : relational_operator) (x : D) :
    Option (Option actor × table_indexer) :=
  if attr = "type" then
    if !env.evaluate_name tbl.layout.name op x then some (Option.none, tbl)
    else some (some (env.spawn_row_ids tbl.row_ids_), tbl)
  else if attr = "timestamp" then
    if !env.is_timestamp x then some (Option.none, tbl)
    else
      match tbl.layout.fields.findIdx? is_timestamp_field with
      | Option.none => some (Option.none, tbl)
      | some pos => fetch_indexer.data_extractor env tbl [pos]
  else some (Option.none, tbl)

/-- Sample layout with two time columns, none bearing "timestamp". -/
def sample_layout_untagged : record_type :=
  { name := "conn", fields := [⟨"start", ⟨.time, []⟩⟩, ⟨"stop", ⟨.time, ["skip"]⟩⟩] }

/-! ## Query result cursor (test/system/query.cpp) -/

/-- An event: its id and its content (`vast/event.hpp` is absent). -/
structure event (D : Type) where
  id : Nat
  value : D
  deriving DecidableEq, Repr

/-- Lifetime of a cursor (`query_result_cursor::state`). -/
inductive cursor_state where
  | active
  | sealed
  | finalized
  deriving DecidableEq, Repr

/-- Cursor `query_result_cursor<Policy>`.  The policy is passed to the member
functions as the callbacks they invoke, together with the policy's own state. -/
structure query_result_cursor (D : Type) where
  state_ : cursor_state
  hits_ : bitmap
  cache_ : List (event D)
  credit_ : Nat
  deriving DecidableEq, Repr

/-- A new cursor: active, without hits, cache or credit. -/
def query_result_cursor.new (D : Type) : query_result_cursor D :=
  { state_ := .active, hits_ := [], cache_ := [], credit_ := 0 }

/-- Member `seal`. -/
def query_result_cursor.seal {D : Type} (c : query_result_cursor D) : query_result_cursor D :=
  { c with state_ := .sealed }

/-- One iteration of the loop of `push(first, last)`: the id of the event is
marked in the mask and the event is cached when the policy selects it. -/
def query_result_cursor.push.step {D : Type}
    (selected : query_result_cursor D → event D → Bool)
    (acc : bitmap × query_result_cursor D) (x : event D) : bitmap × query_result_cursor D :=
  let mask := (acc.1.append_bits false (size_t_sub x.id acc.1.length)).append_bit true
  if selected acc.2 x then (mask, { acc.2 with cache_ := acc.2.cache_ ++ [x] })
  else (mask, acc.2)

/-- The part of `push(first, last)` before the policy is asked to push to the
sink: the loop over the events and `hits_ -= mask`. -/
def query_result_cursor.push.collect {D : Type}
    (selected : query_result_cursor D → event D → Bool)
    (c : query_result_cursor D) (events : List (event D)) : query_result_cursor D :=
  let r := events.foldl (query_result_cursor.push.step selected) ([], c)
  { r.2 with hits_ := r.2.hits_.sub r.1 }

/-- Member `push(first, last)`: collects the events and calls `policy_.push`. -/
def query_result_cursor.push {D S : Type}
    (selected : query_result_cursor D → event D → Bool)
    (policy_push : S → query_result_cursor D → S × query_result_cursor D)
    (s : S) (c : query_result_cursor D) (events : List (event D)) :
    S × query_result_cursor D :=
  policy_push s (query_result_cursor.push.collect selected c events)

/-- Member `add_ids`: unites the ids with the hits and calls `policy_.pull`. -/
def query_result_cursor.add_ids {D S : Type}
    (policy_pull : S → query_result_cursor D → S × query_result_cursor D)
    (s : S) (c : query_result_cursor D) (xs : bitmap) : S × query_result_cursor D :=
  policy_pull s { c with hits_ := c.hits_.or xs }

/-- Member `grant_credit`. -/
def query_result_cursor.grant_credit {D S : Type}
    (policy_pull : S → query_result_cursor D → S × query_result_cursor D)
    (s : S) (c : query_result_cursor D) (amount : Nat) : S × query_result_cursor D :=
  policy_pull s { c with credit_ := (c.credit_ + amount) % 2 ^ 64 }

/-- Member `fetch_credit`: `result` takes the credit, the credit is set to 0,
and `credit_` is returned. -/
def query_result_cursor.fetch_credit {D : Type} (c : query_result_cursor D) :
    Nat × query_result_cursor D :=
  let _result := c.credit_
  let c1 : query_result_cursor D := { c with credit_ := 0 }
  (c1.credit_, c1)

/-- Member `try_finalize`: a sealed cursor whose hits bitmap and cache are
empty becomes finalized and `policy_.finalize` is called. -/
def query_result_cursor.try_finalize {D S : Type}
    (policy_finalize : S → query_result_cursor D → S × query_result_cursor D)
    (s : S) (c : query_result_cursor D) : S × query_result_cursor D :=
  if c.state_ = .sealed ∧ c.hits_.empty = true ∧ c.cache_.isEmpty = true then
    policy_finalize s { c with state_ := .finalized }
  else (s, c)

/-- State of the policy `test_query_result_cursor`: the input buffer, the
position in it, and the output buffer. -/
structure test_query_result_cursor (D : Type) where
  input_ : List (event D)
  pos_ : Nat
  output_ : List (event D)

/-- Policy member `selected`: every event is selected. -/
def test_query_result_cursor.selected {D : Type} (_c : query_result_cursor D)
    (_x : event D) : Bool := true

/-- Policy member `push`: moves the cache of the cursor to the output. -/
def test_query_result_cursor.push {D : Type} (s : test_query_result_cursor D)
    (c : query_result_cursor D) : test_query_result_cursor D × query_result_cursor D :=
  ({ s with output_ := s.output_ ++ c.cache_ }, { c with cache_ := [] })

/-- Policy member `pull`: pushes as many of the remaining input events as
`fetch_credit` allows and seals the cursor at the end of the input. -/
def test_query_result_cursor.pull {D : Type} (s : test_query_result_cursor D)
    (c : query_result_cursor D) : test_query_result_cursor D × query_result_cursor D :=
  let remaining := s.input_.length - s.pos_
  let fetched := c.fetch_credit
  let n := min remaining fetched.1
  if n = 0 then (s, fetched.2)
  else
    let r := query_result_cursor.push test_query_result_cursor.selected
      test_query_result_cursor.push s fetched.2 ((s.input_.drop s.pos_).take n)
    let s1 : test_query_result_cursor D := { r.1 with pos_ := s.pos_ + n }
    if s1.pos_ = s1.input_.length then (s1, r.2.seal) else (s1, r.2)

/-- A sink that records what reaches it: the events delivered and the number
of `finalize` notifications. -/
structure recording_sink (D : Type) where
  output : List (event D)
  finalized : Nat
  deriving DecidableEq, Repr

/-- Policy callback `push` of the recording sink: delivers the cache. -/
def recording_sink.push {D : Type} (s : recording_sink D) (c : query_result_cursor D) :
    recording_sink D × query_result_cursor D :=
  ({ s with output := s.output ++ c.cache_ }, { c with cache_ := [] })

/-- Policy callback `pull` of the recording sink: nothing is pulled. -/
def recording_sink.pull {D : Type} (s : recording_sink D) (c : query_result_cursor D) :
    recording_sink D × query_result_cursor D := (s, c)

/-- Policy callback `finalize` of the recording sink: counts the notification. -/
def recording_sink.finalize {D : Type} (s : recording_sink D) (c : query_result_cursor D) :
    recording_sink D × query_result_cursor D :=
  ({ s with finalized := s.finalized + 1 }, c)

/-- The scenario: ids 0 and 1 are added, both events are pushed and delivered,
the cursor is sealed, and `try_finalize` is called. -/
def sample_cursor_session : recording_sink Nat × query_result_cursor Nat :=
  let r1 := query_result_cursor.add_ids recording_sink.pull
    ({ output := [], finalized := 0 } : recording_sink Nat) (query_result_cursor.new Nat)
    [true, true]
  let r2 := query_result_cursor.push (fun _ _ => true) recording_sink.push r1.1 r1.2
    [⟨0, 10⟩, ⟨1, 11⟩]
  query_result_cursor.try_finalize recording_sink.finalize r2.1 r2.2.seal

/-! ## Event pipeline with the buffering source (test/system/query_result.cpp) -/

/-- Test source `dummy_source`: the archive (event per id, keys unique), the
ids selected so far, the buffer of events ready for the sink, and the demand. -/
structure dummy_source (D : Type) where
  archive_ : List (Nat × event D)
  selected_ : ids
  buf_ : List (event D)
  demand_ : Nat

/-- Test sink `dummy_sink`: collects what is pushed to it. -/
structure dummy_sink (D : Type) where
  output_ : List (event D)

/-- Pipeline `make_event_pipeline(source, sink)`: the source pushes to the sink
and the sink pulls from the source. -/
structure event_pipeline (D : Type) where
  source : dummy_source D
  sink : dummy_sink D

/-- Lookup `archive_.find(id)`. -/
def dummy_source.find {D : Type} (archive : List (Nat × event D)) (id : Nat) :
    Option (event D) :=
  match archive.find? (fun kv => decide (kv.1 = id)) with
  | some kv => some kv.2
  | Option.none => Option.none

/-- Insertion `archive_.emplace(id, event)`: an existing entry is kept. -/
def dummy_source.emplace {D : Type} (archive : List (Nat × event D)) (x : event D) :
    List (Nat × event D) :=
  match dummy_source.find archive x.id with
  | some _ => archive
  | Option.none => archive ++ [(x.id, x)]

/-- Constructor `dummy_source(xs)`: for every event an entry under its id is
emplaced into the archive. -/
def dummy_source.new {D : Type} (xs : List (event D)) : dummy_source D :=
  { archive_ := xs.foldl dummy_source.emplace [], selected_ := [], buf_ := [], demand_ := 0 }

/-- Member `dummy_sink::push`. -/
def dummy_sink.push {D : Type} (k : dummy_sink D) (xs : List (event D)) : dummy_sink D :=
  { output_ := k.output_ ++ xs }

/-- Private member `dummy_source::push`: hands `min(demand, buffered)` events
from the end of the buffer to the sink. -/
def dummy_source.push {D : Type} (p : event_pipeline D) : event_pipeline D :=
  let n := min p.source.demand_ p.source.buf_.length
  if 0 < n then
    let tmp := if n = p.source.buf_.length then p.source.buf_
      else p.source.buf_.drop (p.source.buf_.length - n)
    let buf := if n = p.source.buf_.length then []
      else p.source.buf_.take (p.source.buf_.length - n)
    { source := { p.source with buf_ := buf, demand_ := size_t_sub p.source.demand_ n },
      sink := p.sink.push tmp }
  else p

/-- Member `dummy_source::pull`. -/
def dummy_source.pull {D : Type} (p : event_pipeline D) (num : Nat) : event_pipeline D :=
  dummy_source.push
    { p with source := { p.source with demand_ := (p.source.demand_ + num) % 2 ^ 64 } }

/-- Member `dummy_source::query`: returns the pipeline and the number of newly
queried ids. -/
def dummy_source.query {D : Type} (p : event_pipeline D) (xs : ids) :
    event_pipeline D × Nat :=
  let ys := xs.sub p.source.selected_
  let result := ys.rank
  if result = 0 then (p, 0)
  else
    let found := ys.select.filterMap (dummy_source.find p.source.archive_)
    let src : dummy_source D :=
      { p.source with selected_ := p.source.selected_.or ys, buf_ := p.source.buf_ ++ found }
    (dummy_source.push { p with source := src }, result)

/-- Member `event_source::at_end` of the source: nothing is available or pending. -/
def dummy_source.at_end {D : Type} (src : dummy_source D) : Bool :=
  decide (src.buf_.length + 0 = 0)

/-- Calls on a pipeline. -/
inductive pipeline_call where
  | query (xs : ids)
  | add_credit (num : Nat)

/-- Members `event_pipeline::query` and `event_pipeline::add_credit`. -/
def event_pipeline.call {D : Type} (p : event_pipeline D) : pipeline_call → event_pipeline D
  | .query xs => (dummy_source.query p xs).1
  | .add_credit num => dummy_source.pull p num

/-- Member `event_pipeline::at_end`. -/
def event_pipeline.at_end {D : Type} (p : event_pipeline D) : Bool := p.source.at_end

/-- A pipeline over a source constructed from `xs` and an empty sink. -/
def event_pipeline.new {D : Type} (xs : List (event D)) : event_pipeline D :=
  { source := dummy_source.new xs, sink := { output_ := [] } }

/-- Total credit granted by a sequence of calls. -/
def total_credit : List pipeline_call → Nat
  | [] => 0
  | .query _ :: rest => total_credit rest
  | .add_credit num :: rest => num + total_credit rest

/-- The ids queried by a sequence of calls. -/
def queried_ids : List pipeline_call → ids
  | [] => []
  | .query xs :: rest => bitmap.or xs (queried_ids rest)
  | .add_credit _ :: rest => queried_ids rest

/-- Number of ids of a bitmap for which the archive holds an event. -/
def archived_count {D : Type} (archive : List (Nat × event D)) (b : bitmap) : Nat :=
  (b.select.filter (fun id => (dummy_source.find archive id).isSome)).length

/-- Thirty events with the ids 0 to 29. -/
def sample_events : List (event Nat) := (List.range 30).map (fun i => ⟨i, 100 + i⟩)

/-- The ids `[10, 20)`. -/
def sample_ids_small : ids := List.replicate 10 false ++ List.replicate 10 true

/-- The ids `[10, 40)`. -/
def sample_ids : ids := List.replicate 10 false ++ List.replicate 30 true

/-- Bookkeeping of the pipeline: delivered and buffered events are the
archived events of the selected ids; delivered events and demand add up to the
credit `credit`. -/
def pipeline_inv {D : Type} (p : event_pipeline D) (credit : Nat) : Prop :=
  p.sink.output_.length + p.source.buf_.length
    = archived_count p.source.archive_ p.source.selected_ ∧
  p.sink.output_.length + p.source.demand_ = credit

/-- Between calls no demand is left while events are buffered. -/
def pipeline_settled {D : Type} (p : event_pipeline D) : Prop :=
  p.source.demand_ = 0 ∨ p.source.buf_ = []

/-! ## Printing (print.cpp) -/

/-- Modelled from its use in `print_number`: `detail::byte_to_char`
(`vast/detail/coding.hpp` is absent) yields the character of a digit value;
values from 10 on are taken to map to lower-case letters. -/
def detail.byte_to_char (b : Nat) : Char :=
  if b < 10 then Char.ofNat (48 + b) else Char.ofNat (87 + b)

/-- The loop `while (x > 0) { *ptr++ = byte_to_char(x % 10); x /= 10; }` of
`print_number`, with `room` cells of `tmp` still free.  Division and remainder
truncate as in C++.  A write past the end of `tmp` has no result. -/
def print_number.positive_loop : Nat → Int → List Char → Option (List Char)
  | 0, x, tmp => if x > 0 then Option.none else some tmp
  | room + 1, x, tmp =>
    if x > 0 then
      print_number.positive_loop room (x.tdiv 10)
        (tmp ++ [detail.byte_to_char (x.tmod 10).toNat])
    else some tmp

/-- The loop `while (x < 0) { *ptr++ = byte_to_char(-(x % 10)); x /= 10; }` of
`print_number`, with `room` cells of `tmp` still free. -/
def print_number.negative_loop : Nat → Int → List Char → Option (List Char)
  | 0, x, tmp => if x < 0 then Option.none else some tmp
  | room + 1, x, tmp =>
    if x < 0 then
      print_number.negative_loop room (x.tdiv 10)
        (tmp ++ [detail.byte_to_char (-(x.tmod 10)).toNat])
    else some tmp

/-- The scope guard of `print_number`, run when the function returns: zero
padding up to `min_digits`, then the characters of `tmp` in reverse order. -/
def print_number.scope_guard (buf tmp : List Char) (min_digits : Nat) : List Char :=
  let n := tmp.length
  let padded := if n < min_digits then buf ++ List.replicate (min_digits - n) '0' else buf
  padded ++ tmp.reverse

/-- Function template `print_number<T>`; the type `T` is given by its
signedness and by `std::numeric_limits<T>::digits10`, the scratch array `tmp`
has `digits10 + 1` cells. -/
def print_number (is_signed : Bool) (digits10 : Nat) (buf : List Char) (x : Int)
    (min_digits : Nat) : Option (List Char) :=
  if x = 0 then some (buf ++ List.replicate min_digits '0')
  else if is_signed && decide (x < 0) then
    match print_number.negative_loop (digits10 + 1) x [] with
    | some tmp => some (print_number.scope_guard (buf ++ ['-']) tmp min_digits)
    | Option.none => Option.none
  else
    match print_number.positive_loop (digits10 + 1) x [] with
    | some tmp => some (print_number.scope_guard buf tmp min_digits)
    | Option.none => Option.none

/-- Overload `print(std::string&, integer)`; `integer` is a signed 64-bit
type, whose `digits10` is 18. -/
def print_integer (buf : List Char) (x : Int) : Option (List Char) :=
  print_number true 18 buf x 1

/-- Overload `print(std::string&, count)`; `count` is an unsigned 64-bit type,
whose `digits10` is 19. -/
def print_count (buf : List Char) (x : Nat) : Option (List Char) :=
  print_number false 19 buf x 1

/-- Overload `print(std::string&, boolean)`. -/
def print_boolean (buf : List Char) (x : Bool) : List Char :=
  buf ++ [if x then 'T' else 'F']

/-- The double quote character. -/
def char_quote : Char := Char.ofNat 34

/-- The backslash character. -/
def char_backslash : Char := Char.ofNat 92

/-- The horizontal tab character. -/
def char_tab : Char := Char.ofNat 9

/-- The line feed character. -/
def char_newline : Char := Char.ofNat 10

/-- Overload `print(std::string&, std::string_view)`: an opening quote, the
characters with the quote, the tab and the line feed replaced by a backslash
sequence, a closing quote.  Every other character is copied. -/
def print_string (buf : List Char) (x : List Char) : List Char :=
  (x.foldl (fun b c =>
      if c = char_quote then b ++ [char_backslash, char_quote]
      else if c = char_tab then b ++ [char_backslash, 't']
      else if c = char_newline then b ++ [char_backslash, 'n']
      else b ++ [c])
    (buf ++ [char_quote])) ++ [char_quote]

/-- Function template `print_range<Open, Close, Fill>` for a container given
by its elements in iteration order; `print` is the overload for the elements.
After the first element is printed the loop starts at `i`, which still points
to the first element. -/
def print_range {α : Type} (Open Close Fill : Char) (print : List Char → α → List Char)
    (buf : List Char) (xs : List α) : List Char :=
  match xs with
  | [] => (if Fill ≠ Char.ofNat 0 then buf ++ [Open] ++ [Fill] else buf ++ [Open]) ++ [Close]
  | x :: _ =>
    let first := print (buf ++ [Open]) x
    let looped := xs.foldl (fun b y => print (b ++ [',', ' ']) y) first
    looped ++ [Close]

/-- Overload `print(std::string&, const vector&)`. -/
def print_vector {α : Type} (print : List Char → α → List Char) (buf : List Char)
    (xs : List α) : List Char :=
  print_range '[' ']' (Char.ofNat 0) print buf xs

/-- Overload `print(std::string&, const set&)`. -/
def print_set {α : Type} (print : List Char → α → List Char) (buf : List Char)
    (xs : List α) : List Char :=
  print_range (Char.ofNat 123) (Char.ofNat 125) (Char.ofNat 0) print buf xs

/-- Overload `print(std::string&, const map&)`. -/
def print_map {α : Type} (print : List Char → α → List Char) (buf : List Char)
    (xs : List α) : List Char :=
  print_range (Char.ofNat 123) (Char.ofNat 125) '-' print buf xs

/-! ## Selecting rows of a table slice (table_slice.cpp) -/

/-- Modelled from the spec: `make_ids` for one range (`vast/ids.hpp` is
absent), the ids from `first` up to, not including, `last`. -/
def make_ids (first last : Nat) : ids :=
  List.replicate first false ++ List.replicate (last - first) true

/-- Modelled from the spec: `table_slice_builder` (the header is absent)
collects cells row by row for a layout with `columns` columns; `accepts` tells
which cells `add` takes. -/
structure table_slice_builder (D : Type) where
  layout_name : String
  columns : Nat
  accepts : D → Bool
  row : List D
  done : List (List D)

/-- Modelled from the spec: `add(cell)` appends a cell to the row under
construction and completes the row with its last column; it fails for a cell
the builder does not accept. -/
def table_slice_builder.add {D : Type} (b : table_slice_builder D) (x : D) :
    Option (table_slice_builder D) :=
  if b.accepts x then
    let row := b.row ++ [x]
    if row.length = b.columns then some { b with row := [], done := b.done ++ [row] }
    else some { b with row := row }
  else Option.none

/-- Modelled from the spec: `rows()`, the number of completed rows. -/
def table_slice_builder.rows {D : Type} (b : table_slice_builder D) : Nat := b.done.length

/-- Modelled from the spec: `finish()` hands out a slice with the completed
rows, null when there is none, and resets the builder. -/
def table_slice_builder.finish {D : Type} (b : table_slice_builder D) :
    Option (table_slice D) × table_slice_builder D :=
  (if b.done.isEmpty then Option.none
   else some { layout_name := b.layout_name, offset := 0, columns := b.columns, xs := b.done },
   { b with row := [], done := [] })

/-- The variables of `select` that change in its loop. -/
structure select_state (D : Type) where
  result : List (table_slice D)
  builder : table_slice_builder D
  last_offset : Nat
  last_id : Nat

/-- The lambda `push_slice` of `select`. -/
def select.push_slice {D : Type} (st : select_state D) : select_state D :=
  if st.builder.rows = 0 then st
  else
    match st.builder.finish with
    | (Option.none, b) => { st with builder := b }
    | (some slice, b) =>
      { st with result := st.result ++ [{ slice with offset := st.last_offset }], builder := b }

/-- The loop over the columns in `select`: `some (true, b)` when every cell
of the row was added, `some (false, b)` when `add` failed, and no result when
the slice has no such cell. -/
def select.add_cells {D : Type} (xs : table_slice D) (row : Nat) :
    List Nat → table_slice_builder D → Option (Bool × table_slice_builder D)
  | [], b => some (true, b)
  | column :: rest, b =>
    match xs.at_ row column with
    | Option.none => Option.none
    | some cell_value =>
      match b.add cell_value with
      | Option.none => some (false, b)
      | some b1 => select.add_cells xs row rest b1

/-- The loop `for (auto id : select(intersection))` of `select`, followed by
the last `push_slice`.  A failed assertion has no result; a failed `add`
returns with the slices pushed so far. -/
def select.loop {D : Type} (xs : table_slice D) :
    List Nat → select_state D → Option (List (table_slice D))
  | [], st => some (select.push_slice st).result
  | id :: rest, st =>
    let st1 : select_state D :=
      if (st.last_id + 1) % 2 ^ 64 ≠ id then
        { select.push_slice st with last_offset := id, last_id := id }
      else { st with last_id := (st.last_id + 1) % 2 ^ 64 }
    if id < xs.offset then Option.none
    else if ¬ (id - xs.offset < xs.rows) then Option.none
    else
      match select.add_cells xs (id - xs.offset) (List.range xs.columns) st1.builder with
      | Option.none => Option.none
      | some (false, _) => some st1.result
      | some (true, b) => select.loop xs rest { st1 with builder := b }

/-- Function `select(result, xs, selection)`.  `factory` stands for
`factory<table_slice_builder>::make` at the implementation of `xs`: absent when
no builder is registered, otherwise the cells its builders accept. -/
def select {D : Type} (factory : Option (D → Bool)) (result : List (table_slice D))
    (xs : table_slice D) (selection : ids) : Option (List (table_slice D)) :=
  let xs_ids := make_ids xs.offset ((xs.offset + xs.rows) % 2 ^ 64)
  let intersection := selection.and xs_ids
  let intersection_rank := intersection.rank
  if intersection_rank = 0 then some result
  else if xs_ids.rank = intersection_rank then some (result ++ [xs])
  else
    match factory with
    | Option.none => some result
    | some accepts =>
      select.loop xs intersection.select
        { result := result,
          builder := { layout_name := xs.layout_name, columns := xs.columns,
                       accepts := accepts, row := [], done := [] },
          last_offset := xs.offset, last_id := size_t_decrement xs.offset }

/-- Function `truncate(slice, num_rows)`; a failed assertion has no result. -/
def truncate {D : Type} (factory : Option (D → Bool)) (slice : table_slice D)
    (num_rows : Nat) : Option (table_slice D) :=
  if num_rows = 0 then Option.none
  else if slice.rows ≤ num_rows then some slice
  else
    match select factory [] slice
        (make_ids slice.offset ((slice.offset + num_rows) % 2 ^ 64)) with
    | Option.none => Option.none
    | some xs => if xs.length = 1 then xs.getLast? else Option.none

/-- Function `split(slice, partition_point)`; a null pointer of the pair is
an absent slice, a failed assertion has no result. -/
def split {D : Type} (factory : Option (D → Bool)) (slice : table_slice D)
    (partition_point : Nat) : Option (Option (table_slice D) × Option (table_slice D)) :=
  if partition_point = 0 then some (Option.none, some slice)
  else if partition_point ≥ slice.rows then some (some slice, Option.none)
  else
    let first := slice.offset
    let mid := (first + partition_point) % 2 ^ 64
    let last := (first + slice.rows) % 2 ^ 64
    match select factory [] slice (make_ids first mid) with
    | Option.none => Option.none
    | some xs =>
      if xs.length ≠ 1 then Option.none
      else
        match select factory xs slice (make_ids mid last) with
        | Option.none => Option.none
        | some ys => if ys.length ≠ 2 then Option.none else some (ys.head?, ys.getLast?)

/-- A slice with four rows, for the ids 10 to 13. -/
def sample_slice : table_slice Nat := { layout_name := "t", offset := 10, columns := 2, xs := [[1, 2], [3, 4], [5, 6], [7, 8]] }

/-- A selection that holds the ids 3, 10, 11, 13 and 14. -/
def sample_selection : ids :=
  [false, false, false, true] ++ List.replicate 6 false ++ [true, true, false, true, true]

/-! ## Auxiliary definitions used in the statements and proofs -/

/-- The entry the loop of `add` appends for a row, if any. -/
def column_index.row_entry {D : Type} (col : Nat) (x : table_slice D) (row : Nat) :
    Option (Nat × D) :=
  (x.at_ row col).map (fun v => (x.offset + row, v))

/-- The entries a slice contributes to column `col`. -/
def column_index.slice_entries {D : Type} (col : Nat) (x : table_slice D) : List (Nat × D) :=
  (List.range x.rows).filterMap (column_index.row_entry col x)

/-- The partition `spin_up` evaluates for a candidate in this state: the
active partition, else an unpersisted one, else the one the partition cache
hands out (cached, or loaded from disk). -/
def index_state.spin_up_partition {D : Type} (st : index_state D) (id : uuid) : partition D :=
  match st.active.filter (fun act => decide (act.id = id)) with
  | some act => act
  | Option.none =>
    match st.find_unpersisted id with
    | some ptr => ptr
    | Option.none => (st.lru_partitions.get_or_add st.partition_factory id).1

/-- Whether the partition of a candidate produces a non-empty evaluation map
for `expr` in this state. -/
def index_state.qualifies {D : Type} (st : index_state D) (expr : expression D)
    (id : uuid) : Bool :=
  !((st.spin_up_partition id).eval expr).isEmpty

/-- A candidate list in which the candidates resident in `st0` precede the
others. -/
def index_state.residents_first {D : Type} (st0 : index_state D) (cs : List uuid) : Prop :=
  ∃ k, (∀ x ∈ cs.take k, st0.resident x = true) ∧ (∀ x ∈ cs.drop k, st0.resident x = false)

/-- How the state `st` inside the loop of `build_query_map`, with the
candidates `cs` still to visit, relates to the state `st0` at the call: only
the partition cache differs; it holds partitions that were cached at the call
or have been loaded from disk since; and as long as a resident candidate is
still to be visited the cache finds the same partition for every id. -/
def index_state.loop_inv {D : Type} (st0 st : index_state D) (cs : List uuid) : Prop :=
  st.active = st0.active ∧ st.unpersisted = st0.unpersisted ∧ st.disk = st0.disk ∧
  (∀ p ∈ st.lru_partitions.elements,
    p ∈ st0.lru_partitions.elements ∨ p = st0.partition_factory p.id) ∧
  ((∃ x ∈ cs, st0.resident x = true) →
    ∀ y, st.lru_partitions.elements.find? (fun p => decide (p.id = y))
      = st0.lru_partitions.elements.find? (fun p => decide (p.id = y)))

/-- A coordinator with `has_worker` installed, one idle worker and two pending queries. -/
def sample_busy_index : index_actor Nat :=
  { state := { sample_index.state with
      idle_workers := [10],
      pending := [(98, ⟨exprAorB, [1]⟩), (99, ⟨exprAandB, [2, 3, 4]⟩)] },
    taste_partitions := 1, has_worker := true }

/-- The call of `build_query_map` in the new-query handler: the candidates of
the meta index, at most `st.taste_partitions` of them scheduled. -/
abbrev index.query_batch {D : Type} (alg : partition_algorithm) (a : index_actor D)
    (expr : expression D) : index_state D × lookup_state D × pending_query_map D :=
  a.state.build_query_map alg ⟨expr, a.state.meta_idx expr⟩ a.state.taste_partitions

/-- The canonical decimal representation of a natural number: the digit 0
for zero, otherwise the decimal digits from the most significant, which is not
zero, to the least significant. -/
def canonical_decimal (n : Nat) : List Char :=
  if n = 0 then ['0'] else (Nat.digits 10 n).reverse.map (fun d => Char.ofNat (48 + d))

/-- The canonical decimal representation of an integer: one minus sign in
front of the representation of the absolute value for a negative number. -/
def canonical_decimal_int (x : Int) : List Char :=
  if x < 0 then '-' :: canonical_decimal x.natAbs else canonical_decimal x.toNat

/-- The number a list of decimal digit characters denotes. -/
def decimal_value (cs : List Char) : Nat :=
  cs.foldl (fun acc c => 10 * acc + (c.toNat - 48)) 0

/-- The text between the brackets expected for a container: every element
once, `", "` between consecutive elements. -/
def print_separated {α : Type} (print : List Char → α → List Char) (buf : List Char) :
    List α → List Char
  | [] => buf
  | [x] => print buf x
  | x :: y :: rest => print_separated print (print buf x ++ [',', ' ']) (y :: rest)

/-- The ids of a slice that a selection holds, in ascending order. -/
def selected_ids {D : Type} (xs : table_slice D) (selection : ids) : List Nat :=
  (List.range' xs.offset xs.rows).filter selection.test

/-- The maximal runs of consecutive ids of a list of ids: an id joins the run
that follows it when that run starts with its successor. -/
def maximal_runs : List Nat → List (List Nat)
  | [] => []
  | id :: rest =>
    match maximal_runs rest with
    | [] => [[id]]
    | run :: runs =>
      if run.head? = some (id + 1) then (id :: run) :: runs else [id] :: run :: runs

/-- The rows of a slice at the given ids. -/
def rows_at {D : Type} (xs : table_slice D) (run : List Nat) : List (List D) :=
  run.filterMap (fun id => xs.xs[id - xs.offset]?)

/-- The slice expected for a run of ids: the layout of the original, the
first id of the run as offset, the original rows of the ids of the run. -/
def slice_of_run {D : Type} (xs : table_slice D) (run : List Nat) : table_slice D :=
  { layout_name := xs.layout_name, offset := run.headD 0, columns := xs.columns,
    xs := rows_at xs run }

/-- A coordinator that is ingesting: partition 3 is active and holds data not
yet on disk (its copy on disk resolves no layout), partition 4 is unpersisted
and resolves no layout, one worker is idle. -/
def sample_ingesting_index : index_actor Nat :=
  { state := { sample_index.state with
      active := some ⟨3, fun _ => sample_eval⟩,
      active_partition_indexers := 2,
      unpersisted := [(⟨4, fun _ => []⟩, 1)],
      idle_workers := [10] },
    taste_partitions := 1, has_worker := true }

/-- Intersection of the operands' results, left to right (the result of a
conjunction evaluated without short-circuit). -/
def intersection : List ids → ids
  | [] => []
  | v :: vs => vs.foldl bitmap.and v

/-- Union of the operands' results, left to right (the result of a disjunction
evaluated without short-circuit). -/
def union (vs : List ids) : ids := vs.foldl bitmap.or []

/-! ## Bitmap lemmas -/

namespace bitmap

theorem test_nil (i : Nat) : test [] i = false := by
  simp [test]

theorem test_cons_zero (x : Bool) (xs : bitmap) : test (x :: xs) 0 = x := by
  simp [test]

theorem test_cons_succ (x : Bool) (xs : bitmap) (i : Nat) :
    test (x :: xs) (i + 1) = test xs i := by
  simp [test]

theorem test_map_false (b : bitmap) (i : Nat) :
    test (b.map (fun _ => false)) i = false := by
  induction b generalizing i with
  | nil => simp [test]
  | cons x xs ih =>
    cases i with
    | zero => simp [test]
    | succ n => rw [List.map_cons, test_cons_succ]; exact ih n

theorem test_and (a b : bitmap) (i : Nat) :
    (a.and b).test i = (a.test i && b.test i) := by
  induction a generalizing b i with
  | nil => rw [bitmap.and, test_map_false, test_nil]; rfl
  | cons x xs ih =>
    cases b with
    | nil => rw [bitmap.and, test_map_false, test_nil, Bool.and_false]
    | cons y ys =>
      cases i with
      | zero => simp [bitmap.and, test_cons_zero]
      | succ n => simp [bitmap.and, test_cons_succ, ih]

theorem test_or (a b : bitmap) (i : Nat) :
    (a.or b).test i = (a.test i || b.test i) := by
  induction a generalizing b i with
  | nil => rw [bitmap.or, test_nil, Bool.false_or]
  | cons x xs ih =>
    cases b with
    | nil => rw [bitmap.or, test_nil, Bool.or_false]
    | cons y ys =>
      cases i with
      | zero => simp [bitmap.or, test_cons_zero]
      | succ n => simp [bitmap.or, test_cons_succ, ih]

theorem all_0_cons (x : Bool) (xs : bitmap) :
    all_0 (x :: xs) = (!x && all_0 xs) := by
  simp [all_0]

theorem all_0_iff (b : bitmap) : b.all_0 = true ↔ ∀ i, b.test i = false := by
  induction b with
  | nil => simp [all_0, test]
  | cons x xs ih =>
    rw [all_0_cons]
    constructor
    · intro h i
      have hx : x = false ∧ all_0 xs = true := by simpa using h
      cases i with
      | zero => rw [test_cons_zero]; exact hx.1
      | succ n => rw [test_cons_succ]; exact (ih.mp hx.2) n
    · intro h
      have h0 : x = false := by simpa [test_cons_zero] using h 0
      have hs : all_0 xs = true := ih.mpr (fun i => by simpa [test_cons_succ] using h (i + 1))
      simp [h0, hs]

theorem empty_imp_all_0 (b : bitmap) (h : b.empty = true) : b.all_0 = true := by
  cases b with
  | nil => rfl
  | cons x xs => simp [empty] at h

theorem all_0_and_left (a b : bitmap) (h : a.all_0 = true) : (a.and b).all_0 = true := by
  rw [all_0_iff] at h ⊢
  intro i
  rw [test_and, h i, Bool.false_and]

theorem all_0_foldl_and (vs : List ids) (a : bitmap) (h : a.all_0 = true) :
    (vs.foldl bitmap.and a).all_0 = true := by
  induction vs generalizing a with
  | nil => exact h
  | cons v vs ih => exact ih _ (all_0_and_left a v h)

theorem test_foldl_and (vs : List ids) (a : bitmap) (i : Nat) :
    (vs.foldl bitmap.and a).test i = (a.test i && vs.all (fun v => v.test i)) := by
  induction vs generalizing a with
  | nil => simp
  | cons v vs ih => rw [List.foldl_cons, ih, test_and, List.all_cons, Bool.and_assoc]

theorem test_foldl_or (vs : List ids) (a : bitmap) (i : Nat) :
    (vs.foldl bitmap.or a).test i = (a.test i || vs.any (fun v => v.test i)) := by
  induction vs generalizing a with
  | nil => simp
  | cons v vs ih => rw [List.foldl_cons, ih, test_or, List.any_cons, Bool.or_assoc]

end bitmap

theorem test_intersection (vs : List ids) (hne : vs ≠ []) (i : Nat) :
    (intersection vs).test i = vs.all (fun v => v.test i) := by
  cases vs with
  | nil => exact absurd rfl hne
  | cons v vs => rw [intersection, bitmap.test_foldl_and, List.all_cons]

theorem test_union (vs : List ids) (i : Nat) :
    (union vs).test i = vs.any (fun v => v.test i) := by
  rw [union, bitmap.test_foldl_or, bitmap.test_nil, Bool.false_or]

/-! ## The conjunction visitor -/

/-- Short-circuit of the conjunction loop: once the running intersection of the
operands read so far has no set bit, the loop returns the empty bitmap, whatever
operands follow. -/
theorem conjunction_loop_short {D : Type} [DecidableEq D] (xs : predicate_map D)
    (pre post : List (expression D)) (vs : List ids) (result : ids)
    (hev : List.Forall₂ (fun e v => ids_evaluator xs e = some v) pre vs)
    (hres : result.all_0 = false)
    (hz : (vs.foldl bitmap.and result).all_0 = true) :
    ids_evaluator.conjunction_loop xs result (pre ++ post) = some [] := by
  induction hev generalizing result with
  | nil => simp at hz; rw [hz] at hres; exact absurd hres (by decide)
  | @cons e v es vs' he _ ih =>
    rw [List.cons_append, ids_evaluator.conjunction_loop, he]
    simp only
    by_cases hz1 : (result.and v).all_0 = true
    · simp [hz1]
    · have hz1f : (result.and v).all_0 = false := by simpa using hz1
      have hemp : (result.and v).empty = false := by
        cases hE : (result.and v).empty with
        | false => rfl
        | true => rw [bitmap.empty_imp_all_0 _ hE] at hz1f; exact absurd hz1f (by decide)
      simp only [hemp, hz1f, Bool.or_self, Bool.false_eq_true, if_false]
      exact ih (result.and v) hz1f (by simpa using hz)

/-- Without short-circuit the conjunction loop returns the full intersection. -/
theorem conjunction_loop_full {D : Type} [DecidableEq D] (xs : predicate_map D)
    (ops : List (expression D)) (vs : List ids) (result : ids)
    (hev : List.Forall₂ (fun e v => ids_evaluator xs e = some v) ops vs)
    (hz : (vs.foldl bitmap.and result).all_0 = false) :
    ids_evaluator.conjunction_loop xs result ops = some (vs.foldl bitmap.and result) := by
  induction hev generalizing result with
  | nil => simp [ids_evaluator.conjunction_loop]
  | @cons e v es vs' he _ ih =>
    rw [ids_evaluator.conjunction_loop, he]
    simp only
    have hz1f : (result.and v).all_0 = false := by
      cases h : (result.and v).all_0 with
      | false => rfl
      | true =>
        have := bitmap.all_0_foldl_and vs' _ h
        rw [List.foldl_cons] at hz
        rw [this] at hz; exact absurd hz (by decide)
    have hemp : (result.and v).empty = false := by
      cases hE : (result.and v).empty with
      | false => rfl
      | true => rw [bitmap.empty_imp_all_0 _ hE] at hz1f; exact absurd hz1f (by decide)
    simp only [hemp, hz1f, Bool.or_self, Bool.false_eq_true, if_false]
    exact ih (result.and v) (by simpa using hz)

/-! ## The column index -/

theorem bitmap.test_map_range (f : Nat → Bool) (n j : Nat) :
    bitmap.test ((List.range n).map f) j = (decide (j < n) && f j) := by
  unfold bitmap.test
  by_cases h : j < n
  · simp [List.getD_eq_getElem?_getD, List.getElem?_range h, h]
  · have hlen : ((List.range n).map f).length ≤ j := by simp; omega
    simp [List.getD_eq_getElem?_getD, List.getElem?_eq_none hlen, h]

theorem column_index.add_rows_spec {D : Type} (col : Nat) (x : table_slice D)
    (idx : value_index D) (hge : idx.offset ≤ x.offset) (hfit : x.offset + x.rows ≤ 2 ^ 64)
    (n : Nat) (hn : n ≤ x.rows) :
    ((List.range n).foldl (column_index.add_row col x) idx).entries
        = idx.entries ++ (List.range n).filterMap (column_index.row_entry col x) ∧
    idx.offset ≤ ((List.range n).foldl (column_index.add_row col x) idx).offset ∧
    ((List.range n).foldl (column_index.add_row col x) idx).offset
        ≤ max idx.offset (x.offset + n) ∧
    ∀ e ∈ (List.range n).filterMap (column_index.row_entry col x),
        e.1 < ((List.range n).foldl (column_index.add_row col x) idx).offset := by
  induction n with
  | zero => simp
  | succ n ih =>
    obtain ⟨h1, h2, h3, h4⟩ := ih (by omega)
    rw [List.range_succ, List.foldl_append, List.filterMap_append]
    simp only [List.foldl_cons, List.foldl_nil, List.filterMap_cons, List.filterMap_nil]
    generalize hI : (List.range n).foldl (column_index.add_row col x) idx = idx1 at h1 h2 h3 h4
    unfold column_index.add_row column_index.row_entry
    cases hat : x.at_ n col with
    | none =>
      simp only [Option.map_none', List.append_nil]
      refine ⟨h1, h2, ?_, h4⟩
      omega
    | some v =>
      have hmod : (x.offset + n) % 2 ^ 64 = x.offset + n := Nat.mod_eq_of_lt (by omega)
      have hle : idx1.offset ≤ x.offset + n := by omega
      simp only [Option.map_some', hmod, value_index.append, hle, if_true]
      refine ⟨?_, by omega, by omega, ?_⟩
      · rw [h1, List.append_assoc]; rfl
      · intro e he
        rcases List.mem_append.mp he with he | he
        · have := h4 e he
          show e.1 < x.offset + n + 1
          omega
        · have : e = (x.offset + n, v) := by simpa using he
          rw [this]
          show x.offset + n < x.offset + n + 1
          omega

theorem column_index.mem_slice_entries {D : Type} (col : Nat) (x : table_slice D)
    (e : Nat × D) :
    e ∈ column_index.slice_entries col x ↔
      ∃ row, row < x.rows ∧ x.at_ row col = some e.2 ∧ e.1 = x.offset + row := by
  unfold column_index.slice_entries column_index.row_entry
  rw [List.mem_filterMap]
  constructor
  · rintro ⟨row, hr, hrow⟩
    cases hat : x.at_ row col with
    | none => rw [hat] at hrow; simp at hrow
    | some v =>
      rw [hat] at hrow
      have : (x.offset + row, v) = e := by simpa using hrow
      subst this
      exact ⟨row, List.mem_range.mp hr, hat, rfl⟩
  · rintro ⟨row, hr, hat, he⟩
    refine ⟨row, List.mem_range.mpr hr, ?_⟩
    rw [hat]
    simp [← he]

theorem column_index.add_all_spec {D : Type} (slices : List (table_slice D))
    (c : column_index D)
    (hge : ∀ s ∈ slices, c.idx_.offset ≤ s.offset)
    (hpw : slices.Pairwise (fun a b => a.offset + a.rows ≤ b.offset))
    (hfit : ∀ s ∈ slices, s.offset + s.rows ≤ 2 ^ 64) :
    (slices.foldl column_index.add c).idx_.entries
        = c.idx_.entries ++ slices.flatMap (column_index.slice_entries c.col_) ∧
    c.idx_.offset ≤ (slices.foldl column_index.add c).idx_.offset ∧
    (∀ e ∈ slices.flatMap (column_index.slice_entries c.col_),
        e.1 < (slices.foldl column_index.add c).idx_.offset) := by
  induction slices generalizing c with
  | nil => simp
  | cons x rest ih =>
    obtain ⟨h1, h2, h3, h4⟩ := column_index.add_rows_spec c.col_ x c.idx_
      (hge x (List.mem_cons_self _ _)) (hfit x (List.mem_cons_self _ _)) x.rows (Nat.le_refl _)
    have hpw' := List.pairwise_cons.mp hpw
    have hcol : (c.add x).col_ = c.col_ := rfl
    have hidx : (c.add x).idx_ = (List.range x.rows).foldl (column_index.add_row c.col_ x) c.idx_ := rfl
    obtain ⟨k1, k2, k3⟩ := ih (c.add x)
      (fun s hs => by
        have := hpw'.1 s hs
        have := hge x (List.mem_cons_self _ _)
        rw [hidx]; omega)
      hpw'.2 (fun s hs => hfit s (List.mem_cons_of_mem _ hs))
    rw [List.foldl_cons, List.flatMap_cons]
    rw [hcol] at k1 k3
    refine ⟨?_, ?_, ?_⟩
    · rw [k1, hidx, h1, List.append_assoc]; rfl
    · rw [hidx] at k2; omega
    · intro e he
      rcases List.mem_append.mp he with he | he
      · have := h4 e he
        rw [hidx] at k2
        omega
      · exact k3 e he

theorem pairwise_trichotomy {α : Type} (R : α → α → Prop) (l : List α) (hpw : l.Pairwise R)
    (a b : α) (ha : a ∈ l) (hb : b ∈ l) : a = b ∨ R a b ∨ R b a := by
  induction l with
  | nil => simp at ha
  | cons x rest ih =>
    obtain ⟨hx, hrest⟩ := List.pairwise_cons.mp hpw
    rcases List.mem_cons.mp ha with ha | ha <;> rcases List.mem_cons.mp hb with hb | hb
    · left; rw [ha, hb]
    · right; left; rw [ha]; exact hx b hb
    · right; right; rw [hb]; exact hx a ha
    · exact ih hrest ha hb

/-! ## Scheduling in `build_query_map` -/

theorem lru_cache.get_or_add_spec {D : Type} (c : lru_cache D) (factory : uuid → partition D)
    (id : uuid) (P : partition D → Prop) (hP : ∀ p ∈ c.elements, P p) (hf : P (factory id)) :
    P (c.get_or_add factory id).1 ∧ (∀ p ∈ (c.get_or_add factory id).2.elements, P p) ∧
    ((c.get_or_add factory id).1.id = id ∨ (c.get_or_add factory id).1 = factory id) := by
  unfold lru_cache.get_or_add
  cases hfind : c.elements.find? (fun p => decide (p.id = id)) with
  | some p =>
    have hmem : p ∈ c.elements := List.mem_of_find?_eq_some hfind
    have hid : p.id = id := by simpa using List.find?_some hfind
    refine ⟨hP p hmem, ?_, Or.inl hid⟩
    intro q hq
    rcases List.mem_append.mp hq with hq | hq
    · exact hP q (List.mem_filter.mp hq).1
    · have : q = p := by simpa using hq
      rw [this]; exact hP p hmem
  | none =>
    refine ⟨hf, ?_, Or.inr rfl⟩
    intro q hq
    rcases List.mem_append.mp hq with hq | hq
    · by_cases hlen : c.elements.length < c.capacity
      · rw [if_pos hlen] at hq; exact hP q hq
      · rw [if_neg hlen] at hq; exact hP q (List.mem_of_mem_drop hq)
    · have : q = factory id := by simpa using hq
      rw [this]; exact hf

theorem index_state.find_unpersisted_some {D : Type} (st : index_state D) (id : uuid)
    (p : partition D) (h : st.find_unpersisted id = some p) :
    p.id = id ∧ ∃ kvp ∈ st.unpersisted, kvp.1 = p := by
  unfold index_state.find_unpersisted at h
  cases hfind : st.unpersisted.find? (fun kvp => decide (kvp.1.id = id)) with
  | none => rw [hfind] at h; cases h
  | some kvp =>
    rw [hfind] at h
    have hp : kvp.1 = p := by simpa using h
    have hid : kvp.1.id = id := by simpa using List.find?_some hfind
    exact ⟨by rw [← hp]; exact hid, kvp, List.mem_of_find?_eq_some hfind, hp⟩

/-- The map after `spin_up` is the map before, or the map before with an
entry for the candidate. -/
theorem index_state.spin_up_result {D : Type} (st : index_state D) (expr : expression D)
    (result : pending_query_map D) (id : uuid) :
    (st.spin_up expr result id).2 = result ∨
    ∃ ev, (st.spin_up expr result id).2 = result.emplace id ev := by
  unfold index_state.spin_up
  simp only
  split
  · exact Or.inl rfl
  · exact Or.inr ⟨_, rfl⟩

theorem pending_query_map.emplace_keys {D : Type} (result : pending_query_map D) (id : uuid)
    (ev : evaluation_map D) :
    (result.emplace id ev).map Prod.fst = result.map Prod.fst ∨
    (result.emplace id ev).map Prod.fst = result.map Prod.fst ++ [id] := by
  unfold pending_query_map.emplace
  split
  · exact Or.inl rfl
  · right; simp

theorem index_state.spin_up_keys {D : Type} (st : index_state D) (expr : expression D)
    (result : pending_query_map D) (id : uuid) :
    (st.spin_up expr result id).2.map Prod.fst = result.map Prod.fst ∨
    (st.spin_up expr result id).2.map Prod.fst = result.map Prod.fst ++ [id] := by
  rcases index_state.spin_up_result st expr result id with h | ⟨ev, h⟩
  · rw [h]; exact Or.inl rfl
  · rw [h]; exact pending_query_map.emplace_keys result id ev

theorem pending_query_map.emplace_fresh {D : Type} (result : pending_query_map D) (id : uuid)
    (ev : evaluation_map D) (hfresh : id ∉ result.map Prod.fst) :
    result.emplace id ev = result ++ [(id, ev)] := by
  unfold pending_query_map.emplace
  have : result.any (fun kv => decide (kv.1 = id)) = false := by
    rw [List.any_eq_false]
    intro kv hkv hid
    exact hfresh (List.mem_map.mpr ⟨kv, hkv, by simpa using hid⟩)
  rw [this]; rfl

/-- Order of evaluation in the loop: the candidates left are a suffix of the
candidate list and the keys added to the map are a sublist of the matching
prefix, in the same order. -/
theorem index_state.build_query_map.loop_order {D : Type} (expr : expression D) (n : Nat)
    (cands : List uuid) (st : index_state D) (result : pending_query_map D) :
    ∃ i ks, (index_state.build_query_map.loop expr n st result cands).2.2 = cands.drop i ∧
      ks.Sublist (cands.take i) ∧
      (index_state.build_query_map.loop expr n st result cands).2.1.map Prod.fst
        = result.map Prod.fst ++ ks := by
  induction cands generalizing st result with
  | nil => exact ⟨0, [], rfl, List.Sublist.refl _, by simp [index_state.build_query_map.loop]⟩
  | cons c cs ih =>
    unfold index_state.build_query_map.loop
    by_cases hlt : result.length < n
    · rw [if_pos hlt]
      obtain ⟨i, ks, h1, h2, h3⟩ := ih (st.spin_up expr result c).1 (st.spin_up expr result c).2
      rcases index_state.spin_up_keys st expr result c with hk | hk
      · exact ⟨i + 1, ks, by rw [h1]; rfl, by rw [List.take_succ_cons]; exact h2.cons c,
          by rw [h3, hk]⟩
      · exact ⟨i + 1, c :: ks, by rw [h1]; rfl, by rw [List.take_succ_cons]; exact h2.cons₂ c,
          by rw [h3, hk, List.append_assoc]; rfl⟩
    · rw [if_neg hlt]
      exact ⟨0, [], rfl, List.Sublist.refl _, by simp⟩

theorem lru_find_after_hit {D : Type} (els : List (partition D)) (x : uuid) (p : partition D)
    (h : els.find? (fun q => decide (q.id = x)) = some p) (y : uuid) :
    (els.filter (fun q => !decide (q.id = x)) ++ [p]).find? (fun q => decide (q.id = y))
      = els.find? (fun q => decide (q.id = y)) := by
  have hpid : p.id = x := by simpa using List.find?_some h
  rw [List.find?_append]
  by_cases hy : y = x
  · subst hy
    have hnone : (els.filter (fun q => !decide (q.id = y))).find? (fun q => decide (q.id = y))
        = Option.none := by
      rw [List.find?_eq_none]
      intro q hq
      have := (List.mem_filter.mp hq).2
      simpa using this
    rw [hnone, h]
    simp [hpid]
  · have hsame : (els.filter (fun q => !decide (q.id = x))).find? (fun q => decide (q.id = y))
        = els.find? (fun q => decide (q.id = y)) := by
      rw [List.find?_filter]
      congr 1
      funext q
      by_cases hq : q.id = y
      · simp [hq, hy]
      · simp [hq]
    rw [hsame]
    have hp : ([p] : List (partition D)).find? (fun q => decide (q.id = y)) = Option.none := by
      have : ¬ p.id = y := fun e => hy (e.symm.trans hpid)
      simp [this]
    rw [hp]
    simp

theorem lru_contains_iff_find {D : Type} (c : lru_cache D) (id : uuid) :
    c.contains id = (c.elements.find? (fun p => decide (p.id = id))).isSome := by
  unfold lru_cache.contains
  induction c.elements with
  | nil => rfl
  | cons q qs ih =>
    by_cases hq : q.id = id
    · simp [hq]
    · simp [hq, ih]

theorem index_state.residents_first_tail {D : Type} (st0 : index_state D) (c : uuid)
    (cs : List uuid) (h : st0.residents_first (c :: cs)) :
    st0.residents_first cs ∧ (st0.resident c = false → ∀ x ∈ cs, st0.resident x = false) := by
  obtain ⟨k, h1, h2⟩ := h
  cases k with
  | zero =>
    refine ⟨⟨0, fun x hx => (by cases hx), fun x hx => h2 x (List.mem_cons_of_mem _ hx)⟩, ?_⟩
    intro _ x hx
    exact h2 x (List.mem_cons_of_mem _ hx)
  | succ k =>
    refine ⟨⟨k, fun x hx => h1 x (List.mem_cons_of_mem _ hx), fun x hx => h2 x hx⟩, ?_⟩
    intro hc
    have := h1 c (List.mem_cons_self _ _)
    rw [this] at hc
    cases hc

theorem index_state.resident_eq_contains {D : Type} (st0 : index_state D) (c : uuid)
    (hA : st0.active.filter (fun act => decide (act.id = c)) = Option.none)
    (hU : st0.find_unpersisted c = Option.none) :
    st0.resident c = st0.lru_partitions.contains c := by
  unfold index_state.resident
  rw [hU]
  cases hst : st0.active with
  | none => simp
  | some a =>
    rw [hst] at hA
    have hne : ¬ a.id = c := by
      intro e
      simp [Option.filter, e] at hA
    simp [hne]

/-- One visit of the loop of `build_query_map`: the partition evaluated for
the candidate is the one the state at the call determines, the candidate is
recorded exactly when it qualifies, and the relation to the state at the call
is kept. -/
theorem index_state.spin_up_stable {D : Type} (st0 st : index_state D) (expr : expression D)
    (result : pending_query_map D) (c : uuid) (cs : List uuid)
    (hinv : index_state.loop_inv st0 st (c :: cs)) (hrf : st0.residents_first (c :: cs)) :
    (st.spin_up expr result c).2
        = (if st0.qualifies expr c = true
            then result.emplace c ((st0.spin_up_partition c).eval expr) else result) ∧
    index_state.loop_inv st0 (st.spin_up expr result c).1 cs := by
  obtain ⟨hact, hunp, hdisk, hA, hB⟩ := hinv
  obtain ⟨_, hnonres⟩ := index_state.residents_first_tail st0 c cs hrf
  have hBtail : (∃ x ∈ cs, st0.resident x = true) →
      ∀ y, st.lru_partitions.elements.find? (fun p => decide (p.id = y))
        = st0.lru_partitions.elements.find? (fun p => decide (p.id = y)) := by
    rintro ⟨x, hx, hr⟩
    exact hB ⟨x, List.mem_cons_of_mem _ hx, hr⟩
  have key : ∀ (found : partition D × index_state D),
      found.1 = st0.spin_up_partition c → index_state.loop_inv st0 found.2 cs →
      (if (found.1.eval expr).isEmpty then (found.2, result)
        else (found.2, result.emplace c (found.1.eval expr))).2
        = (if st0.qualifies expr c = true
            then result.emplace c ((st0.spin_up_partition c).eval expr) else result) ∧
      index_state.loop_inv st0
        (if (found.1.eval expr).isEmpty then (found.2, result)
          else (found.2, result.emplace c (found.1.eval expr))).1 cs := by
    intro found hf hi
    unfold index_state.qualifies
    rw [← hf]
    by_cases hE : (found.1.eval expr).isEmpty = true
    · rw [if_pos hE]
      refine ⟨?_, hi⟩
      simp [hE]
    · rw [if_neg hE]
      refine ⟨?_, hi⟩
      simp [hE]
  have hfu : st.find_unpersisted c = st0.find_unpersisted c := by
    unfold index_state.find_unpersisted
    rw [hunp]
  have hfac : st.partition_factory = st0.partition_factory := by
    funext id
    unfold index_state.partition_factory
    rw [hdisk]
  unfold index_state.spin_up
  simp only
  rw [hact, hfu]
  cases hA0 : st0.active.filter (fun act => decide (act.id = c)) with
  | some act =>
    refine key (act, st) ?_ ⟨hact, hunp, hdisk, hA, hBtail⟩
    unfold index_state.spin_up_partition
    rw [hA0]
  | none =>
    cases hU0 : st0.find_unpersisted c with
    | some ptr =>
      refine key (ptr, st) ?_ ⟨hact, hunp, hdisk, hA, hBtail⟩
      unfold index_state.spin_up_partition
      rw [hA0, hU0]
    | none =>
      have hres : st0.resident c
          = (st0.lru_partitions.elements.find? (fun p => decide (p.id = c))).isSome := by
        rw [index_state.resident_eq_contains st0 c hA0 hU0, lru_contains_iff_find]
      have hpart : st0.spin_up_partition c
          = (st0.lru_partitions.get_or_add st0.partition_factory c).1 := by
        unfold index_state.spin_up_partition
        rw [hA0, hU0]
      rw [hfac]
      cases hfind : st.lru_partitions.elements.find? (fun p => decide (p.id = c)) with
      | some p =>
        have hpmem : p ∈ st.lru_partitions.elements := List.mem_of_find?_eq_some hfind
        have hpid : p.id = c := by simpa using List.find?_some hfind
        have hget : st.lru_partitions.get_or_add st0.partition_factory c
            = (p, ⟨st.lru_partitions.capacity,
                st.lru_partitions.elements.filter (fun q => !decide (q.id = c)) ++ [p]⟩) := by
          unfold lru_cache.get_or_add
          rw [hfind]
        rw [hget]
        refine key (_, _) ?_ ⟨by first | exact hact | rfl, hunp, hdisk, ?_, ?_⟩
        · show p = st0.spin_up_partition c
          rw [hpart]
          unfold lru_cache.get_or_add
          cases h0 : st0.lru_partitions.elements.find? (fun p => decide (p.id = c)) with
          | some p0 =>
            have hr : st0.resident c = true := by rw [hres, h0]; rfl
            have := hB ⟨c, List.mem_cons_self _ _, hr⟩ c
            rw [hfind, h0] at this
            exact Option.some.inj this
          | none =>
            show p = st0.partition_factory c
            rcases hA p hpmem with h1 | h1
            · exfalso
              have : st0.lru_partitions.elements.find? (fun p => decide (p.id = c))
                  ≠ Option.none := by
                intro e
                rw [List.find?_eq_none] at e
                exact e p h1 (by simpa using hpid)
              exact this h0
            · rw [h1, hpid]
        · intro q hq
          rcases List.mem_append.mp hq with hq | hq
          · exact hA q (List.mem_filter.mp hq).1
          · have : q = p := by simpa using hq
            rw [this]
            exact hA p hpmem
        · intro hex y
          show (st.lru_partitions.elements.filter (fun q => !decide (q.id = c)) ++ [p]).find?
            (fun p => decide (p.id = y)) = _
          rw [lru_find_after_hit _ c p hfind y]
          exact hBtail hex y
      | none =>
        have h0 : st0.lru_partitions.elements.find? (fun p => decide (p.id = c))
            = Option.none := by
          cases h0 : st0.lru_partitions.elements.find? (fun p => decide (p.id = c)) with
          | none => rfl
          | some p0 =>
            exfalso
            have hr : st0.resident c = true := by rw [hres, h0]; rfl
            have := hB ⟨c, List.mem_cons_self _ _, hr⟩ c
            rw [hfind, h0] at this
            cases this
        have hnr : st0.resident c = false := by rw [hres, h0]; rfl
        have hget : st.lru_partitions.get_or_add st0.partition_factory c
            = (st0.partition_factory c, ⟨st.lru_partitions.capacity,
                (if st.lru_partitions.elements.length < st.lru_partitions.capacity
                    then st.lru_partitions.elements
                    else st.lru_partitions.elements.drop 1)
                  ++ [st0.partition_factory c]⟩) := by
          unfold lru_cache.get_or_add
          rw [hfind]
        rw [hget]
        refine key (_, _) ?_ ⟨by first | exact hact | rfl, hunp, hdisk, ?_, ?_⟩
        · show st0.partition_factory c = st0.spin_up_partition c
          rw [hpart]
          unfold lru_cache.get_or_add
          rw [h0]
        · intro q hq
          rcases List.mem_append.mp hq with hq | hq
          · by_cases hlen : st.lru_partitions.elements.length < st.lru_partitions.capacity
            · rw [if_pos hlen] at hq
              exact hA q hq
            · rw [if_neg hlen] at hq
              exact hA q (List.mem_of_mem_drop hq)
          · right
            have : q = st0.partition_factory c := by simpa using hq
            rw [this]
            rfl
        · rintro ⟨x, hx, hr⟩
          rw [hnonres hnr x hx] at hr
          cases hr

theorem pending_query_map.emplace_present {D : Type} (result : pending_query_map D)
    (id : uuid) (ev : evaluation_map D) (h : id ∈ result.map Prod.fst) :
    result.emplace id ev = result := by
  unfold pending_query_map.emplace
  have : result.any (fun kv => decide (kv.1 = id)) = true := by
    rw [List.any_eq_true]
    obtain ⟨kv, hkv, e⟩ := List.mem_map.mp h
    exact ⟨kv, hkv, by simpa using e⟩
  rw [this]
  rfl

/-- What the loop of `build_query_map` schedules, in terms of the state `st0`
at the call: the candidates left are a suffix of the candidate list; the keys
added are visited candidates that qualify, in order, and every visited
candidate that qualifies has a key; for distinct candidates the keys added are
exactly the visited candidates that qualify; the loop stops before the end of
the list only when the map holds `n` entries. -/
theorem index_state.build_query_map.loop_schedule {D : Type} (st0 : index_state D)
    (expr : expression D) (n : Nat) (cands : List uuid) :
    ∀ (st : index_state D) (result : pending_query_map D),
      index_state.loop_inv st0 st cands → st0.residents_first cands → result.length ≤ n →
      ∃ i ks,
        (index_state.build_query_map.loop expr n st result cands).2.2 = cands.drop i ∧
        (index_state.build_query_map.loop expr n st result cands).2.1.map Prod.fst
          = result.map Prod.fst ++ ks ∧
        ks.Sublist ((cands.take i).filter (st0.qualifies expr)) ∧
        (∀ x ∈ cands.take i, st0.qualifies expr x = true → x ∈ result.map Prod.fst ++ ks) ∧
        (cands.Nodup → (∀ c ∈ cands, c ∉ result.map Prod.fst) →
          ks = (cands.take i).filter (st0.qualifies expr)) ∧
        (index_state.build_query_map.loop expr n st result cands).2.1.length ≤ n ∧
        ((index_state.build_query_map.loop expr n st result cands).2.2 ≠ [] →
          (index_state.build_query_map.loop expr n st result cands).2.1.length = n) := by
  induction cands with
  | nil =>
    intro st result _ _ hle
    exact ⟨0, [], rfl, by simp [index_state.build_query_map.loop], List.Sublist.refl _,
      fun x hx => (by cases hx), fun _ _ => rfl, hle, fun h => absurd rfl h⟩
  | cons c cs ih =>
    intro st result hinv hrf hle
    unfold index_state.build_query_map.loop
    by_cases hlt : result.length < n
    · rw [if_pos hlt]
      obtain ⟨hs, hinv1⟩ := index_state.spin_up_stable st0 st expr result c cs hinv hrf
      obtain ⟨hrf1, _⟩ := index_state.residents_first_tail st0 c cs hrf
      rw [hs]
      by_cases hq : st0.qualifies expr c = true
      · rw [if_pos hq]
        by_cases hmem : c ∈ result.map Prod.fst
        · rw [pending_query_map.emplace_present result c _ hmem]
          obtain ⟨i, ks, h1, h2, h3, h4, _, h6, h7⟩ := ih _ result hinv1 hrf1 hle
          refine ⟨i + 1, ks, h1, h2, ?_, ?_, ?_, h6, h7⟩
          · rw [List.take_succ_cons, List.filter_cons_of_pos hq]
            exact h3.cons c
          · intro x hx hqx
            rw [List.take_succ_cons] at hx
            rcases List.mem_cons.mp hx with hx | hx
            · rw [hx]
              exact List.mem_append_left _ hmem
            · exact h4 x hx hqx
          · intro _ hdisj
            exact absurd hmem (hdisj c (List.mem_cons_self _ _))
        · rw [pending_query_map.emplace_fresh result c _ hmem]
          obtain ⟨i, ks, h1, h2, h3, h4, h5, h6, h7⟩ := ih _
            (result ++ [(c, (st0.spin_up_partition c).eval expr)]) hinv1 hrf1
            (by simp; omega)
          refine ⟨i + 1, c :: ks, h1, ?_, ?_, ?_, ?_, h6, h7⟩
          · rw [h2]
            simp
          · rw [List.take_succ_cons, List.filter_cons_of_pos hq]
            exact h3.cons₂ c
          · intro x hx hqx
            rw [List.take_succ_cons] at hx
            rcases List.mem_cons.mp hx with hx | hx
            · rw [hx]
              simp
            · have := h4 x hx hqx
              simp at this ⊢
              rcases this with h | h | h
              · exact Or.inl h
              · exact Or.inr (Or.inl h)
              · exact Or.inr (Or.inr h)
          · intro hnd hdisj
            obtain ⟨hcn, hcs⟩ := List.nodup_cons.mp hnd
            rw [List.take_succ_cons, List.filter_cons_of_pos hq]
            congr 1
            apply h5 hcs
            intro x hx hxm
            rw [List.map_append, List.mem_append] at hxm
            rcases hxm with hxm | hxm
            · exact hdisj x (List.mem_cons_of_mem _ hx) hxm
            · have : x = c := by simpa using hxm
              rw [this] at hx
              exact hcn hx
      · rw [if_neg hq]
        obtain ⟨i, ks, h1, h2, h3, h4, h5, h6, h7⟩ := ih _ result hinv1 hrf1 hle
        refine ⟨i + 1, ks, h1, h2, ?_, ?_, ?_, h6, h7⟩
        · rw [List.take_succ_cons, List.filter_cons_of_neg hq]
          exact h3
        · intro x hx hqx
          rw [List.take_succ_cons] at hx
          rcases List.mem_cons.mp hx with hx | hx
          · rw [hx] at hqx
            exact absurd hqx hq
          · exact h4 x hx hqx
        · intro hnd hdisj
          obtain ⟨_, hcs⟩ := List.nodup_cons.mp hnd
          rw [List.take_succ_cons, List.filter_cons_of_neg hq]
          exact h5 hcs (fun x hx => hdisj x (List.mem_cons_of_mem _ hx))
    · rw [if_neg hlt]
      refine ⟨0, [], rfl, by simp, List.Sublist.refl _, fun x hx => (by cases hx),
        fun _ _ => rfl, hle, fun _ => ?_⟩
      show result.length = n
      omega

/-- The loop invariant holds at the call, and `std::partition` yields a list
with the resident candidates first. -/
theorem index_state.loop_inv_start {D : Type} (alg : partition_algorithm) (st : index_state D)
    (cands : List uuid) :
    index_state.loop_inv st st (alg.run st.resident cands) ∧
    st.residents_first (alg.run st.resident cands) :=
  ⟨⟨rfl, rfl, rfl, fun _ hp => Or.inl hp, fun _ _ => rfl⟩, alg.partitioned st.resident cands⟩

/-! ## Properties of the evaluator -/

/-- C3: a conjunction with at least one operand is intersected left to right.
As soon as the running intersection of the operands read so far is empty or has
no set bit the visitor returns the empty bitmap (whatever operands follow);
otherwise it returns exactly the intersection of all operands' results.  In
both cases the ids of the result are the ids common to all operands. -/
theorem ids_evaluator_conjunction {D : Type} [DecidableEq D] (xs : predicate_map D)
    (ops post : List (expression D)) (vs : List ids) (hne : ops ≠ [])
    (hev : List.Forall₂ (fun e v => ids_evaluator xs e = some v) ops vs) :
    ((intersection vs).all_0 = true →
        ids_evaluator xs (.conjunction (ops ++ post)) = some []) ∧
    ((intersection vs).all_0 = false →
        ids_evaluator xs (.conjunction ops) = some (intersection vs)) ∧
    (∃ r, ids_evaluator xs (.conjunction ops) = some r ∧
        ∀ i, r.test i = vs.all (fun v => v.test i)) := by
  cases hev with
  | nil => exact absurd rfl hne
  | @cons e v es vs' he hrest =>
    have hshort : ∀ post : List (expression D), (intersection (v :: vs')).all_0 = true →
        ids_evaluator xs (.conjunction ((e :: es) ++ post)) = some [] := by
      intro post hz
      rw [List.cons_append, ids_evaluator, he]
      simp only
      by_cases hv : v.all_0 = true
      · simp [hv]
      · have hvf : v.all_0 = false := by simpa using hv
        have hemp : bitmap.empty v = false := by
          cases hE : bitmap.empty v with
          | false => rfl
          | true => rw [bitmap.empty_imp_all_0 _ hE] at hvf; exact absurd hvf (by decide)
        simp only [hemp, hvf, Bool.or_self, Bool.false_eq_true, if_false]
        exact conjunction_loop_short xs es post vs' v hrest hvf hz
    have hfull : (intersection (v :: vs')).all_0 = false →
        ids_evaluator xs (.conjunction (e :: es)) = some (intersection (v :: vs')) := by
      intro hz
      rw [ids_evaluator, he]
      simp only
      have hvf : v.all_0 = false := by
        cases h : v.all_0 with
        | false => rfl
        | true =>
          have := bitmap.all_0_foldl_and vs' v h
          rw [intersection, this] at hz; exact absurd hz (by decide)
      have hemp : bitmap.empty v = false := by
        cases hE : bitmap.empty v with
        | false => rfl
        | true => rw [bitmap.empty_imp_all_0 _ hE] at hvf; exact absurd hvf (by decide)
      simp only [hemp, hvf, Bool.or_self, Bool.false_eq_true, if_false]
      exact conjunction_loop_full xs es vs' v hrest hz
    refine ⟨hshort post, hfull, ?_⟩
    cases hz : (intersection (v :: vs')).all_0 with
    | true =>
      refine ⟨[], ?_, ?_⟩
      · simpa using hshort [] hz
      · intro i
        rw [bitmap.test_nil, ← test_intersection (v :: vs') (by simp) i]
        exact ((bitmap.all_0_iff _).mp hz i).symm
    | false =>
      exact ⟨_, hfull hz, fun i => test_intersection (v :: vs') (by simp) i⟩

/-- Instance of C3: `A && B` with hits `110` for `A` and `011` for `B` yields `010`. -/
theorem ids_evaluator_conjunction_witness :
    ids_evaluator [(pA, [true, true, false]), (pB, [false, true, true])] exprAandB
      = some [false, true, false] :=
  (ids_evaluator_conjunction [(pA, [true, true, false]), (pB, [false, true, true])]
    [.predicate pA, .predicate pB] [] [[true, true, false], [false, true, true]]
    (by simp)
    (List.Forall₂.cons (by decide) (List.Forall₂.cons (by decide) List.Forall₂.nil))).2.1
    (by decide)

/-- C4: the disjunction visitor stops at the first all-ones intermediate result
and then misses ids of later operands.  With hits `1` for `A` and `01` for `B`
the visitor returns `1` for `A || B`: id 1, which `B` contributes to the union,
is not in the result. -/
theorem ids_evaluator_disjunction_drops_ids :
    ids_evaluator [(pA, [true]), (pB, [false, true])] exprAorB = some [true] ∧
    bitmap.test [true] 1 = false ∧
    bitmap.test [false, true] 1 = true ∧
    (union [[true], [false, true]]).test 1 = true := by
  decide

/-- With no hits known for `A` the first intermediate result of `A || B` is the
empty bitmap; it counts as all-ones, and the visitor returns the empty bitmap
although `B` holds id 0. -/
theorem ids_evaluator_disjunction_empty_first :
    ids_evaluator [(pB, [true])] exprAorB = some [] ∧
    (union [[], [true]]).test 0 = true := by
  decide

/-- C1: for `A && B` with hits `110` for `A` and `011` for `B` the evaluator
delivers the hits of the response that arrives last (`011` or `110`), not the
value `010` of `ids_evaluator` on the complete map. -/
theorem evaluator_delivers_last_hits :
    (evaluator.session [0] exprAandB
        [.hits pA [true, true, false], .hits pB [false, true, true]]).map
      (fun st => (st.pending_responses, st.promise)) = some (0, [[false, true, true]]) ∧
    (evaluator.session [0] exprAandB
        [.hits pB [false, true, true], .hits pA [true, true, false]]).map
      (fun st => (st.pending_responses, st.promise)) = some (0, [[true, true, false]]) ∧
    ids_evaluator [(pA, [true, true, false]), (pB, [false, true, true])] exprAandB
      = some [false, true, false] := by
  decide

/-- C5: with two outstanding requests, an error that arrives first is followed
by a delivery although one response is still pending, and the second response
delivers again. -/
theorem evaluator_error_delivers_early :
    (evaluator.session [0] exprAandB [.error pA]).map
      (fun st => (st.pending_responses, st.promise)) = some (1, [[]]) ∧
    (evaluator.session [0] exprAandB [.error pA, .hits pB [true]]).map
      (fun st => (st.pending_responses, st.promise)) = some (0, [[], [true]]) := by
  decide

/-- C6: for `A && B` where `A` answers with hits `1` and `B` then fails, the
evaluator delivers the accumulated hits `1` of `A`, not the empty bitmap. -/
theorem evaluator_error_delivers_accumulated :
    (evaluator.session [0] exprAandB [.hits pA [true], .error pB]).map
      (fun st => (st.pending_responses, st.promise)) = some (0, [[true]]) ∧
    (evaluator.session [0] exprAandB [.error pB, .hits pA [true]]).map
      (fun st => (st.pending_responses, st.promise)) = some (0, [[], [true]]) := by
  decide

/-! ## Properties of the column index -/

theorem value_index.append_wf {D : Type} (idx : value_index D) (x : D) (id : Nat)
    (h : idx.wf) : (idx.append x id).wf := by
  unfold value_index.append
  by_cases hle : idx.offset ≤ id
  · rw [if_pos hle]
    intro e he
    rcases List.mem_append.mp he with he | he
    · have := h e he
      show e.1 < id + 1
      omega
    · have : e = (id, x) := by simpa using he
      rw [this]
      show id < id + 1
      omega
  · rw [if_neg hle]
    exact h

theorem value_index.deserialize_wf {D : Type} (appends : List (D × Nat)) :
    (value_index.deserialize appends).wf := by
  unfold value_index.deserialize
  have key : ∀ (l : List (D × Nat)) (idx : value_index D), idx.wf →
      (l.foldl (fun idx e => idx.append e.1 e.2) idx).wf := by
    intro l
    induction l with
    | nil => intro idx h; exact h
    | cons e es ih =>
      intro idx h
      exact ih _ (value_index.append_wf idx e.1 e.2 h)
  exact key appends _ (fun e he => by cases he)

/-- An index made by `make_column_index` is for the given column, keeps the
invariant of the value index, and is empty when no backing file exists. -/
theorem make_column_index_spec {D : Type} (env : init_env D) (filename : path)
    (column_type : String) (column : Nat) (c0 : column_index D)
    (hmk : make_column_index env filename column_type column = .ok c0) :
    c0.col_ = column ∧ c0.idx_.wf ∧ (env.file_exists filename = false → c0.idx_.offset = 0) := by
  unfold make_column_index column_index.init at hmk
  by_cases hex : env.file_exists filename = true
  · rw [if_pos hex] at hmk
    cases hl : env.load filename with
    | error e => rw [hl] at hmk; cases hmk
    | ok p =>
      obtain ⟨lf, appends⟩ := p
      rw [hl] at hmk
      injection hmk with hmk
      subst hmk
      exact ⟨rfl, value_index.deserialize_wf appends, fun h => by rw [h] at hex; cases hex⟩
  · rw [if_neg hex] at hmk
    by_cases hc : env.constructible column_type = true
    · rw [if_pos hc] at hmk
      injection hmk with hmk
      subst hmk
      exact ⟨rfl, fun e he => (by cases he), fun _ => rfl⟩
    · rw [if_neg hc] at hmk; cases hmk

/-- C2 (as stated, refuted): an index that `make_column_index` loads from its
backing file holds the value 7 at id 0.  After the slices with the ids `[2, 4)`
and `[5, 6)` are added, the lookup `== 7` has bit 0 set, outside the added id
ranges.  And an index for strings with a maximum length of 4 answers
`== "abcd"` with bit 0 for the cell `"abcdef"`, which does not satisfy the
predicate. -/
theorem column_index_lookup_loaded_bit_outside_ranges :
    (∃ c0 bm, make_column_index loaded_env "f" "count" 0 = .ok c0 ∧
      ([slice1, slice2].foldl column_index.add c0).lookup nat_semantics
        ⟨.data_extractor [0], .equal, .data 7⟩ = some (.ok bm) ∧
      bm.test 0 = true ∧
      ¬ ∃ s ∈ [slice1, slice2], ∃ row, row < s.rows ∧ 0 = s.offset + row) ∧
    (∃ c0 bm, make_column_index fresh_string_env "g" "string" 0 = .ok c0 ∧
      ([string_slice].foldl column_index.add c0).lookup (string_semantics 4)
        ⟨.data_extractor [0], .equal, .data "abcd".toList⟩ = some (.ok bm) ∧
      bm.test 0 = true ∧
      string_slice.at_ 0 0 = some "abcdef".toList ∧
      (string_semantics 4).evaluate "abcdef".toList .equal "abcd".toList = false) := by
  refine ⟨⟨_, _, rfl, rfl, by decide, ?_⟩, ⟨_, _, rfl, rfl, by decide, rfl, by decide⟩⟩
  rintro ⟨s, hs, row, _, h0⟩
  have hoff : s.offset = 2 ∨ s.offset = 5 := by
    rcases List.mem_cons.mp hs with h | h
    · left; rw [h]; rfl
    · right
      have : s = slice2 := by simpa using h
      rw [this]; rfl
  omega

/-- C2 (amended): for a column index created by `make_column_index` for column
`column`, on a new file or loaded from its backing file, and slices added with
increasing, non-overlapping 64-bit id ranges, none below the offset of the
index after creation, a lookup with a supported operator `op` and rhs `r`
succeeds.  Bit `offset + row` of a slice is set exactly when the cell at
`(row, column)` exists and its stored form satisfies `op r`.  Every set bit
lies inside an added id range or below the offset the index had after
creation; below that offset the bits are the ones the index answered before
the slices were added; that offset is zero when no backing file existed. -/
theorem column_index_lookup_correct {D : Type} (sem : data_semantics D) (env : init_env D)
    (filename : path) (column_type : String) (column : Nat) (c0 : column_index D)
    (slices : List (table_slice D)) (lhs : operand D) (op : relational_operator) (r : D)
    (hmk : make_column_index env filename column_type column = .ok c0)
    (hge : ∀ s ∈ slices, c0.idx_.offset ≤ s.offset)
    (hpw : slices.Pairwise (fun a b => a.offset + a.rows ≤ b.offset))
    (hfit : ∀ s ∈ slices, s.offset + s.rows ≤ 2 ^ 64)
    (hsup : sem.supported op = true) :
    ∃ bm bm0,
      (slices.foldl column_index.add c0).lookup sem ⟨lhs, op, .data r⟩ = some (.ok bm) ∧
      c0.lookup sem ⟨lhs, op, .data r⟩ = some (.ok bm0) ∧
      (∀ s ∈ slices, ∀ row, row < s.rows →
        (bm.test (s.offset + row) = true ↔
          ∃ v, s.at_ row column = some v ∧ sem.evaluate (sem.stored v) op r = true)) ∧
      (∀ j, bm.test j = true →
        j < c0.idx_.offset ∨ ∃ s ∈ slices, ∃ row, row < s.rows ∧ j = s.offset + row) ∧
      (∀ j, j < c0.idx_.offset → bm.test j = bm0.test j) ∧
      (env.file_exists filename = false → c0.idx_.offset = 0) := by
  obtain ⟨hcol, hwf, hfresh⟩ := make_column_index_spec env filename column_type column c0 hmk
  obtain ⟨h1, h2, h3⟩ := column_index.add_all_spec slices c0 hge hpw hfit
  rw [hcol] at h1 h3
  have hnew : ∀ e ∈ slices.flatMap (column_index.slice_entries column),
      c0.idx_.offset ≤ e.1 := by
    intro e he
    obtain ⟨s1, hs1, he1⟩ := List.mem_flatMap.mp he
    obtain ⟨row1, _, _, hid1⟩ := (column_index.mem_slice_entries column s1 e).mp he1
    have := hge s1 hs1
    omega
  refine ⟨(List.range (slices.foldl column_index.add c0).idx_.offset).map
      (fun i => (slices.foldl column_index.add c0).idx_.entries.any
        (fun e => decide (e.1 = i) && sem.evaluate (sem.stored e.2) op r)),
    (List.range c0.idx_.offset).map
      (fun i => c0.idx_.entries.any
        (fun e => decide (e.1 = i) && sem.evaluate (sem.stored e.2) op r)),
    ?_, ?_, ?_, ?_, ?_, hfresh⟩
  · simp only [column_index.lookup, value_index.lookup, hsup, if_true]
  · simp only [column_index.lookup, value_index.lookup, hsup, if_true]
  · intro s hs row hrow
    rw [bitmap.test_map_range, Bool.and_eq_true, decide_eq_true_iff, List.any_eq_true]
    constructor
    · rintro ⟨_, e, he, hev⟩
      rw [Bool.and_eq_true, decide_eq_true_iff] at hev
      rw [h1] at he
      rcases List.mem_append.mp he with he | he
      · have := hwf e he
        have := hge s hs
        omega
      · obtain ⟨s1, hs1, he1⟩ := List.mem_flatMap.mp he
        obtain ⟨row1, hrow1, hat1, hid1⟩ :=
          (column_index.mem_slice_entries column s1 e).mp he1
        rcases pairwise_trichotomy _ slices hpw s s1 hs hs1 with heq | hlt | hlt
        · subst heq
          have : row1 = row := by omega
          subst this
          exact ⟨e.2, hat1, hev.2⟩
        · exfalso; omega
        · exfalso; omega
    · rintro ⟨v, hat, hev⟩
      have hmem : (s.offset + row, v) ∈ slices.flatMap (column_index.slice_entries column) :=
        List.mem_flatMap.mpr ⟨s, hs,
          (column_index.mem_slice_entries column s _).mpr ⟨row, hrow, hat, rfl⟩⟩
      refine ⟨h3 _ hmem, (s.offset + row, v), ?_, ?_⟩
      · rw [h1]; exact List.mem_append_right _ hmem
      · simp [hev]
  · intro j hj
    rw [bitmap.test_map_range, Bool.and_eq_true, decide_eq_true_iff, List.any_eq_true] at hj
    obtain ⟨_, e, he, hev⟩ := hj
    rw [Bool.and_eq_true, decide_eq_true_iff] at hev
    rw [h1] at he
    rcases List.mem_append.mp he with he | he
    · left
      have := hwf e he
      omega
    · right
      obtain ⟨s1, hs1, he1⟩ := List.mem_flatMap.mp he
      obtain ⟨row1, hrow1, _, hid1⟩ := (column_index.mem_slice_entries column s1 e).mp he1
      exact ⟨s1, hs1, row1, hrow1, by omega⟩
  · intro j hj
    rw [bitmap.test_map_range, bitmap.test_map_range, h1, List.any_append]
    have hlt : j < (slices.foldl column_index.add c0).idx_.offset := by omega
    have hnone : (slices.flatMap (column_index.slice_entries column)).any
        (fun e => decide (e.1 = j) && sem.evaluate (sem.stored e.2) op r) = false := by
      rw [List.any_eq_false]
      intro e he
      have := hnew e he
      have hne : ¬ e.1 = j := by omega
      simp [hne]
    rw [hnone, Bool.or_false]
    simp [hlt, hj]

/-- Instance of C2 (amended): a fresh index for column 0 after two slices with
ids `[2, 4)` and `[5, 6)` answers `== 7` with exactly the ids 2 and 5. -/
theorem column_index_lookup_correct_witness :
    ∃ c0, make_column_index fresh_env "f" "count" 0 = .ok c0 ∧
      ∃ bm bm0, ([slice1, slice2].foldl column_index.add c0).lookup nat_semantics
          ⟨.data_extractor [0], .equal, .data 7⟩ = some (.ok bm) ∧
        c0.lookup nat_semantics ⟨.data_extractor [0], .equal, .data 7⟩ = some (.ok bm0) ∧
        (∀ s ∈ [slice1, slice2], ∀ row, row < s.rows →
          (bm.test (s.offset + row) = true ↔
            ∃ v, s.at_ row 0 = some v ∧
              nat_semantics.evaluate (nat_semantics.stored v) .equal 7 = true)) ∧
        (∀ j, bm.test j = true →
          j < c0.idx_.offset ∨ ∃ s ∈ [slice1, slice2], ∃ row, row < s.rows ∧ j = s.offset + row) ∧
        (∀ j, j < c0.idx_.offset → bm.test j = bm0.test j) ∧
        (fresh_env.file_exists "f" = false → c0.idx_.offset = 0) :=
  ⟨_, rfl, column_index_lookup_correct nat_semantics fresh_env "f" "count" 0 _
    [slice1, slice2] (.data_extractor [0]) .equal 7 rfl
    (by intro s hs; exact Nat.zero_le _)
    (by unfold slice1 slice2 table_slice.rows; simp)
    (by unfold slice1 slice2 table_slice.rows; simp)
    rfl⟩

/-- The bitmaps of the samples: a fresh index answers `== 7` with the ids 2
and 5, an index loaded with the value 7 at id 0 with the ids 0, 2 and 5. -/
theorem column_index_lookup_examples :
    ((make_column_index fresh_env "f" "count" 0).toOption.bind
        (fun c0 => ([slice1, slice2].foldl column_index.add c0).lookup nat_semantics
          ⟨.data_extractor [0], .equal, .data 7⟩)).map (fun r => r.toOption)
      = some (some [false, false, true, false, false, true]) ∧
    ((make_column_index loaded_env "f" "count" 0).toOption.bind
        (fun c0 => ([slice1, slice2].foldl column_index.add c0).lookup nat_semantics
          ⟨.data_extractor [0], .equal, .data 7⟩)).map (fun r => r.toOption)
      = some (some [true, false, true, false, false, true]) := by
  decide

/-! ## Properties of the index coordinator -/

theorem pending_find_erase_self {D : Type} (pending : List (uuid × lookup_state D))
    (query_id : uuid) : pending_find (pending_erase pending query_id) query_id = Option.none := by
  unfold pending_find pending_erase
  have : List.find? (fun kv => decide (kv.1 = query_id))
      (pending.filter (fun kv => !decide (kv.1 = query_id))) = Option.none := by
    rw [List.find?_eq_none]
    intro kv hkv
    have := (List.mem_filter.mp hkv).2
    simpa using this
  rw [this]

theorem pending_find_erase_other {D : Type} (pending : List (uuid × lookup_state D))
    (query_id q : uuid) (hq : q ≠ query_id) :
    pending_find (pending_erase pending query_id) q = pending_find pending q := by
  unfold pending_find pending_erase
  have : List.find? (fun kv => decide (kv.1 = q))
      (pending.filter (fun kv => !decide (kv.1 = query_id)))
      = List.find? (fun kv => decide (kv.1 = q)) pending := by
    rw [List.find?_filter]
    congr 1
    funext kv
    by_cases h2 : kv.1 = q
    · simp [h2, hq]
    · simp [h2]
  rw [this]

/-- Every state in which a handled message sequence ends is reachable. -/
theorem index.run_reachable {D : Type} (alg : partition_algorithm) (a0 : index_actor D)
    (msgs : List (index_message D)) (a : index_actor D)
    (r : index_actor D × List (index_output D))
    (ha : index.reachable alg a0 a) (hr : index.run alg a msgs = some r) :
    index.reachable alg a0 r.1 := by
  induction msgs generalizing a r with
  | nil =>
    have : r = (a, []) := by simpa [index.run] using hr.symm
    rw [this]; exact ha
  | cons msg rest ih =>
    unfold index.run at hr
    cases hs : index.step alg a msg with
    | none => rw [hs] at hr; cases hr
    | some p =>
      obtain ⟨a1, out1⟩ := p
      rw [hs] at hr
      simp only at hr
      cases hrest : index.run alg a1 rest with
      | none => rw [hrest] at hr; cases hr
      | some q =>
        obtain ⟨a2, out2⟩ := q
        rw [hrest] at hr
        simp only at hr
        have h2 := ih a1 (a2, out2) (index.reachable.step a a1 msg out1 ha hs) hrest
        have : r = (a2, out1 ++ out2) := by simpa using hr.symm
        rw [this]; exact h2

/-- C7 (as stated, refuted): a single remaining candidate whose partition
produces an empty evaluation map is consumed without being scheduled, so with
`n = 1` the returned map has 0 entries, not `min(1, 1) = 1`. -/
theorem build_query_map_size_counterexample :
    (sample_index.state.build_query_map stable_partition ⟨exprAandB, [3]⟩ 1).2.2.length
      ≠ min 1 ([3] : List uuid).length := by
  decide

/-- C7 (amended): for distinct candidates the number of partitions
`build_query_map` schedules equals `min(n, g)`, where `g` counts the remaining
candidates whose partition (the active one, an unpersisted one, or else the
cached or persisted copy) produces a non-empty evaluation map at the time of
the call; the other candidates visited are consumed without being scheduled. -/
theorem build_query_map_size {D : Type} (alg : partition_algorithm) (st : index_state D)
    (lookup : lookup_state D) (n : Nat) (hnd : lookup.partitions.Nodup) :
    (st.build_query_map alg lookup n).2.2.length
      = min n (lookup.partitions.countP (st.qualifies lookup.expr)) := by
  unfold index_state.build_query_map
  by_cases h : n = 0 ∨ lookup.partitions = []
  · rw [if_pos h]
    rcases h with h | h
    · simp [h]
    · simp [h]
  · rw [if_neg h]
    show (index_state.build_query_map.loop lookup.expr n st []
      (alg.run st.resident lookup.partitions)).2.1.length = _
    obtain ⟨hinv, hrf⟩ := index_state.loop_inv_start alg st lookup.partitions
    obtain ⟨i, ks, h1, h2, _, _, h5, h6, h7⟩ := index_state.build_query_map.loop_schedule st
      lookup.expr n (alg.run st.resident lookup.partitions) st [] hinv hrf (Nat.zero_le _)
    have hks := h5 ((alg.perm _ _).nodup_iff.mpr hnd) (fun c _ hc => by cases hc)
    rw [← (alg.perm st.resident lookup.partitions).countP_eq (st.qualifies lookup.expr)]
    generalize alg.run st.resident lookup.partitions = L at h1 h2 h6 h7 hks
    generalize index_state.build_query_map.loop lookup.expr n st [] L = r at h1 h2 h6 h7
    have hlen : r.2.1.length = ks.length := by
      have := congrArg List.length h2
      simpa using this
    rw [List.countP_eq_length_filter]
    by_cases hrem : r.2.2 = []
    · rw [h1] at hrem
      have hi : L.length ≤ i := List.drop_eq_nil_iff.mp hrem
      rw [List.take_of_length_le hi] at hks
      rw [hlen, hks] at h6 ⊢
      omega
    · have hn := h7 hrem
      have hsub : ((L.take i).filter (st.qualifies lookup.expr)).length
          ≤ (L.filter (st.qualifies lookup.expr)).length :=
        ((List.take_sublist i L).filter _).length_le
      rw [hlen, hks] at hn
      rw [hlen, hks]
      omega

/-- Instance of C7 (amended): an ingesting coordinator whose active partition
3 holds data that is not on disk yet and whose unpersisted partition 4 resolves
no layout.  Of the candidates 1 to 4 three qualify, so three partitions are
scheduled for `n = 5`. -/
theorem build_query_map_size_witness :
    (sample_ingesting_index.state.build_query_map stable_partition
        ⟨exprAandB, [1, 2, 3, 4]⟩ 5).2.2.length
      = min 5 (([1, 2, 3, 4] : List uuid).countP
          (sample_ingesting_index.state.qualifies exprAandB)) :=
  build_query_map_size stable_partition sample_ingesting_index.state
    ⟨exprAandB, [1, 2, 3, 4]⟩ 5 (by decide)

/-- The numbers of the sample: three of the four candidates qualify, the
active partition 3 among them although its copy on disk resolves no layout. -/
theorem build_query_map_size_example :
    ([1, 2, 3, 4] : List uuid).map (sample_ingesting_index.state.qualifies exprAandB)
      = [true, true, true, false] ∧
    (sample_disk 3 exprAandB).isEmpty = true ∧
    ((sample_ingesting_index.state.build_query_map stable_partition
        ⟨exprAandB, [1, 2, 3, 4]⟩ 5).2.2.map Prod.fst) = [3, 1, 2] ∧
    ((sample_ingesting_index.state.build_query_map stable_partition
        ⟨exprAandB, [1, 2, 3, 4]⟩ 2).2.2.map Prod.fst) = [3, 1] := by
  decide

/-- C8 (as stated, refuted): after a query has left candidates pending under
id 99, the continuation `(99, 0)` is handled without any output; no `done`
signal reaches the client 50. -/
theorem continuation_zero_sends_no_done :
    (index.run stable_partition sample_index
        [.worker 10, .worker 11, .query exprAandB (some 50) 99]).map
      (fun r => (r.1.has_worker, r.1.state.pending.map (fun kv => (kv.1, kv.2.partitions))))
      = some (true, [(99, [2, 3, 4])]) ∧
    ((index.run stable_partition sample_index
        [.worker 10, .worker 11, .query exprAandB (some 50) 99]).bind
      (fun r => index.step stable_partition r.1 (.continuation 99 0 (some 50)))).map
      (fun r => r.2.any (index_output.is_done 50)) = some false := by
  decide

/-- C8 (amended): with `has_worker` installed, the continuation `(query_id, 0)`
is handled without output (nothing is dispatched and no `done` is sent), the
idle workers and the behaviour stay as they are, the pending entry of
`query_id` is removed and every other pending entry is unchanged. -/
theorem continuation_zero_drops_query {D : Type} (alg : partition_algorithm)
    (a : index_actor D) (query_id : uuid) (sender : Option actor)
    (hw : a.has_worker = true) :
    ∃ a1, index.step alg a (.continuation query_id 0 sender) = some (a1, []) ∧
      a1.state.idle_workers = a.state.idle_workers ∧
      a1.has_worker = true ∧
      pending_find a1.state.pending query_id = Option.none ∧
      (∀ q, q ≠ query_id → pending_find a1.state.pending q = pending_find a.state.pending q) ∧
      a1.state.lru_partitions.elements = a.state.lru_partitions.elements := by
  refine ⟨{ a with state := { a.state with pending := pending_erase a.state.pending query_id } },
    ?_, rfl, hw, pending_find_erase_self _ _, fun q hq => pending_find_erase_other _ _ q hq, rfl⟩
  simp [index.step, hw, index.on_continuation]

/-- Instance of C8 (amended): cancelling query 99 keeps the worker and the entry of query 98. -/
theorem continuation_zero_drops_query_witness :
    ∃ a1, index.step stable_partition sample_busy_index (.continuation 99 0 (some 50))
        = some (a1, []) ∧
      a1.state.idle_workers = [10] ∧
      a1.has_worker = true ∧
      pending_find a1.state.pending 99 = Option.none ∧
      (∀ q, q ≠ 99 → pending_find a1.state.pending q
        = pending_find sample_busy_index.state.pending q) ∧
      a1.state.lru_partitions.elements = sample_busy_index.state.lru_partitions.elements :=
  continuation_zero_drops_query stable_partition sample_busy_index 99 (some 50) rfl

/-- C9: two workers announce themselves, a query takes one of them and leaves
candidates pending, and a continuation takes the other.  The state reached has
`has_worker` installed although no idle worker is left, and the next
continuation calls `next_worker` on the empty list.  (A new query that takes
the last idle worker does leave `has_worker`.) -/
theorem has_worker_without_idle_worker :
    (∃ a : index_actor Nat, index.reachable stable_partition sample_index a ∧
      a.has_worker = true ∧ a.state.idle_workers = [] ∧
      index.step stable_partition a (.continuation 99 1 (some 50)) = Option.none) ∧
    (index.run stable_partition sample_index
        [.worker 10, .worker 11, .query exprAandB (some 50) 99,
         .continuation 99 1 (some 50)]).map
      (fun r => (r.1.has_worker, r.1.state.idle_workers)) = some (true, []) ∧
    (index.run stable_partition sample_index
        [.worker 10, .query exprAandB (some 50) 99]).map
      (fun r => (r.1.has_worker, r.1.state.idle_workers)) = some (false, []) := by
  refine ⟨?_, by decide, by decide⟩
  have hsome : (index.run stable_partition sample_index
      [.worker 10, .worker 11, .query exprAandB (some 50) 99,
       .continuation 99 1 (some 50)]).isSome = true := by decide
  obtain ⟨r, hr⟩ := Option.isSome_iff_exists.mp hsome
  have hstate : (index.run stable_partition sample_index
      [.worker 10, .worker 11, .query exprAandB (some 50) 99,
       .continuation 99 1 (some 50)]).map
      (fun r => (r.1.has_worker, r.1.state.idle_workers)) = some (true, []) := by decide
  have hnext : ((index.run stable_partition sample_index
      [.worker 10, .worker 11, .query exprAandB (some 50) 99,
       .continuation 99 1 (some 50)]).bind
      (fun r => index.step stable_partition r.1 (.continuation 99 1 (some 50)))).isNone
      = true := by decide
  rw [hr] at hstate hnext
  simp only [Option.map_some', Option.some.injEq, Prod.mk.injEq] at hstate
  refine ⟨r.1, index.run_reachable stable_partition sample_index _ sample_index r
    index.reachable.start hr, hstate.1, hstate.2, ?_⟩
  simpa using hnext

/-- The numbers of the sample: the order after partitioning, the scheduled
partitions and the candidates left. -/
theorem build_query_map_resident_first_example :
    stable_partition.run sample_ingesting_index.state.resident [1, 2, 3, 4] = [3, 4, 1, 2] ∧
    ([1, 2, 3, 4] : List uuid).map sample_ingesting_index.state.resident
      = [false, false, true, true] ∧
    (sample_ingesting_index.state.build_query_map stable_partition
        ⟨exprAandB, [1, 2, 3, 4]⟩ 2).2.2.map Prod.fst = [3, 1] ∧
    (sample_ingesting_index.state.build_query_map stable_partition
        ⟨exprAandB, [1, 2, 3, 4]⟩ 2).2.1.partitions = [2] := by
  decide


/-! ## Properties of the table indexer and of partition rotation -/

theorem bitmap.test_append_left (a b : bitmap) (i : Nat) (h : i < a.length) :
    bitmap.test (a ++ b) i = bitmap.test a i := by
  unfold bitmap.test
  rw [List.getD_eq_getElem?_getD, List.getD_eq_getElem?_getD, List.getElem?_append_left h]

theorem bitmap.rank_append (a b : bitmap) :
    bitmap.rank (a ++ b) = bitmap.rank a + bitmap.rank b := by
  unfold bitmap.rank
  exact List.count_append _ _ _

theorem bitmap.rank_replicate (n : Nat) (bit : Bool) :
    bitmap.rank (List.replicate n bit) = if bit then n else 0 := by
  unfold bitmap.rank
  cases bit <;> simp [List.count_replicate]

theorem table_indexer.add_row_ids (t : table_indexer) (offset rows : Nat)
    (hoff : t.row_ids_.length ≤ offset) (ho : offset < 2 ^ 64) (hr : rows < 2 ^ 64) :
    (t.add offset rows).row_ids_ = t.row_ids_
      ++ List.replicate (offset - t.row_ids_.length) false ++ List.replicate rows true := by
  have h1 : size_t_sub offset t.row_ids_.length = offset - t.row_ids_.length := by
    unfold size_t_sub
    have : t.row_ids_.length % 2 ^ 64 = t.row_ids_.length := Nat.mod_eq_of_lt (by omega)
    rw [this]
    omega
  have h2 : size_t_sub ((offset + rows) % 2 ^ 64) offset = rows := by
    unfold size_t_sub
    have : offset % 2 ^ 64 = offset := Nat.mod_eq_of_lt ho
    rw [this]
    omega
  simp only [table_indexer.add, bitmap.append_bits, h1, h2]

theorem table_indexer.add_all_rank (slices : List (Nat × Nat)) (t : table_indexer)
    (hv : valid_slices t.row_ids_.length slices = true) :
    (t.add_all slices).row_ids_.rank = t.row_ids_.rank + (slices.map Prod.snd).sum := by
  induction slices generalizing t with
  | nil => simp [table_indexer.add_all]
  | cons x rest ih =>
    obtain ⟨offset, rows⟩ := x
    simp only [valid_slices, Bool.and_eq_true, decide_eq_true_iff] at hv
    obtain ⟨⟨⟨⟨_, h2⟩, h3⟩, h4⟩, h5⟩ := hv
    have hrow := table_indexer.add_row_ids t offset rows h2 h3 h4
    have hlen : (t.add offset rows).row_ids_.length = offset + rows := by
      rw [hrow]; simp; omega
    have := ih (t.add offset rows) (by rw [hlen]; exact h5)
    simp only [table_indexer.add_all, List.foldl_cons] at this ⊢
    rw [this, hrow, bitmap.rank_append, bitmap.rank_append, bitmap.rank_replicate,
      bitmap.rank_replicate]
    simp
    omega

/-- C13: for a slice with `rows > 0` and `offset ≥ row_ids.size()`, `add`
turns `row_ids` into the old bits followed by `offset - old size` false bits
and `rows` true bits: bits below the old size are unchanged, the size becomes
`offset + rows` and the rank grows by `rows`.  Starting from a new table
indexer, the rank after a sequence of such slices is the sum of their rows. -/
theorem table_indexer_add_extends_row_ids (t : table_indexer) (offset rows : Nat)
    (_hrows : 0 < rows) (hoff : t.row_ids_.length ≤ offset)
    (ho : offset < 2 ^ 64) (hr : rows < 2 ^ 64) :
    (t.add offset rows).row_ids_ = t.row_ids_
      ++ List.replicate (offset - t.row_ids_.length) false ++ List.replicate rows true ∧
    (∀ i, i < t.row_ids_.length →
      (t.add offset rows).row_ids_.test i = t.row_ids_.test i) ∧
    (t.add offset rows).row_ids_.length = offset + rows ∧
    (t.add offset rows).row_ids_.rank = t.row_ids_.rank + rows ∧
    (∀ (layout : record_type) (slices : List (Nat × Nat)), valid_slices 0 slices = true →
      ((table_indexer.new layout).add_all slices).row_ids_.rank
        = (slices.map Prod.snd).sum) := by
  have hrow := table_indexer.add_row_ids t offset rows hoff ho hr
  refine ⟨hrow, ?_, ?_, ?_, ?_⟩
  · intro i hi
    rw [hrow, List.append_assoc, bitmap.test_append_left _ _ _ hi]
  · rw [hrow]; simp; omega
  · rw [hrow, bitmap.rank_append, bitmap.rank_append, bitmap.rank_replicate,
      bitmap.rank_replicate]
    simp
  · intro layout slices hv
    have := table_indexer.add_all_rank slices (table_indexer.new layout) hv
    rw [this]
    simp [table_indexer.new, bitmap.rank]

/-- Instance of C13: a table indexer with row ids `11` takes a slice with
offset 4 and 3 rows. -/
theorem table_indexer_add_extends_row_ids_witness :
    ({ table_indexer.new ⟨"t", []⟩ with row_ids_ := [true, true] }.add 4 3).row_ids_
      = [true, true, false, false, true, true, true] :=
  (table_indexer_add_extends_row_ids { table_indexer.new ⟨"t", []⟩ with row_ids_ := [true, true] }
    4 3 (by decide) (by decide) (by decide) (by decide)).1

/-- C11 (as stated, refuted): with an active partition 7 whose
`active_partition_indexers` is 0, `reset_active_partition` leaves the unpersisted
list empty; partition 7 is not appended. -/
theorem reset_active_partition_drops_idle_partition :
    sample_rotation_state.active.map (fun p => p.id) = some 7 ∧
    ((sample_rotation_state.reset_active_partition 8).unpersisted.getLast?.map
      (fun kv => (kv.1.id, kv.2))) ≠ some (7, 0) ∧
    (sample_rotation_state.reset_active_partition 8).unpersisted.length = 0 := by
  decide

/-- C11 (amended): for a state with an active partition whose
`active_partition_indexers` is positive, `reset_active_partition` appends the
previously active partition with that counter to the unpersisted list and keeps
the earlier entries; with a counter of 0 the list is unchanged.  In both cases
a new active partition exists and `active_partition_indexers` is 0. -/
theorem reset_active_partition_rotates {D : Type} (st : index_state D) (act : partition D)
    (new_id : uuid) (hact : st.active = some act) :
    (0 < st.active_partition_indexers →
      (st.reset_active_partition new_id).unpersisted
        = st.unpersisted ++ [(act, st.active_partition_indexers)]) ∧
    (st.active_partition_indexers = 0 →
      (st.reset_active_partition new_id).unpersisted = st.unpersisted) ∧
    (st.reset_active_partition new_id).active = some (index_state.make_partition new_id) ∧
    (st.reset_active_partition new_id).active_partition_indexers = 0 := by
  refine ⟨?_, ?_, rfl, rfl⟩
  · intro h
    simp [index_state.reset_active_partition, hact, h]
  · intro h
    simp [index_state.reset_active_partition, hact, h]

/-- Instance of C11 (amended): partition 7 with two running INDEXERs is
appended after the unpersisted partitions 5 and 6. -/
theorem reset_active_partition_rotates_witness :
    (sample_rotation_state2.reset_active_partition 8).unpersisted.map
      (fun kv => (kv.1.id, kv.2)) = [(5, 1), (6, 3), (7, 2)] := by
  have h := (reset_active_partition_rotates sample_rotation_state2
    (index_state.make_partition 7) 8 rfl).1 (by decide)
  rw [h]
  decide

theorem findIdx?_first {α : Type} (p : α → Bool) (pre post : List α) (x : α)
    (hpre : ∀ e ∈ pre, p e = false) (hx : p x = true) :
    (pre ++ x :: post).findIdx? p = some pre.length := by
  have hnone : pre.findIdx? p = Option.none := by
    rw [List.findIdx?_eq_none_iff]
    exact hpre
  rw [List.findIdx?_append, hnone]
  simp [List.findIdx?_cons, hx]

theorem size_t_decrement_pos (k : Nat) (h1 : 1 ≤ k) (h2 : k < 2 ^ 64) :
    size_t_decrement k = k - 1 := by
  unfold size_t_decrement
  omega

/-- C12: in a state with an active partition (the code reads `active->id()`
first).  For every id that is not the id of the active partition and names an
unpersisted entry `(p, k)` with `1 ≤ k` (the first entry of that id, `k` a
`size_t`), `decrement_indexer_count` keeps the entry with counter `k - 1` when
`k > 1` and removes exactly that entry when `k = 1`; the other entries, the
active partition and `active_partition_indexers` are unchanged.  For the id of
the active partition, whatever the unpersisted list holds, only
`active_partition_indexers` is decremented. -/
theorem decrement_indexer_count_frame {D : Type} (st : index_state D) (act : partition D)
    (hact : st.active = some act) :
    (∀ (p : partition D) (pre post : List (partition D × Nat)) (k : Nat),
      st.unpersisted = pre ++ (p, k) :: post → (∀ e ∈ pre, e.1.id ≠ p.id) →
      1 ≤ k → k < 2 ^ 64 → p.id ≠ act.id →
      ∃ st1, st.decrement_indexer_count p.id = some st1 ∧
        st1.unpersisted = (if k = 1 then pre ++ post else pre ++ (p, k - 1) :: post) ∧
        st1.active_partition_indexers = st.active_partition_indexers ∧
        st1.active = st.active) ∧
    (∃ st2, st.decrement_indexer_count act.id = some st2 ∧
      st2.active_partition_indexers = size_t_decrement st.active_partition_indexers ∧
      st2.unpersisted = st.unpersisted ∧
      st2.active = st.active) := by
  constructor
  · intro p pre post k hun hpre hk1 hk2 hne
    have hidx : st.unpersisted.findIdx? (fun kvp => decide (kvp.1.id = p.id))
        = some pre.length := by
      rw [hun]
      exact findIdx?_first _ pre post (p, k) (fun e he => by simpa using hpre e he) (by simp)
    have hget : st.unpersisted[pre.length]? = some (p, k) := by
      rw [hun, List.getElem?_append_right (Nat.le_refl _)]
      simp
    unfold index_state.decrement_indexer_count
    simp only [hact, hne, if_false, hidx, hget]
    rw [size_t_decrement_pos k hk1 hk2]
    by_cases h1 : k = 1
    · subst h1
      rw [if_pos rfl, if_pos rfl]
      refine ⟨_, rfl, ?_, rfl, rfl⟩
      show st.unpersisted.eraseIdx pre.length = _
      rw [hun, List.eraseIdx_append_of_length_le (Nat.le_refl _)]
      simp
    · have h0 : ¬ (k - 1 = 0) := by omega
      rw [if_neg h0, if_neg h1]
      refine ⟨_, rfl, ?_, rfl, rfl⟩
      show st.unpersisted.set pre.length (p, k - 1) = _
      rw [hun, List.set_append_right _ _ (Nat.le_refl _)]
      simp
  · unfold index_state.decrement_indexer_count
    simp only [hact, if_true]
    exact ⟨_, rfl, rfl, rfl, rfl⟩

/-- Instance of C12: in a state with active partition 7 and unpersisted
partitions 5 (counter 1) and 6 (counter 3), a `done` for partition 6 leaves
counter 2 and a `done` for partition 5 removes its entry; in a state with
active partition 7 and no unpersisted partition a `done` for partition 7
decrements `active_partition_indexers` only. -/
theorem decrement_indexer_count_frame_witness :
    (∃ st1, sample_rotation_state2.decrement_indexer_count 6 = some st1 ∧
      st1.unpersisted = (if 3 = 1 then [(index_state.make_partition 5, 1)] ++ []
        else [(index_state.make_partition 5, 1)] ++ (index_state.make_partition 6, 3 - 1) :: []) ∧
      st1.active_partition_indexers = sample_rotation_state2.active_partition_indexers ∧
      st1.active = sample_rotation_state2.active) ∧
    ((sample_rotation_state2.decrement_indexer_count 5).map
      (fun st => st.unpersisted.map (fun kv => (kv.1.id, kv.2)))) = some [(6, 3)] ∧
    sample_rotation_state.unpersisted = [] ∧
    (∃ st2, sample_rotation_state.decrement_indexer_count 7 = some st2 ∧
      st2.active_partition_indexers
        = size_t_decrement sample_rotation_state.active_partition_indexers ∧
      st2.unpersisted = sample_rotation_state.unpersisted ∧
      st2.active = sample_rotation_state.active) :=
  ⟨(decrement_indexer_count_frame sample_rotation_state2 (index_state.make_partition 7)
      rfl).1 (index_state.make_partition 6) [(index_state.make_partition 5, 1)] [] 3 rfl
      (by intro e he; simp at he; subst he; decide) (by decide) (by decide) (by decide),
   by decide, rfl,
   (decrement_indexer_count_frame sample_rotation_state (index_state.make_partition 7)
      rfl).2⟩

/-! ## Properties of flushing a column index -/

/-- C14: after a successful `flush_to_disk` the value `last_flush` equals the
offset of the value index, and a second `flush_to_disk` without an append in
between returns success, attempts no directory creation and no save, and
leaves the column index (in particular `last_flush`) as it is, whatever the
file system looks like by then. -/
theorem flush_to_disk_idempotent {D : Type} (env1 env2 : flush_env) (c : column_index D)
    (hok : (c.flush_to_disk env1).2.1 = Option.none) :
    (c.flush_to_disk env1).1.last_flush_ = (c.flush_to_disk env1).1.idx_.offset ∧
    (c.flush_to_disk env1).1.idx_ = c.idx_ ∧
    ((c.flush_to_disk env1).1.flush_to_disk env2).2.1 = Option.none ∧
    ((c.flush_to_disk env1).1.flush_to_disk env2).2.2 = [] ∧
    ((c.flush_to_disk env1).1.flush_to_disk env2).1.last_flush_
      = (c.flush_to_disk env1).1.last_flush_ := by
  have key : (c.flush_to_disk env1).1.last_flush_ = (c.flush_to_disk env1).1.idx_.offset ∧
      (c.flush_to_disk env1).1.idx_ = c.idx_ := by
    unfold column_index.flush_to_disk at hok ⊢
    simp only at hok ⊢
    by_cases h0 : c.idx_.offset = c.last_flush_
    · rw [if_pos h0]
      exact ⟨h0.symm, rfl⟩
    · rw [if_neg h0] at hok ⊢
      by_cases hd : env1.dir_exists (env1.parent c.filename_) = true
      · simp only [hd, if_true] at hok ⊢
        cases hs : env1.save c.filename_ with
        | none => exact ⟨rfl, rfl⟩
        | some err => simp [hs] at hok
      · simp only [hd, Bool.false_eq_true, if_false] at hok ⊢
        cases hm : env1.mkdir (env1.parent c.filename_) with
        | some err => simp [hm] at hok
        | none =>
          simp only [hm] at hok ⊢
          cases hs : env1.save c.filename_ with
          | none => exact ⟨rfl, rfl⟩
          | some err => simp [hs] at hok
  have hnoop : (c.flush_to_disk env1).1.flush_to_disk env2
      = ((c.flush_to_disk env1).1, Option.none, []) := by
    generalize c.flush_to_disk env1 = r at key
    unfold column_index.flush_to_disk
    simp only
    rw [if_pos key.1.symm]
  exact ⟨key.1, key.2, by rw [hnoop], by rw [hnoop], by rw [hnoop]⟩

/-- Instance of C14: the sample column index is saved once; the second flush
does nothing. -/
theorem flush_to_disk_idempotent_witness :
    (sample_dirty_column.flush_to_disk sample_fs_ok).2.2 = [.save "dir/col" 1] ∧
    ((sample_dirty_column.flush_to_disk sample_fs_ok).1.flush_to_disk sample_fs_ok).2.2 = [] ∧
    ((sample_dirty_column.flush_to_disk sample_fs_ok).1.flush_to_disk sample_fs_ok).2.1
      = Option.none :=
  ⟨by decide,
   (flush_to_disk_idempotent sample_fs_ok sample_fs_ok sample_dirty_column (by decide)).2.2.2.1,
   (flush_to_disk_idempotent sample_fs_ok sample_fs_ok sample_dirty_column (by decide)).2.2.1⟩

/-- C15: a column index with one append that is not persisted (`last_flush`
0, offset 1) is flushed while saving fails.  The flush returns the error, yet
`last_flush` is 1 afterwards, and the next flush, on a file system where saving
works, returns success without attempting any write.  (When creating the
directory fails, `last_flush` stays 0.) -/
theorem flush_to_disk_error_marks_flushed :
    (sample_dirty_column.last_flush_, sample_dirty_column.idx_.offset) = (0, 1) ∧
    (sample_dirty_column.flush_to_disk sample_fs_save_fails).2.1 = some ec.filesystem_error ∧
    (sample_dirty_column.flush_to_disk sample_fs_save_fails).1.last_flush_ = 1 ∧
    ((sample_dirty_column.flush_to_disk sample_fs_save_fails).1.flush_to_disk sample_fs_ok).2
      = (Option.none, []) ∧
    (sample_dirty_column.flush_to_disk sample_fs_mkdir_fails).2.1 = some ec.filesystem_error ∧
    (sample_dirty_column.flush_to_disk sample_fs_mkdir_fails).1.last_flush_ = 0 := by
  decide

/-! ## Properties of `fetch_indexer` -/

theorem bitmap.test_of_length_le (b : bitmap) (i : Nat) (h : b.length ≤ i) :
    bitmap.test b i = false := by
  unfold bitmap.test
  rw [List.getD_eq_getElem?_getD, List.getElem?_eq_none h]
  rfl

theorem bitmap.test_sub (a b : bitmap) (i : Nat) :
    (a.sub b).test i = (a.test i && !b.test i) := by
  induction a generalizing b i with
  | nil => rw [bitmap.sub, bitmap.test_map_false, bitmap.test_nil]; rfl
  | cons x xs ih =>
    cases b with
    | nil => rw [bitmap.sub, bitmap.test_nil]; simp
    | cons y ys =>
      cases i with
      | zero => simp [bitmap.sub, bitmap.test_cons_zero]
      | succ n => simp [bitmap.sub, bitmap.test_cons_succ, ih]

/-- Marking id `id` in a mask that ends at or before it sets exactly that bit. -/
theorem bitmap.test_mark (mask : bitmap) (id i : Nat) (h : mask.length ≤ id) :
    bitmap.test ((mask ++ List.replicate (id - mask.length) false) ++ [true]) i
      = (bitmap.test mask i || decide (i = id)) := by
  by_cases h1 : i < mask.length
  · rw [List.append_assoc, bitmap.test_append_left _ _ _ h1]
    have : ¬ i = id := by omega
    simp [this]
  · rw [bitmap.test_of_length_le mask i (by omega)]
    unfold bitmap.test
    rw [List.getD_eq_getElem?_getD]
    by_cases h2 : i = id
    · subst h2
      have hlen : (mask ++ List.replicate (i - mask.length) false).length = i := by
        simp; omega
      rw [List.getElem?_append_right (by omega), hlen]
      simp
    · by_cases h3 : i < id
      · have hlen : i < (mask ++ List.replicate (id - mask.length) false).length := by
          simp; omega
        rw [List.getElem?_append_left hlen, List.getElem?_append_right (by omega),
          List.getElem?_replicate]
        have : i - mask.length < id - mask.length := by omega
        simp [this, h2]
      · have hlen : ((mask ++ List.replicate (id - mask.length) false) ++ [true]).length ≤ i := by
          simp; omega
        rw [List.getElem?_eq_none hlen]
        simp [h2]

theorem query_result_cursor.push.fold_spec {D : Type}
    (selected : query_result_cursor D → event D → Bool) (sel : event D → Bool)
    (hsel : ∀ c x, selected c x = sel x)
    (events : List (event D)) (mask : bitmap) (c : query_result_cursor D)
    (hinc : events.Pairwise (fun a b => a.id < b.id))
    (hge : ∀ e ∈ events, mask.length ≤ e.id) (hfit : ∀ e ∈ events, e.id < 2 ^ 64) :
    (∀ i, (events.foldl (query_result_cursor.push.step selected) (mask, c)).1.test i
      = (mask.test i || decide (i ∈ events.map (fun e => e.id)))) ∧
    (events.foldl (query_result_cursor.push.step selected) (mask, c)).2
      = { c with cache_ := c.cache_ ++ events.filter sel } := by
  induction events generalizing mask c with
  | nil => simp
  | cons x rest ih =>
    obtain ⟨hx, hrest⟩ := List.pairwise_cons.mp hinc
    have hlen : mask.length ≤ x.id := hge x (List.mem_cons_self _ _)
    have hsub : size_t_sub x.id mask.length = x.id - mask.length := by
      unfold size_t_sub
      have hx2 := hfit x (List.mem_cons_self _ _)
      have : mask.length % 2 ^ 64 = mask.length := Nat.mod_eq_of_lt (by omega)
      rw [this]
      omega
    have hmask : ∀ c1 : query_result_cursor D,
        (query_result_cursor.push.step selected (mask, c1) x).1
          = (mask ++ List.replicate (x.id - mask.length) false) ++ [true] := by
      intro c1
      unfold query_result_cursor.push.step
      simp only [bitmap.append_bits, bitmap.append_bit, hsub]
      split <;> rfl
    have hcur : (query_result_cursor.push.step selected (mask, c) x).2
        = { c with cache_ := c.cache_ ++ [x].filter sel } := by
      unfold query_result_cursor.push.step
      simp only [hsel]
      cases hs : sel x <;> simp [hs]
    have hstep : query_result_cursor.push.step selected (mask, c) x
        = ((mask ++ List.replicate (x.id - mask.length) false) ++ [true],
           { c with cache_ := c.cache_ ++ [x].filter sel }) := by
      rw [← hmask c, ← hcur]
    have hlen2 : ((mask ++ List.replicate (x.id - mask.length) false) ++ [true]).length
        = x.id + 1 := by
      simp; omega
    rw [List.foldl_cons, hstep]
    obtain ⟨i1, i2⟩ := ih ((mask ++ List.replicate (x.id - mask.length) false) ++ [true])
      { c with cache_ := c.cache_ ++ [x].filter sel } hrest
      (fun e he => by rw [hlen2]; have := hx e he; omega)
      (fun e he => hfit e (List.mem_cons_of_mem _ he))
    refine ⟨?_, ?_⟩
    · intro i
      rw [i1 i, bitmap.test_mark mask x.id i hlen]
      simp only [List.map_cons, List.mem_cons, Bool.or_assoc]
      congr 1
      by_cases h1 : i = x.id <;> by_cases h2 : i ∈ rest.map (fun e => e.id) <;> simp [h1, h2]
    · rw [i2]
      cases hs : sel x <;> simp [List.filter_cons, hs]

/-- C18: for events with strictly increasing ids, `push(first, last)` hands to
the policy's push a cursor in which the id of every pushed event is cleared
from the hits, selected or not, every other id is as before, and the cache is
extended by exactly the selected events in their order. -/
theorem cursor_push_clears_ids {D S : Type}
    (selected : query_result_cursor D → event D → Bool) (sel : event D → Bool)
    (policy_push : S → query_result_cursor D → S × query_result_cursor D)
    (s : S) (c : query_result_cursor D) (events : List (event D))
    (hsel : ∀ c1 x, selected c1 x = sel x)
    (hinc : events.Pairwise (fun a b => a.id < b.id))
    (hfit : ∀ e ∈ events, e.id < 2 ^ 64) :
    query_result_cursor.push selected policy_push s c events
      = policy_push s (query_result_cursor.push.collect selected c events) ∧
    (∀ i, (query_result_cursor.push.collect selected c events).hits_.test i
      = (c.hits_.test i && !decide (i ∈ events.map (fun e => e.id)))) ∧
    (query_result_cursor.push.collect selected c events).cache_
      = c.cache_ ++ events.filter sel ∧
    (query_result_cursor.push.collect selected c events).state_ = c.state_ ∧
    (query_result_cursor.push.collect selected c events).credit_ = c.credit_ := by
  obtain ⟨h1, h2⟩ := query_result_cursor.push.fold_spec selected sel hsel events [] c hinc
    (fun e _ => Nat.zero_le _) hfit
  refine ⟨rfl, ?_, ?_, ?_, ?_⟩
  · intro i
    unfold query_result_cursor.push.collect
    simp only
    rw [bitmap.test_sub, h1 i, h2, bitmap.test_nil, Bool.false_or]
  · unfold query_result_cursor.push.collect
    simp only
    rw [h2]
  · unfold query_result_cursor.push.collect
    simp only
    rw [h2]
  · unfold query_result_cursor.push.collect
    simp only
    rw [h2]

/-- Instance of C18: events 1 and 3 are pushed into a cursor with hits
`01110`; the selector takes events with an even content. -/
theorem cursor_push_clears_ids_witness :
    (query_result_cursor.push.collect (fun _ x => decide (x.value % 2 = 0))
        ({ state_ := .active, hits_ := [false, true, true, true, false], cache_ := [],
           credit_ := 0 } : query_result_cursor Nat) [⟨1, 10⟩, ⟨3, 11⟩]).cache_
      = [] ++ ([⟨1, 10⟩, ⟨3, 11⟩] : List (event Nat)).filter (fun x => decide (x.value % 2 = 0)) :=
  (cursor_push_clears_ids (fun _ x => decide (x.value % 2 = 0))
    (fun x => decide (x.value % 2 = 0)) recording_sink.push
    ({ output := [], finalized := 0 } : recording_sink Nat)
    ({ state_ := .active, hits_ := [false, true, true, true, false], cache_ := [],
       credit_ := 0 } : query_result_cursor Nat) [⟨1, 10⟩, ⟨3, 11⟩]
    (fun _ _ => rfl) (by decide) (by decide)).2.2.1

/-- C19: `fetch_credit` zeroes the credit and then returns `credit_`, so it
returns 0 whatever the credit was: a cursor with credit 5 yields 0, not 5.  As
a consequence the pull of the test policy, which pushes `min(remaining,
fetch_credit())` events, pushes nothing although credit was granted. -/
theorem fetch_credit_returns_zero :
    (∀ (D : Type) (c : query_result_cursor D), c.fetch_credit.1 = 0 ∧
      c.fetch_credit.2.credit_ = 0) ∧
    (({ state_ := .active, hits_ := [], cache_ := [], credit_ := 5 } :
      query_result_cursor Nat).fetch_credit.1 = 0) ∧
    ((query_result_cursor.grant_credit test_query_result_cursor.pull
        ({ input_ := [⟨0, 10⟩, ⟨1, 11⟩, ⟨2, 12⟩], pos_ := 0, output_ := [] } :
          test_query_result_cursor Nat)
        (query_result_cursor.new Nat) 5).1.output_ = []) := by
  refine ⟨fun D c => ⟨rfl, rfl⟩, by decide, by decide⟩

/-- C20: ids 0 and 1 are added to a new cursor, both events are pushed and
delivered to the sink, and the cursor is sealed.  No pending id remains and the
cache is empty, but the hits bitmap still has size 2, so `try_finalize` leaves
the cursor sealed and does not notify the sink. -/
theorem try_finalize_stuck_after_hits :
    sample_cursor_session.2.state_ = .sealed ∧
    sample_cursor_session.1.finalized = 0 ∧
    sample_cursor_session.1.output = [⟨0, 10⟩, ⟨1, 11⟩] ∧
    sample_cursor_session.2.cache_ = [] ∧
    sample_cursor_session.2.hits_ = [false, false] ∧
    sample_cursor_session.2.hits_.all_0 = true ∧
    sample_cursor_session.2.hits_.empty = false := by
  decide

/-! ## Properties of the event pipeline -/

theorem bitmap.length_or (a b : bitmap) : (a.or b).length = max a.length b.length := by
  induction a generalizing b with
  | nil => simp [bitmap.or]
  | cons x xs ih =>
    cases b with
    | nil => simp [bitmap.or]
    | cons y ys => simp [bitmap.or, ih]; omega

theorem countP_or_disjoint (f g : Nat → Bool) (l : List Nat)
    (h : ∀ i, ¬ (f i = true ∧ g i = true)) :
    l.countP (fun i => f i || g i) = l.countP f + l.countP g := by
  induction l with
  | nil => rfl
  | cons x rest ih =>
    rw [List.countP_cons, List.countP_cons, List.countP_cons, ih]
    have := h x
    cases hf : f x <;> cases hg : g x <;> simp_all <;> omega

theorem count_range_extend (f : Nat → Bool) (n k : Nat) (h : ∀ i, n ≤ i → f i = false) :
    (List.range (n + k)).countP f = (List.range n).countP f := by
  induction k with
  | zero => rfl
  | succ k ih =>
    rw [← Nat.add_assoc, List.range_succ, List.countP_append, ih]
    simp [h (n + k) (by omega)]

theorem archived_count_eq {D : Type} (archive : List (Nat × event D)) (b : bitmap) (n : Nat)
    (hn : b.length ≤ n) :
    archived_count archive b
      = (List.range n).countP
          (fun i => b.test i && (dummy_source.find archive i).isSome) := by
  unfold archived_count bitmap.select
  rw [List.filter_filter, ← List.countP_eq_length_filter]
  obtain ⟨k, rfl⟩ := Nat.exists_eq_add_of_le hn
  rw [count_range_extend _ b.length k
    (fun i hi => by rw [bitmap.test_of_length_le b i hi]; rfl)]
  congr 1
  funext i
  exact Bool.and_comm _ _

theorem archived_count_congr {D : Type} (archive : List (Nat × event D)) (a b : bitmap)
    (h : ∀ i, a.test i = b.test i) : archived_count archive a = archived_count archive b := by
  rw [archived_count_eq archive a (max a.length b.length) (Nat.le_max_left _ _),
    archived_count_eq archive b (max a.length b.length) (Nat.le_max_right _ _)]
  congr 1
  funext i
  rw [h i]

theorem archived_count_or {D : Type} (archive : List (Nat × event D)) (a b : bitmap)
    (h : ∀ i, ¬ (a.test i = true ∧ b.test i = true)) :
    archived_count archive (a.or b) = archived_count archive a + archived_count archive b := by
  have hl := bitmap.length_or a b
  have hdisj : ∀ i, ¬ ((a.test i && (dummy_source.find archive i).isSome) = true
      ∧ (b.test i && (dummy_source.find archive i).isSome) = true) := by
    intro i hi
    rw [Bool.and_eq_true, Bool.and_eq_true] at hi
    exact h i ⟨hi.1.1, hi.2.1⟩
  rw [archived_count_eq archive (a.or b) (max a.length b.length) (by omega),
    archived_count_eq archive a (max a.length b.length) (Nat.le_max_left _ _),
    archived_count_eq archive b (max a.length b.length) (Nat.le_max_right _ _),
    ← countP_or_disjoint _ _ _ hdisj]
  congr 1
  funext i
  rw [bitmap.test_or]
  generalize a.test i = x
  generalize b.test i = y
  generalize (dummy_source.find archive i).isSome = z
  cases x <;> cases y <;> cases z <;> rfl

theorem length_filterMap_eq {α β : Type} (f : α → Option β) (l : List α) :
    (l.filterMap f).length = (l.filter (fun x => (f x).isSome)).length := by
  induction l with
  | nil => rfl
  | cons x rest ih =>
    cases hf : f x <;> simp [List.filterMap_cons, List.filter_cons, hf, ih]

theorem bitmap.rank_eq_zero (b : bitmap) (h : b.rank = 0) (i : Nat) : b.test i = false := by
  unfold bitmap.rank at h
  have hnot : true ∉ b := List.count_eq_zero.mp h
  have hall : b.all_0 = true := by
    unfold bitmap.all_0
    rw [List.all_eq_true]
    intro x hx
    cases x with
    | false => rfl
    | true => exact absurd hx hnot
  exact (bitmap.all_0_iff b).mp hall i

theorem dummy_source.push_spec {D : Type} (p : event_pipeline D) (credit : Nat)
    (hinv : pipeline_inv p credit) (hc : credit < 2 ^ 64) :
    pipeline_inv (dummy_source.push p) credit ∧ pipeline_settled (dummy_source.push p) ∧
    (dummy_source.push p).source.archive_ = p.source.archive_ ∧
    (dummy_source.push p).source.selected_ = p.source.selected_ := by
  obtain ⟨h1, h2⟩ := hinv
  unfold dummy_source.push
  simp only
  have hle1 : min p.source.demand_ p.source.buf_.length ≤ p.source.demand_ :=
    Nat.min_le_left _ _
  have hle2 : min p.source.demand_ p.source.buf_.length ≤ p.source.buf_.length :=
    Nat.min_le_right _ _
  have hmin : min p.source.demand_ p.source.buf_.length = p.source.demand_
      ∨ min p.source.demand_ p.source.buf_.length = p.source.buf_.length := by omega
  generalize min p.source.demand_ p.source.buf_.length = n at hle1 hle2 hmin ⊢
  by_cases hn : 0 < n
  · rw [if_pos hn]
    have hsub : size_t_sub p.source.demand_ n = p.source.demand_ - n := by
      unfold size_t_sub
      have hm : n % 2 ^ 64 = n := Nat.mod_eq_of_lt (by omega)
      rw [hm]
      omega
    rw [hsub]
    by_cases hall : n = p.source.buf_.length
    · rw [if_pos hall, if_pos hall]
      refine ⟨⟨?_, ?_⟩, Or.inr rfl, rfl, rfl⟩
      · show (p.sink.output_ ++ p.source.buf_).length + 0
          = archived_count p.source.archive_ p.source.selected_
        rw [List.length_append]; omega
      · show (p.sink.output_ ++ p.source.buf_).length + (p.source.demand_ - n) = credit
        rw [List.length_append]; omega
    · rw [if_neg hall, if_neg hall]
      have hd : n = p.source.demand_ := by omega
      refine ⟨⟨?_, ?_⟩, Or.inl ?_, rfl, rfl⟩
      · show (p.sink.output_ ++ p.source.buf_.drop (p.source.buf_.length - n)).length
          + (p.source.buf_.take (p.source.buf_.length - n)).length
          = archived_count p.source.archive_ p.source.selected_
        rw [List.length_append, List.length_drop, List.length_take]; omega
      · show (p.sink.output_ ++ p.source.buf_.drop (p.source.buf_.length - n)).length
          + (p.source.demand_ - n) = credit
        rw [List.length_append, List.length_drop]; omega
      · show p.source.demand_ - n = 0
        omega
  · rw [if_neg hn]
    refine ⟨⟨h1, h2⟩, ?_, rfl, rfl⟩
    unfold pipeline_settled
    by_cases hd : p.source.demand_ = 0
    · exact Or.inl hd
    · right
      have : p.source.buf_.length = 0 := by omega
      exact List.eq_nil_of_length_eq_zero this

theorem dummy_source.pull_spec {D : Type} (p : event_pipeline D) (credit num : Nat)
    (hinv : pipeline_inv p credit) (hc : credit + num < 2 ^ 64) :
    pipeline_inv (dummy_source.pull p num) (credit + num) ∧
    pipeline_settled (dummy_source.pull p num) ∧
    (dummy_source.pull p num).source.archive_ = p.source.archive_ ∧
    (dummy_source.pull p num).source.selected_ = p.source.selected_ := by
  obtain ⟨h1, h2⟩ := hinv
  unfold dummy_source.pull
  have hmod : (p.source.demand_ + num) % 2 ^ 64 = p.source.demand_ + num :=
    Nat.mod_eq_of_lt (by omega)
  rw [hmod]
  exact dummy_source.push_spec _ (credit + num) ⟨h1, by show p.sink.output_.length + (p.source.demand_ + num) = credit + num; omega⟩ hc

theorem dummy_source.query_spec {D : Type} (p : event_pipeline D) (credit : Nat) (xs : ids)
    (hinv : pipeline_inv p credit) (hset : pipeline_settled p) (hc : credit < 2 ^ 64) :
    pipeline_inv (dummy_source.query p xs).1 credit ∧
    pipeline_settled (dummy_source.query p xs).1 ∧
    (dummy_source.query p xs).1.source.archive_ = p.source.archive_ ∧
    (∀ i, (dummy_source.query p xs).1.source.selected_.test i
      = (p.source.selected_.test i || xs.test i)) := by
  unfold dummy_source.query
  simp only
  by_cases hr : (xs.sub p.source.selected_).rank = 0
  · rw [if_pos hr]
    refine ⟨hinv, hset, rfl, ?_⟩
    intro i
    have := bitmap.rank_eq_zero _ hr i
    rw [bitmap.test_sub] at this
    cases h1 : p.source.selected_.test i <;> cases h2 : xs.test i <;> simp_all
  · rw [if_neg hr]
    obtain ⟨h1, h2⟩ := hinv
    have hdisj : ∀ i, ¬ (p.source.selected_.test i = true
        ∧ (xs.sub p.source.selected_).test i = true) := by
      intro i ⟨ha, hb⟩
      rw [bitmap.test_sub, ha] at hb
      simp at hb
    have hpush := dummy_source.push_spec
      ({ p with source := { p.source with
          selected_ := p.source.selected_.or (xs.sub p.source.selected_),
          buf_ := p.source.buf_ ++ (xs.sub p.source.selected_).select.filterMap
            (dummy_source.find p.source.archive_) } }) credit
      ⟨by
        show p.sink.output_.length + (p.source.buf_ ++ _).length
          = archived_count p.source.archive_ (p.source.selected_.or (xs.sub p.source.selected_))
        rw [archived_count_or _ _ _ hdisj, List.length_append, length_filterMap_eq, ← h1]
        unfold archived_count
        omega, h2⟩ hc
    obtain ⟨g1, g2, g3, g4⟩ := hpush
    refine ⟨g1, g2, g3, ?_⟩
    intro i
    rw [g4]
    show (p.source.selected_.or (xs.sub p.source.selected_)).test i = _
    rw [bitmap.test_or, bitmap.test_sub]
    cases h1 : p.source.selected_.test i <;> cases h2 : xs.test i <;> rfl

theorem event_pipeline.run_spec {D : Type} (calls : List pipeline_call)
    (p : event_pipeline D) (credit : Nat) (u : Nat → Bool)
    (hinv : pipeline_inv p credit) (hset : pipeline_settled p)
    (hu : ∀ i, p.source.selected_.test i = u i)
    (hc : credit + total_credit calls < 2 ^ 64) :
    pipeline_inv (calls.foldl event_pipeline.call p) (credit + total_credit calls) ∧
    pipeline_settled (calls.foldl event_pipeline.call p) ∧
    (calls.foldl event_pipeline.call p).source.archive_ = p.source.archive_ ∧
    (∀ i, (calls.foldl event_pipeline.call p).source.selected_.test i
      = (u i || (queried_ids calls).test i)) := by
  induction calls generalizing p credit u with
  | nil =>
    refine ⟨by simpa [total_credit] using hinv, hset, rfl, ?_⟩
    intro i
    simp [queried_ids, bitmap.test_nil, hu i]
  | cons call rest ih =>
    cases call with
    | query xs =>
      simp only [total_credit] at hc ⊢
      obtain ⟨g1, g2, g3, g4⟩ := dummy_source.query_spec p credit xs hinv hset (by omega)
      obtain ⟨k1, k2, k3, k4⟩ := ih (dummy_source.query p xs).1 credit
        (fun i => u i || xs.test i) g1 g2 (fun i => by rw [g4 i, hu i]) hc
      refine ⟨k1, k2, by rw [List.foldl_cons]; exact k3.trans g3, ?_⟩
      intro i
      rw [List.foldl_cons]
      show ((rest.foldl event_pipeline.call (dummy_source.query p xs).1).source.selected_).test i = _
      rw [k4 i, queried_ids, bitmap.test_or, Bool.or_assoc]
    | add_credit num =>
      simp only [total_credit] at hc ⊢
      obtain ⟨g1, g2, g3, g4⟩ := dummy_source.pull_spec p credit num hinv (by omega)
      obtain ⟨k1, k2, k3, k4⟩ := ih (dummy_source.pull p num) (credit + num) u g1 g2
        (fun i => by rw [g4]; exact hu i) (by omega)
      refine ⟨by rw [← Nat.add_assoc]; exact k1, k2, by rw [List.foldl_cons]; exact k3.trans g3, ?_⟩
      intro i
      rw [List.foldl_cons]
      show ((rest.foldl event_pipeline.call (dummy_source.pull p num)).source.selected_).test i = _
      rw [k4 i, queried_ids]

/-- C17: for a pipeline from the buffering source to the sink and every
sequence of `query` and `add_credit` calls whose credits add up to less than
`2^64`, the number of events delivered to the sink is the minimum of the total
credit granted and the number of queried ids for which the archive holds an
event; it never exceeds the credit, and `at_end()` holds exactly when no event
is buffered. -/
theorem pipeline_delivers_min_of_credit_and_queried {D : Type} (xs : List (event D))
    (calls : List pipeline_call) (hc : total_credit calls < 2 ^ 64) :
    (calls.foldl event_pipeline.call (event_pipeline.new xs)).sink.output_.length
      = min (total_credit calls)
          (archived_count (dummy_source.new xs).archive_ (queried_ids calls)) ∧
    (calls.foldl event_pipeline.call (event_pipeline.new xs)).sink.output_.length
      ≤ total_credit calls ∧
    ((calls.foldl event_pipeline.call (event_pipeline.new xs)).at_end = true ↔
      (calls.foldl event_pipeline.call (event_pipeline.new xs)).source.buf_ = []) := by
  have hstart : pipeline_inv (event_pipeline.new xs) 0 := by
    refine ⟨?_, rfl⟩
    show 0 + 0 = archived_count _ []
    rfl
  obtain ⟨⟨h1, h2⟩, h3, h4, h5⟩ := event_pipeline.run_spec calls (event_pipeline.new xs) 0
    (fun _ => false) hstart (Or.inl rfl) (fun i => bitmap.test_nil i) (by omega)
  have hq : archived_count (dummy_source.new xs).archive_ (queried_ids calls)
      = archived_count (calls.foldl event_pipeline.call (event_pipeline.new xs)).source.archive_
          (calls.foldl event_pipeline.call (event_pipeline.new xs)).source.selected_ := by
    rw [h4]
    exact archived_count_congr _ _ _ (fun i => by rw [h5 i]; rfl)
  rw [hq]
  refine ⟨?_, by omega, ?_⟩
  · rcases h3 with h3 | h3
    · omega
    · have : (calls.foldl event_pipeline.call (event_pipeline.new xs)).source.buf_.length = 0 := by
        rw [h3]; rfl
      omega
  · unfold event_pipeline.at_end dummy_source.at_end
    rw [decide_eq_true_iff]
    constructor
    · intro h
      exact List.eq_nil_of_length_eq_zero (by omega)
    · intro h
      rw [h]; rfl

/-- Instance of C17: the source holds the events 0 to 29; with credit 10 and
the ids `[10, 40)` queried, 10 events reach the sink, and after two more grants
of 10 all 20 archived events of the queried ids have. -/
theorem pipeline_delivers_min_of_credit_and_queried_witness :
    ([pipeline_call.add_credit 10, .query sample_ids].foldl event_pipeline.call
        (event_pipeline.new sample_events)).sink.output_.length
      = min (total_credit [pipeline_call.add_credit 10, .query sample_ids])
          (archived_count (dummy_source.new sample_events).archive_
            (queried_ids [pipeline_call.add_credit 10, .query sample_ids])) ∧
    ([pipeline_call.add_credit 10, .query sample_ids, .add_credit 10,
        .add_credit 10].foldl event_pipeline.call
        (event_pipeline.new sample_events)).sink.output_.length = 20 :=
  ⟨(pipeline_delivers_min_of_credit_and_queried sample_events
      [pipeline_call.add_credit 10, .query sample_ids] (by decide)).1,
   by decide⟩

/-! ## Properties of the new-query handler -/

theorem index_state.spin_up_frame {D : Type} (st : index_state D) (expr : expression D)
    (result : pending_query_map D) (id : uuid) :
    (st.spin_up expr result id).1.pending = st.pending ∧
    (st.spin_up expr result id).1.idle_workers = st.idle_workers ∧
    (st.spin_up expr result id).2.length ≤ result.length + 1 ∧
    result.length ≤ (st.spin_up expr result id).2.length := by
  have hlen : (st.spin_up expr result id).2.length ≤ result.length + 1 ∧
      result.length ≤ (st.spin_up expr result id).2.length := by
    rcases index_state.spin_up_result st expr result id with h | ⟨ev, h⟩
    · rw [h]; omega
    · rw [h]
      unfold pending_query_map.emplace
      split
      · omega
      · simp
  refine ⟨?_, ?_, hlen.1, hlen.2⟩
  · unfold index_state.spin_up
    simp only
    split <;> split <;> try rfl
    all_goals (split <;> rfl)
  · unfold index_state.spin_up
    simp only
    split <;> split <;> try rfl
    all_goals (split <;> rfl)

theorem index_state.build_query_map.loop_frame {D : Type} (expr : expression D) (n : Nat)
    (cands : List uuid) (st : index_state D) (result : pending_query_map D)
    (hle : result.length ≤ n) :
    (index_state.build_query_map.loop expr n st result cands).1.pending = st.pending ∧
    (index_state.build_query_map.loop expr n st result cands).1.idle_workers
      = st.idle_workers ∧
    (index_state.build_query_map.loop expr n st result cands).2.1.length ≤ n ∧
    ((index_state.build_query_map.loop expr n st result cands).2.2 ≠ [] →
      n ≤ (index_state.build_query_map.loop expr n st result cands).2.1.length) := by
  induction cands generalizing st result with
  | nil => exact ⟨rfl, rfl, hle, fun h => absurd rfl h⟩
  | cons c cs ih =>
    unfold index_state.build_query_map.loop
    by_cases hlt : result.length < n
    · rw [if_pos hlt]
      obtain ⟨f1, f2, f3, _⟩ := index_state.spin_up_frame st expr result c
      obtain ⟨i1, i2, i3, i4⟩ := ih (st.spin_up expr result c).1 (st.spin_up expr result c).2
        (by omega)
      exact ⟨i1.trans f1, i2.trans f2, i3, i4⟩
    · rw [if_neg hlt]
      exact ⟨rfl, rfl, hle, fun _ => by show n ≤ result.length; omega⟩

/-- The map of `build_query_map` has at most `n` entries; it has `n` entries
whenever candidates remain; state outside the partition cache is untouched. -/
theorem index_state.build_query_map_frame {D : Type} (alg : partition_algorithm)
    (st : index_state D) (lookup : lookup_state D) (n : Nat) :
    (st.build_query_map alg lookup n).1.pending = st.pending ∧
    (st.build_query_map alg lookup n).1.idle_workers = st.idle_workers ∧
    (st.build_query_map alg lookup n).2.2.length ≤ n ∧
    (n ≠ 0 → (st.build_query_map alg lookup n).2.1.partitions ≠ [] →
      (st.build_query_map alg lookup n).2.2.length = n) ∧
    (st.build_query_map alg lookup n).2.1.expr = lookup.expr := by
  unfold index_state.build_query_map
  by_cases h : n = 0 ∨ lookup.partitions = []
  · rw [if_pos h]
    refine ⟨rfl, rfl, Nat.zero_le _, ?_, rfl⟩
    intro hn hne
    rcases h with h | h
    · exact absurd h hn
    · exact absurd h hne
  · rw [if_neg h]
    obtain ⟨i1, i2, i3, i4⟩ := index_state.build_query_map.loop_frame lookup.expr n
      (alg.run st.resident lookup.partitions) st [] (Nat.zero_le _)
    exact ⟨i1, i2, i3, fun _ hne => Nat.le_antisymm i3 (i4 hne), rfl⟩

theorem pending_find_emplace {D : Type} (pending : List (uuid × lookup_state D))
    (query_id : uuid) (lookup : lookup_state D) :
    pending_find (pending_emplace pending query_id lookup) query_id ≠ Option.none := by
  unfold pending_emplace pending_find
  by_cases h : pending.any (fun kv => decide (kv.1 = query_id)) = true
  · rw [if_pos h]
    obtain ⟨kv, hkv, hp⟩ := List.any_eq_true.mp h
    cases hf : pending.find? (fun kv => decide (kv.1 = query_id)) with
    | none =>
      rw [List.find?_eq_none] at hf
      exact absurd hp (hf kv hkv)
    | some x => simp
  · rw [if_neg h]
    cases hf : (pending ++ [(query_id, lookup)]).find? (fun kv => decide (kv.1 = query_id)) with
    | none =>
      rw [List.find?_eq_none] at hf
      have := hf (query_id, lookup) (by simp)
      simp at this
    | some x => simp

theorem pending_emplace_keys {D : Type} (pending : List (uuid × lookup_state D))
    (query_id : uuid) (lookup : lookup_state D) (kv : uuid × lookup_state D)
    (h : kv ∈ pending_emplace pending query_id lookup) : kv ∈ pending ∨ kv.1 = query_id := by
  unfold pending_emplace at h
  split at h
  · exact Or.inl h
  · rcases List.mem_append.mp h with h | h
    · exact Or.inl h
    · right
      have : kv = (query_id, lookup) := by simpa using h
      rw [this]

theorem index_state.next_worker_frame {D : Type} (st st2 : index_state D) (w : actor)
    (h : st.next_worker = some (w, st2)) : st2.pending = st.pending := by
  unfold index_state.next_worker at h
  cases hl : st.idle_workers.getLast? with
  | none => rw [hl] at h; cases h
  | some x =>
    rw [hl] at h
    simp only [Option.some.injEq, Prod.mk.injEq] at h
    rw [← h.2]

/-- What the new-query handler does when it dispatches a non-empty batch: the
reply carries the counts `hits` and `min(taste_partitions, hits)`, the id is
nil exactly when `min(taste_partitions, hits) = hits`, and the lookup state is
stored under that id when candidates remain. -/
theorem index.on_query_dispatch {D : Type} (alg : partition_algorithm) (a a1 : index_actor D)
    (expr : expression D) (client : actor) (random_id : uuid)
    (outs : List (index_output D))
    (hcand : a.state.meta_idx expr ≠ [])
    (hbatch : (index.query_batch alg a expr).2.2.isEmpty = false)
    (h : index.on_query alg a expr (some client) random_id = some (a1, outs)) :
    ∃ w st2,
      outs = [.respond client
          (if min a.taste_partitions
              ((index.query_batch alg a expr).2.2.length
                + (index.query_batch alg a expr).2.1.partitions.length)
              = (index.query_batch alg a expr).2.2.length
                + (index.query_batch alg a expr).2.1.partitions.length
            then uuid.nil else random_id)
          ((index.query_batch alg a expr).2.2.length
            + (index.query_batch alg a expr).2.1.partitions.length)
          (min a.taste_partitions
            ((index.query_batch alg a expr).2.2.length
              + (index.query_batch alg a expr).2.1.partitions.length)),
        .dispatch w expr (index_state.launch_evaluators
          (index.query_batch alg a expr).2.2 expr) client] ∧
      a1.state = st2 ∧
      (if (index.query_batch alg a expr).2.1.partitions = []
        then (index.query_batch alg a expr).1
        else { (index.query_batch alg a expr).1 with
          pending := pending_emplace
            (index.query_batch alg a expr).1.pending
            (if min a.taste_partitions
                ((index.query_batch alg a expr).2.2.length
                  + (index.query_batch alg a expr).2.1.partitions.length)
                = (index.query_batch alg a expr).2.2.length
                  + (index.query_batch alg a expr).2.1.partitions.length
              then uuid.nil else random_id)
            (index.query_batch alg a expr).2.1 }).next_worker = some (w, st2) := by
  unfold index.query_batch at hbatch ⊢
  unfold index.on_query at h
  simp only [hcand, if_false, hbatch, Bool.false_eq_true] at h
  generalize a.state.build_query_map alg ⟨expr, a.state.meta_idx expr⟩
    a.state.taste_partitions = r at h hbatch ⊢
  unfold detail.narrow at h
  split at h
  · rename_i hits32 sched32 hh hs
    split at h
    · cases h
    · rename_i w st2 hw
      simp only [Option.some.injEq, Prod.mk.injEq] at h
      obtain ⟨h1, h2⟩ := h
      have e1 : hits32 = r.2.2.length + r.2.1.partitions.length := by
        split at hh
        · simpa using hh.symm
        · cases hh
      have e2 : sched32 = min a.taste_partitions (r.2.2.length + r.2.1.partitions.length) := by
        split at hs
        · simpa using hs.symm
        · cases hs
      refine ⟨w, st2, ?_, ?_, hw⟩
      · rw [← h2, e1, e2]
      · rw [← h1]
  · cases h

theorem index_state.spin_up_taste {D : Type} (st : index_state D) (expr : expression D)
    (result : pending_query_map D) (id : uuid) :
    (st.spin_up expr result id).1.taste_partitions = st.taste_partitions := by
  unfold index_state.spin_up
  simp only
  split <;> split <;> try rfl
  all_goals (split <;> rfl)

theorem index_state.build_query_map.loop_taste {D : Type} (expr : expression D) (n : Nat)
    (cands : List uuid) (st : index_state D) (result : pending_query_map D) :
    (index_state.build_query_map.loop expr n st result cands).1.taste_partitions
      = st.taste_partitions := by
  induction cands generalizing st result with
  | nil => rfl
  | cons c cs ih =>
    unfold index_state.build_query_map.loop
    split
    · exact (ih _ _).trans (index_state.spin_up_taste st expr result c)
    · rfl

theorem index_state.build_query_map_taste {D : Type} (alg : partition_algorithm)
    (st : index_state D) (lookup : lookup_state D) (n : Nat) :
    (st.build_query_map alg lookup n).1.taste_partitions = st.taste_partitions := by
  unfold index_state.build_query_map
  split
  · rfl
  · exact index_state.build_query_map.loop_taste _ _ _ _ _

theorem index_state.next_worker_taste {D : Type} (st st2 : index_state D) (w : actor)
    (h : st.next_worker = some (w, st2)) : st2.taste_partitions = st.taste_partitions := by
  unfold index_state.next_worker at h
  cases hl : st.idle_workers.getLast? with
  | none => rw [hl] at h; cases h
  | some x =>
    rw [hl] at h
    simp only [Option.some.injEq, Prod.mk.injEq] at h
    rw [← h.2]

theorem index_state.decrement_indexer_count_taste {D : Type} (st st1 : index_state D)
    (id : uuid) (h : st.decrement_indexer_count id = some st1) :
    st1.taste_partitions = st.taste_partitions := by
  unfold index_state.decrement_indexer_count at h
  split at h
  · cases h
  · split at h
    · cases h; rfl
    · split at h
      · cases h
      · split at h
        · cases h
        · split at h <;> (cases h; rfl)

theorem index.on_query_taste {D : Type} (alg : partition_algorithm) (a a1 : index_actor D)
    (expr : expression D) (sender : Option actor) (random_id : uuid)
    (outs : List (index_output D))
    (h : index.on_query alg a expr sender random_id = some (a1, outs)) :
    a1.taste_partitions = a.taste_partitions ∧
    a1.state.taste_partitions = a.state.taste_partitions := by
  cases sender with
  | none =>
    unfold index.on_query at h
    cases h; exact ⟨rfl, rfl⟩
  | some client =>
    unfold index.on_query at h
    simp only at h
    by_cases hc : a.state.meta_idx expr = []
    · rw [if_pos hc] at h
      cases h; exact ⟨rfl, rfl⟩
    · rw [if_neg hc] at h
      split at h
      · cases h
        exact ⟨rfl, index_state.build_query_map_taste _ _ _ _⟩
      · split at h
        · split at h
          · cases h
          · rename_i w st2 hw
            cases h
            refine ⟨rfl, ?_⟩
            show st2.taste_partitions = _
            rw [index_state.next_worker_taste _ _ _ hw]
            split
            · exact index_state.build_query_map_taste _ _ _ _
            · exact index_state.build_query_map_taste _ _ _ _
        · cases h

theorem index.on_continuation_taste {D : Type} (alg : partition_algorithm)
    (a a1 : index_actor D) (query_id : uuid) (n : Nat) (sender : Option actor)
    (outs : List (index_output D))
    (h : index.on_continuation alg a query_id n sender = some (a1, outs)) :
    a1.taste_partitions = a.taste_partitions ∧
    a1.state.taste_partitions = a.state.taste_partitions := by
  unfold index.on_continuation at h
  split at h
  · cases h; exact ⟨rfl, rfl⟩
  · split at h
    · cases h; exact ⟨rfl, rfl⟩
    · split at h
      · cases h; exact ⟨rfl, rfl⟩
      · simp only at h
        split at h
        · cases h
          exact ⟨rfl, index_state.build_query_map_taste _ _ _ _⟩
        · split at h
          · cases h
          · rename_i w st2 hw
            cases h
            refine ⟨rfl, ?_⟩
            show st2.taste_partitions = _
            rw [index_state.next_worker_taste _ _ _ hw]
            exact index_state.build_query_map_taste _ _ _ _

theorem index.step_taste {D : Type} (alg : partition_algorithm) (a a1 : index_actor D)
    (msg : index_message D) (outs : List (index_output D))
    (h : index.step alg a msg = some (a1, outs)) :
    a1.taste_partitions = a.taste_partitions ∧
    a1.state.taste_partitions = a.state.taste_partitions := by
  cases msg with
  | query expr sender random_id =>
    simp only [index.step] at h
    by_cases hw : a.has_worker = true
    · rw [if_pos hw] at h
      exact index.on_query_taste alg a a1 expr sender random_id outs h
    · rw [if_neg hw] at h
      cases h; exact ⟨rfl, rfl⟩
  | continuation query_id n sender =>
    simp only [index.step] at h
    by_cases hw : a.has_worker = true
    · rw [if_pos hw] at h
      exact index.on_continuation_taste alg a a1 query_id n sender outs h
    · rw [if_neg hw] at h
      cases h; exact ⟨rfl, rfl⟩
  | worker w =>
    simp only [index.step] at h
    cases h; exact ⟨rfl, rfl⟩
  | done partition_id =>
    simp only [index.step] at h
    split at h
    · rename_i st hst
      cases h
      exact ⟨rfl, index_state.decrement_indexer_count_taste _ _ _ hst⟩
    · cases h

/-- The two copies of `taste_partitions` (the `uint32_t` in the state and the
`size_t` captured by the handlers) keep the values given at start-up. -/
theorem index.reachable_taste {D : Type} (alg : partition_algorithm)
    (disk : uuid → expression D → evaluation_map D) (meta_idx : expression D → List uuid)
    (max_partition_size in_mem_partitions taste_partitions : Nat) (a : index_actor D)
    (h : index.reachable alg
      (index.spawn disk meta_idx max_partition_size in_mem_partitions taste_partitions) a) :
    a.taste_partitions = taste_partitions ∧
    a.state.taste_partitions = taste_partitions % 2 ^ 32 := by
  induction h with
  | start => exact ⟨rfl, rfl⟩
  | step a a1 msg out _ hs ih =>
    obtain ⟨e1, e2⟩ := index.step_taste alg a a1 msg out hs
    exact ⟨e1.trans ih.1, e2.trans ih.2⟩

/-- Rotation and the bookkeeping of INDEXERs leave `taste_partitions` as it is. -/
theorem index_state.rotation_reachable_taste {D : Type} (st0 st : index_state D)
    (h : index_state.rotation_reachable st0 st) :
    st.taste_partitions = st0.taste_partitions := by
  induction h with
  | start => rfl
  | reset st new_id _ _ _ ih => exact ih
  | decrement st st1 id _ hd ih =>
    exact (index_state.decrement_indexer_count_taste st st1 id hd).trans ih
  | spawn_indexers st n _ ih => exact ih

theorem index.query_batch_sizes {D : Type} (alg : partition_algorithm) (a : index_actor D)
    (expr : expression D)
    (hlo : 1 ≤ a.taste_partitions) (hhi : a.taste_partitions < 2 ^ 32)
    (hinit : a.state.taste_partitions = a.taste_partitions % 2 ^ 32) :
    (index.query_batch alg a expr).2.2.length ≤ a.taste_partitions ∧
    ((index.query_batch alg a expr).2.1.partitions ≠ [] →
      (index.query_batch alg a expr).2.2.length = a.taste_partitions) ∧
    (index.query_batch alg a expr).1.pending = a.state.pending := by
  rw [Nat.mod_eq_of_lt hhi] at hinit
  obtain ⟨f1, _, f3, f4, _⟩ := index_state.build_query_map_frame alg a.state
    ⟨expr, a.state.meta_idx expr⟩ a.state.taste_partitions
  have hn : a.state.taste_partitions ≠ 0 := by omega
  have e : a.state.taste_partitions = a.taste_partitions := by omega
  refine ⟨?_, ?_, f1⟩
  · rw [← e]; exact f3
  · intro hne
    rw [← e]; exact f4 hn hne

theorem index.query_batch_candidates {D : Type} (alg : partition_algorithm)
    (a : index_actor D) (expr : expression D)
    (hbatch : (index.query_batch alg a expr).2.2.isEmpty = false) :
    a.state.meta_idx expr ≠ [] := by
  intro hc
  have : (index.query_batch alg a expr).2.2 = [] := by
    show (a.state.build_query_map alg ⟨expr, a.state.meta_idx expr⟩
      a.state.taste_partitions).2.2 = []
    unfold index_state.build_query_map
    rw [if_pos (Or.inr hc)]
  rw [this] at hbatch
  cases hbatch

/-- C22: a coordinator in any state (with or without an active partition,
unpersisted and cached partitions) whose `taste_partitions` is between 1 and
2^32 - 1, the state holding the copy that `init` stored as `uint32_t`: when the
new-query handler dispatches a non-empty batch it reports as `scheduled` the
size of the map returned by `build_query_map`, which is the number of
partitions handed to `launch_evaluators`; the reported `hits` are that size
plus the remaining candidates. -/
theorem on_query_reports_batch_size {D : Type} (alg : partition_algorithm)
    (a a1 : index_actor D)
    (expr : expression D) (client : actor) (random_id : uuid) (outs : List (index_output D))
    (hlo : 1 ≤ a.taste_partitions) (hhi : a.taste_partitions < 2 ^ 32)
    (hinit : a.state.taste_partitions = a.taste_partitions % 2 ^ 32)
    (hbatch : (index.query_batch alg a expr).2.2.isEmpty = false)
    (h : index.on_query alg a expr (some client) random_id = some (a1, outs)) :
    ∃ query_id w,
      outs = [.respond client query_id
          ((index.query_batch alg a expr).2.2.length
            + (index.query_batch alg a expr).2.1.partitions.length)
          (index.query_batch alg a expr).2.2.length,
        .dispatch w expr
          (index_state.launch_evaluators (index.query_batch alg a expr).2.2 expr) client] ∧
      (index_state.launch_evaluators (index.query_batch alg a expr).2.2 expr).length
        = (index.query_batch alg a expr).2.2.length := by
  obtain ⟨s1, s2, _⟩ := index.query_batch_sizes alg a expr hlo hhi hinit
  obtain ⟨w, st2, ho, _, _⟩ := index.on_query_dispatch alg a a1 expr client random_id outs
    (index.query_batch_candidates alg a expr hbatch) hbatch h
  have hmin : min a.taste_partitions ((index.query_batch alg a expr).2.2.length
      + (index.query_batch alg a expr).2.1.partitions.length)
      = (index.query_batch alg a expr).2.2.length := by
    by_cases hr : (index.query_batch alg a expr).2.1.partitions = []
    · rw [hr, List.length_nil, Nat.add_zero]
      exact Nat.min_eq_right s1
    · rw [s2 hr]
      exact Nat.min_eq_left (Nat.le_add_right _ _)
  rw [hmin] at ho
  refine ⟨_, w, ho, ?_⟩
  unfold index_state.launch_evaluators
  exact List.length_map _ _

/-- Instance of C22: an ingesting coordinator with `taste_partitions = 1`, one
idle worker and the candidates 1 to 4 schedules and reports one partition, the
active one. -/
theorem on_query_reports_batch_size_witness :
    ∃ query_id w,
      [index_output.respond 50 99 4 1,
        index_output.dispatch 10 exprAandB [(3, [⟨exprAandB, sample_eval⟩])] 50]
      = [.respond 50 query_id
          ((index.query_batch stable_partition sample_ingesting_index exprAandB).2.2.length
            + (index.query_batch stable_partition sample_ingesting_index
              exprAandB).2.1.partitions.length)
          (index.query_batch stable_partition sample_ingesting_index exprAandB).2.2.length,
        .dispatch w exprAandB
          (index_state.launch_evaluators (index.query_batch stable_partition
            sample_ingesting_index exprAandB).2.2 exprAandB) 50] ∧
      (index_state.launch_evaluators (index.query_batch stable_partition
          sample_ingesting_index exprAandB).2.2 exprAandB).length
        = (index.query_batch stable_partition sample_ingesting_index exprAandB).2.2.length :=
  on_query_reports_batch_size stable_partition sample_ingesting_index _ exprAandB 50 99 _
    (by decide) (by decide) (by decide) rfl rfl

/-- C23: a coordinator in any state (with or without an active partition,
unpersisted and cached partitions) whose `taste_partitions` is between 1 and
2^32 - 1, the state holding the copy that `init` stored as `uint32_t`, that
dispatches a non-empty batch for a new query, with a freshly generated id
that is not nil: the id sent to the client is nil exactly when no candidate
remains after `build_query_map`; in that case `pending` is left as it was, and
otherwise `pending.emplace` is called with the id sent.  Hence the handler adds
no entry keyed by the nil id, and a non-nil id sent has an entry in `pending`. -/
theorem on_query_nil_id_iff_no_candidates {D : Type} (alg : partition_algorithm)
    (a a1 : index_actor D)
    (expr : expression D) (client : actor) (random_id : uuid) (outs : List (index_output D))
    (hlo : 1 ≤ a.taste_partitions) (hhi : a.taste_partitions < 2 ^ 32)
    (hinit : a.state.taste_partitions = a.taste_partitions % 2 ^ 32)
    (hfresh : random_id ≠ uuid.nil)
    (hbatch : (index.query_batch alg a expr).2.2.isEmpty = false)
    (h : index.on_query alg a expr (some client) random_id = some (a1, outs)) :
    ∃ query_id hits scheduled w qm,
      outs = [.respond client query_id hits scheduled, .dispatch w expr qm client] ∧
      (query_id = uuid.nil ↔ (index.query_batch alg a expr).2.1.partitions = []) ∧
      ((index.query_batch alg a expr).2.1.partitions = [] →
        a1.state.pending = a.state.pending) ∧
      ((index.query_batch alg a expr).2.1.partitions ≠ [] →
        query_id = random_id ∧
        a1.state.pending
          = pending_emplace a.state.pending query_id (index.query_batch alg a expr).2.1) ∧
      (query_id ≠ uuid.nil → pending_find a1.state.pending query_id ≠ Option.none) ∧
      ((∀ kv ∈ a.state.pending, kv.1 ≠ uuid.nil) →
        ∀ kv ∈ a1.state.pending, kv.1 ≠ uuid.nil) := by
  obtain ⟨s1, s2, s3⟩ := index.query_batch_sizes alg a expr hlo hhi hinit
  obtain ⟨w, st2, ho, hst, hw⟩ := index.on_query_dispatch alg a a1 expr client random_id outs
    (index.query_batch_candidates alg a expr hbatch) hbatch h
  have hp := index_state.next_worker_frame _ _ _ hw
  rw [← hst] at hp
  by_cases hr : (index.query_batch alg a expr).2.1.partitions = []
  · have hmin : min a.taste_partitions ((index.query_batch alg a expr).2.2.length
        + (index.query_batch alg a expr).2.1.partitions.length)
        = (index.query_batch alg a expr).2.2.length
          + (index.query_batch alg a expr).2.1.partitions.length := by
      rw [hr, List.length_nil, Nat.add_zero]
      exact Nat.min_eq_right s1
    rw [if_pos hmin] at ho
    rw [if_pos hr, s3] at hp
    refine ⟨_, _, _, _, _, ho, ⟨fun _ => hr, fun _ => rfl⟩, fun _ => hp,
      fun hne => absurd hr hne, fun hne => absurd rfl hne, ?_⟩
    intro hall kv hkv
    rw [hp] at hkv
    exact hall kv hkv
  · have hpos : 0 < (index.query_batch alg a expr).2.1.partitions.length :=
      List.length_pos.mpr hr
    have hmin : ¬ min a.taste_partitions ((index.query_batch alg a expr).2.2.length
        + (index.query_batch alg a expr).2.1.partitions.length)
        = (index.query_batch alg a expr).2.2.length
          + (index.query_batch alg a expr).2.1.partitions.length := by
      rw [s2 hr, Nat.min_eq_left (Nat.le_add_right _ _)]
      omega
    rw [if_neg hmin] at ho hp
    rw [if_neg hr] at hp
    have hp2 : a1.state.pending
        = pending_emplace a.state.pending random_id (index.query_batch alg a expr).2.1 := by
      rw [hp, ← s3]
    refine ⟨_, _, _, _, _, ho, ⟨fun e => absurd e hfresh, fun e => absurd e hr⟩,
      fun e => absurd e hr, fun _ => ⟨rfl, hp2⟩, ?_, ?_⟩
    · intro _
      rw [hp2]
      exact pending_find_emplace _ _ _
    · intro hall kv hkv
      rw [hp2] at hkv
      rcases pending_emplace_keys _ _ _ kv hkv with hm | hm
      · exact hall kv hm
      · rw [hm]; exact hfresh

/-- Instance of C23: an ingesting coordinator with `taste_partitions = 1` and
the candidates 1 to 4; three candidates remain, the fresh id 99 is sent and
stored in `pending`. -/
theorem on_query_nil_id_iff_no_candidates_witness :
    ∃ a1 : index_actor Nat, ∃ query_id hits scheduled w qm,
      [index_output.respond 50 99 4 1,
        index_output.dispatch 10 exprAandB [(3, [⟨exprAandB, sample_eval⟩])] 50]
        = [.respond 50 query_id hits scheduled, .dispatch w exprAandB qm 50] ∧
      (query_id = uuid.nil ↔ (index.query_batch stable_partition
        sample_ingesting_index exprAandB).2.1.partitions = []) ∧
      ((index.query_batch stable_partition
          sample_ingesting_index exprAandB).2.1.partitions = [] →
        a1.state.pending = sample_ingesting_index.state.pending) ∧
      ((index.query_batch stable_partition
          sample_ingesting_index exprAandB).2.1.partitions ≠ [] →
        query_id = 99 ∧
        a1.state.pending
          = pending_emplace sample_ingesting_index.state.pending query_id
            (index.query_batch stable_partition sample_ingesting_index exprAandB).2.1) ∧
      (query_id ≠ uuid.nil → pending_find a1.state.pending query_id ≠ Option.none) ∧
      ((∀ kv ∈ sample_ingesting_index.state.pending, kv.1 ≠ uuid.nil) →
        ∀ kv ∈ a1.state.pending, kv.1 ≠ uuid.nil) :=
  ⟨_, on_query_nil_id_iff_no_candidates stable_partition sample_ingesting_index _ exprAandB
    50 99 _ (by decide) (by decide) (by decide) (by decide) rfl rfl⟩

/-- C24: a coordinator started with `taste_partitions = 0` passes the start-up
assertions.  Its first query with the candidates 1 to 4 gets an empty map from
`build_query_map` while all four candidates remain in the lookup state, so the
assertion `lookup.partitions.empty()` that follows the call does not hold; with
assertions compiled out the client is told that there are no hits. -/
theorem on_query_empty_batch_keeps_candidates :
    0 < 100 ∧ 0 < 10 ∧
    (index.query_batch stable_partition
      (index.on_worker (index.spawn sample_disk sample_meta_idx 100 10 0) 10)
      exprAandB).2.2.isEmpty = true ∧
    (index.query_batch stable_partition
      (index.on_worker (index.spawn sample_disk sample_meta_idx 100 10 0) 10)
      exprAandB).2.1.partitions = [1, 2, 3, 4] ∧
    (index.run stable_partition (index.spawn sample_disk sample_meta_idx 100 10 0)
        [.worker 10, .query exprAandB (some 50) 99]).map (fun r => r.2)
      = some [.respond 50 uuid.nil 0 0, .done 50] :=
  ⟨by decide, by decide, rfl, rfl, rfl⟩

/-! ## Properties of the unpersisted list -/

theorem map_id_set {D : Type} (l : List (partition D × Nat)) (i : Nat)
    (kvp : partition D × Nat) (c : Nat) (h : l[i]? = some kvp) :
    (l.set i (kvp.1, c)).map (fun e => e.1.id) = l.map (fun e => e.1.id) := by
  induction l generalizing i with
  | nil => rfl
  | cons x xs ih =>
    cases i with
    | zero =>
      have : x = kvp := by simpa using h
      rw [this]; rfl
    | succ j =>
      have h2 : xs[j]? = some kvp := by simpa using h
      show x.1.id :: (xs.set j (kvp.1, c)).map (fun e => e.1.id) = _
      rw [ih j h2]; rfl

/-- The invariant of the unpersisted list: positive counters, distinct ids,
none of them the id of the active partition. -/
theorem index_state.rotation_invariant {D : Type} (st0 st : index_state D)
    (h0 : st0.unpersisted = []) (h : index_state.rotation_reachable st0 st) :
    (∀ kvp ∈ st.unpersisted, 1 ≤ kvp.2) ∧
    (st.unpersisted.map (fun kvp => kvp.1.id)).Nodup ∧
    (∀ act, st.active = some act → ∀ kvp ∈ st.unpersisted, kvp.1.id ≠ act.id) := by
  induction h with
  | start =>
    rw [h0]
    exact ⟨fun _ hk => (by cases hk), List.nodup_nil, fun _ _ _ hk => (by cases hk)⟩
  | reset st new_id _ hact hunp ih =>
    obtain ⟨i1, i2, i3⟩ := ih
    have key : (∀ kvp ∈ (st.reset_active_partition new_id).unpersisted, 1 ≤ kvp.2) ∧
        ((st.reset_active_partition new_id).unpersisted.map (fun kvp => kvp.1.id)).Nodup ∧
        (∀ kvp ∈ (st.reset_active_partition new_id).unpersisted, kvp.1.id ≠ new_id) := by
      unfold index_state.reset_active_partition
      cases ha : st.active with
      | none => exact ⟨i1, i2, hunp⟩
      | some act =>
        by_cases hpos : st.active_partition_indexers > 0
        · simp only [if_pos hpos]
          refine ⟨?_, ?_, ?_⟩
          · intro kvp hk
            rcases List.mem_append.mp hk with hk | hk
            · exact i1 kvp hk
            · have : kvp = (act, st.active_partition_indexers) := by simpa using hk
              rw [this]; exact hpos
          · rw [List.map_append]
            refine List.Nodup.append i2 (List.nodup_singleton _) ?_
            intro x hx hy
            have hxa : x = act.id := by simpa using hy
            obtain ⟨kvp, hk, e⟩ := List.mem_map.mp hx
            exact i3 act ha kvp hk (e.trans hxa)
          · intro kvp hk
            rcases List.mem_append.mp hk with hk | hk
            · exact hunp kvp hk
            · have : kvp = (act, st.active_partition_indexers) := by simpa using hk
              rw [this]; exact hact act ha
        · simp only [if_neg hpos]
          exact ⟨i1, i2, hunp⟩
    refine ⟨key.1, key.2.1, ?_⟩
    intro act hact2 kvp hk
    have : act = index_state.make_partition new_id := by
      have e : (st.reset_active_partition new_id).active
          = some (index_state.make_partition new_id) := rfl
      rw [e] at hact2
      exact (Option.some.inj hact2).symm
    rw [this]
    exact key.2.2 kvp hk
  | decrement st st1 id _ hd ih =>
    obtain ⟨i1, i2, i3⟩ := ih
    unfold index_state.decrement_indexer_count at hd
    split at hd
    · cases hd
    · rename_i act ha
      split at hd
      · cases hd
        exact ⟨i1, i2, fun a2 h2 => i3 a2 (by rw [← h2])⟩
      · split at hd
        · cases hd
        · rename_i i hi
          split at hd
          · cases hd
          · rename_i kvp hk
            split at hd
            · cases hd
              have hsub := List.eraseIdx_sublist st.unpersisted i
              refine ⟨fun e he => i1 e (hsub.subset he),
                List.Nodup.sublist (hsub.map _) i2, ?_⟩
              intro a2 h2 e he
              exact i3 a2 (by rw [← h2]) e (hsub.subset he)
            · rename_i hne
              cases hd
              refine ⟨?_, ?_, ?_⟩
              · intro e he
                rcases List.mem_or_eq_of_mem_set he with he | he
                · exact i1 e he
                · rw [he]
                  exact Nat.pos_of_ne_zero hne
              · show ((st.unpersisted.set i (kvp.1, size_t_decrement kvp.2)).map
                  (fun e => e.1.id)).Nodup
                rw [map_id_set st.unpersisted i kvp _ hk]
                exact i2
              · intro a2 h2 e he
                rcases List.mem_or_eq_of_mem_set he with he | he
                · exact i3 a2 (by rw [← h2]) e he
                · rw [he]
                  exact i3 a2 (by rw [← h2]) kvp (List.getElem?_mem hk)
  | spawn_indexers st n _ ih => exact ih

/-- C25: in every state reached from a state without unpersisted partitions by
`reset_active_partition` (with fresh ids) and by `decrement_indexer_count` on
ids of the active or an unpersisted partition, every entry of the unpersisted
list has a counter of at least 1 and no partition id occurs twice. -/
theorem unpersisted_counters_positive_ids_distinct {D : Type} (st0 st : index_state D)
    (h0 : st0.unpersisted = []) (h : index_state.rotation_reachable st0 st) :
    (∀ kvp ∈ st.unpersisted, 1 ≤ kvp.2) ∧
    (st.unpersisted.map (fun kvp => kvp.1.id)).Nodup :=
  ⟨(index_state.rotation_invariant st0 st h0 h).1,
    (index_state.rotation_invariant st0 st h0 h).2.1⟩

/-- Instance of C25: partition 7 is rotated out with two INDEXERs running, and
the list holds the one entry (7, 2). -/
theorem unpersisted_counters_positive_ids_distinct_witness :
    (∀ kvp ∈ (({ (sample_index.state.reset_active_partition 7) with active_partition_indexers := 2 } : index_state Nat).reset_active_partition 8).unpersisted, 1 ≤ kvp.2) ∧
    ((({ (sample_index.state.reset_active_partition 7) with active_partition_indexers := 2 } : index_state Nat).reset_active_partition 8).unpersisted.map
      (fun kvp => kvp.1.id)).Nodup :=
  unpersisted_counters_positive_ids_distinct sample_index.state _ rfl
    (index_state.rotation_reachable.reset _ 8
      (index_state.rotation_reachable.spawn_indexers _ 2
        (index_state.rotation_reachable.reset _ 7 index_state.rotation_reachable.start
          (fun act h => by cases h) (fun kvp h => by cases h)))
      (fun act h => by cases h; decide) (fun kvp h => by cases h))

/-- For an id that names neither the active nor an unpersisted partition
`decrement_indexer_count` has no result: it dereferences the null pointer
`active`, or the iterator `unpersisted.end()`. -/
theorem index_state.decrement_indexer_count_unknown {D : Type} (st : index_state D)
    (id : uuid) (hact : ∀ act, st.active = some act → act.id ≠ id)
    (hunp : ∀ kvp ∈ st.unpersisted, kvp.1.id ≠ id) :
    st.decrement_indexer_count id = Option.none := by
  unfold index_state.decrement_indexer_count
  cases ha : st.active with
  | none => rfl
  | some act =>
    have hne : ¬ id = act.id := fun e => hact act ha e.symm
    simp only [if_neg hne]
    have hf : st.unpersisted.findIdx? (fun kvp => decide (kvp.1.id = id)) = Option.none := by
      rw [List.findIdx?_eq_none_iff]
      intro kvp hk
      simpa using hunp kvp hk
    rw [hf]

/-- C26: with the active partition 7 and the unpersisted partitions 5 and 6,
the id 9 names none of them; `decrement_indexer_count` reports the unknown
INDEXER and then decrements through `unpersisted.end()`.  Without an active
partition the call dereferences the null pointer `active`.  Neither call
completes with a state. -/
theorem decrement_indexer_count_unknown_id_has_no_result :
    (∀ act, sample_rotation_state2.active = some act → act.id ≠ 9) ∧
    (∀ kvp ∈ sample_rotation_state2.unpersisted, kvp.1.id ≠ 9) ∧
    sample_rotation_state2.decrement_indexer_count 9 = Option.none ∧
    sample_index.state.active = Option.none ∧
    sample_index.state.unpersisted = [] ∧
    sample_index.state.decrement_indexer_count 9 = Option.none :=
  ⟨fun act h => (by cases h; decide), fun kvp h => (by
      have : kvp.1.id = 5 ∨ kvp.1.id = 6 := by
        rcases List.mem_cons.mp h with h | h
        · left; rw [h]; rfl
        · right
          have : kvp = (index_state.make_partition 6, 3) := by simpa using h
          rw [this]; rfl
      rcases this with e | e <;> rw [e] <;> decide), rfl, rfl, rfl, rfl⟩

/-! ## Properties of printing -/

theorem detail.byte_to_char_digit (d : Nat) (h : d < 10) :
    detail.byte_to_char d = Char.ofNat (48 + d) := by
  unfold detail.byte_to_char
  rw [if_pos h]

theorem print_number.positive_loop_spec (room : Nat) :
    ∀ (n : Nat) (tmp : List Char), n < 10 ^ room →
      print_number.positive_loop room (n : Int) tmp
        = some (tmp ++ (Nat.digits 10 n).map (fun d => Char.ofNat (48 + d))) := by
  induction room with
  | zero =>
    intro n tmp hn
    have h0 : n = 0 := by simpa using hn
    subst h0
    simp [print_number.positive_loop]
  | succ room ih =>
    intro n tmp hn
    by_cases h0 : n = 0
    · subst h0
      simp [print_number.positive_loop]
    · have hpos : 0 < n := Nat.pos_of_ne_zero h0
      have hx : (n : Int) > 0 := by exact_mod_cast hpos
      have hd : (n : Int).tdiv 10 = ((n / 10 : Nat) : Int) := (Int.ofNat_tdiv n 10).symm
      have hm : (n : Int).tmod 10 = ((n % 10 : Nat) : Int) := (Int.ofNat_tmod n 10).symm
      unfold print_number.positive_loop
      rw [if_pos hx, hd, hm, Int.toNat_ofNat,
        detail.byte_to_char_digit _ (Nat.mod_lt n (by decide)),
        ih (n / 10) _ (by rw [pow_succ] at hn; exact Nat.div_lt_of_lt_mul (by omega)),
        Nat.digits_def' (by decide) hpos]
      simp

theorem print_number.negative_loop_spec (room : Nat) :
    ∀ (n : Nat) (tmp : List Char), n < 10 ^ room →
      print_number.negative_loop room (-(n : Int)) tmp
        = some (tmp ++ (Nat.digits 10 n).map (fun d => Char.ofNat (48 + d))) := by
  induction room with
  | zero =>
    intro n tmp hn
    have h0 : n = 0 := by simpa using hn
    subst h0
    simp [print_number.negative_loop]
  | succ room ih =>
    intro n tmp hn
    by_cases h0 : n = 0
    · subst h0
      simp [print_number.negative_loop]
    · have hpos : 0 < n := Nat.pos_of_ne_zero h0
      have hx : -(n : Int) < 0 := by omega
      have hmod : -((-(n : Int)).tmod 10) = ((n % 10 : Nat) : Int) := by
        rw [Int.tmod_def, Int.neg_tdiv, Int.ofNat_tmod, Int.tmod_def]
        ring_nf
      have hd : (n : Int).tdiv 10 = ((n / 10 : Nat) : Int) := (Int.ofNat_tdiv n 10).symm
      unfold print_number.negative_loop
      rw [if_pos hx, hmod, Int.neg_tdiv, hd, Int.toNat_ofNat,
        detail.byte_to_char_digit _ (Nat.mod_lt n (by decide)),
        ih (n / 10) _ (by rw [pow_succ] at hn; exact Nat.div_lt_of_lt_mul (by omega)),
        Nat.digits_def' (by decide) hpos]
      simp

theorem print_number.scope_guard_one (buf tmp : List Char) (h : tmp ≠ []) :
    print_number.scope_guard buf tmp 1 = buf ++ tmp.reverse := by
  unfold print_number.scope_guard
  have : ¬ tmp.length < 1 := by
    have := List.length_pos.mpr h
    omega
  simp only [if_neg this]

theorem digits_map_ne_nil (n : Nat) (h : n ≠ 0) :
    (Nat.digits 10 n).map (fun d => Char.ofNat (48 + d)) ≠ [] := by
  intro e
  have := List.map_eq_nil_iff.mp e
  exact h (Nat.digits_eq_nil_iff_eq_zero.mp this)

theorem print_count_spec (buf : List Char) (x : Nat) (h : x < 2 ^ 64) :
    print_count buf x = some (buf ++ canonical_decimal x) := by
  unfold print_count print_number canonical_decimal
  by_cases h0 : x = 0
  · subst h0
    simp
  · have hx : ¬ (x : Int) = 0 := by exact_mod_cast h0
    rw [if_neg hx, if_neg h0]
    simp only [Bool.false_and, Bool.false_eq_true, if_false]
    rw [print_number.positive_loop_spec 20 x [] (by omega)]
    simp only [List.nil_append]
    rw [print_number.scope_guard_one _ _ (digits_map_ne_nil x h0), List.map_reverse]

theorem print_integer_spec (buf : List Char) (x : Int) (hlo : -2 ^ 63 ≤ x) (hhi : x < 2 ^ 63) :
    print_integer buf x = some (buf ++ canonical_decimal_int x) := by
  unfold print_integer print_number canonical_decimal_int canonical_decimal
  by_cases h0 : x = 0
  · subst h0
    simp
  · rw [if_neg h0]
    by_cases hneg : x < 0
    · have hn : x = -((x.natAbs : Nat) : Int) := by omega
      have hne : x.natAbs ≠ 0 := by omega
      rw [if_pos hneg, if_neg hne]
      simp only [Bool.true_and, decide_eq_true_eq, if_pos hneg]
      have hl := print_number.negative_loop_spec 19 x.natAbs [] (by omega)
      rw [← hn] at hl
      rw [hl]
      simp only [List.nil_append]
      rw [print_number.scope_guard_one _ _ (digits_map_ne_nil _ hne), List.map_reverse]
      simp
    · have hn : x = ((x.toNat : Nat) : Int) := by omega
      have hne : x.toNat ≠ 0 := by omega
      rw [if_neg hneg, if_neg hne]
      simp only [Bool.true_and, decide_eq_true_eq, if_neg hneg]
      have hl := print_number.positive_loop_spec 19 x.toNat [] (by omega)
      rw [← hn] at hl
      rw [hl]
      simp only [List.nil_append]
      rw [print_number.scope_guard_one _ _ (digits_map_ne_nil _ hne), List.map_reverse]

theorem digit_char_toNat : ∀ d, d < 10 → (Char.ofNat (48 + d)).toNat = 48 + d := by
  decide

theorem digit_char_isDigit : ∀ d, d < 10 → (Char.ofNat (48 + d)).isDigit = true := by
  decide

theorem decimal_value_digits (l : List Nat) (h : ∀ d ∈ l, d < 10) :
    decimal_value (l.reverse.map (fun d => Char.ofNat (48 + d))) = Nat.ofDigits 10 l := by
  unfold decimal_value
  rw [List.foldl_map, List.foldl_reverse]
  induction l with
  | nil => rfl
  | cons d ds ih =>
    rw [List.foldr_cons, ih (fun e he => h e (List.mem_cons_of_mem _ he)), Nat.ofDigits_cons,
      digit_char_toNat d (h d (List.mem_cons_self _ _))]
    omega

/-- The canonical decimal representation denotes the number, consists of
digits, is the digit 0 for zero and does not start with 0 otherwise. -/
theorem canonical_decimal_spec (n : Nat) :
    decimal_value (canonical_decimal n) = n ∧
    (∀ c ∈ canonical_decimal n, c.isDigit = true) ∧
    (n = 0 → canonical_decimal n = ['0']) ∧
    (n ≠ 0 → (canonical_decimal n).head? ≠ some '0') := by
  unfold canonical_decimal
  by_cases h0 : n = 0
  · rw [if_pos h0]
    refine ⟨by rw [h0]; rfl, ?_, fun _ => rfl, fun h => absurd h0 h⟩
    intro c hc
    have : c = '0' := by simpa using hc
    rw [this]; rfl
  · rw [if_neg h0]
    have hlt : ∀ d ∈ Nat.digits 10 n, d < 10 := fun d hd => Nat.digits_lt_base (by decide) hd
    refine ⟨?_, ?_, fun h => absurd h h0, fun _ => ?_⟩
    · rw [decimal_value_digits _ hlt, Nat.ofDigits_digits]
    · intro c hc
      obtain ⟨d, hd, e⟩ := List.mem_map.mp hc
      rw [← e]
      exact digit_char_isDigit d (hlt d (List.mem_reverse.mp hd))
    · have hne : Nat.digits 10 n ≠ [] := fun e => h0 (Nat.digits_eq_nil_iff_eq_zero.mp e)
      rw [List.head?_map, List.head?_reverse, List.getLast?_eq_getLast _ hne]
      intro e
      have e2 : Char.ofNat (48 + (Nat.digits 10 n).getLast hne) = '0' := by simpa using e
      have e3 := congrArg Char.toNat e2
      rw [digit_char_toNat _ (hlt _ (List.getLast_mem hne))] at e3
      have e4 : ('0' : Char).toNat = 48 := rfl
      rw [e4] at e3
      exact Nat.getLast_digit_ne_zero 10 h0 (by omega)

/-- C21: for every 64-bit count and every 64-bit signed integer `print`
completes without writing past the scratch array and appends the canonical
decimal representation: the digits that denote the number, `0` for zero, no
leading zero otherwise, and one minus sign in front for a negative integer. -/
theorem print_number_appends_canonical_decimal (buf : List Char) :
    (∀ x : Nat, x < 2 ^ 64 → print_count buf x = some (buf ++ canonical_decimal x)) ∧
    (∀ x : Int, -2 ^ 63 ≤ x → x < 2 ^ 63 →
      print_integer buf x = some (buf ++ canonical_decimal_int x)) ∧
    (∀ n : Nat, decimal_value (canonical_decimal n) = n ∧
      (∀ c ∈ canonical_decimal n, c.isDigit = true) ∧
      (n = 0 → canonical_decimal n = ['0']) ∧
      (n ≠ 0 → (canonical_decimal n).head? ≠ some '0')) :=
  ⟨fun x h => print_count_spec buf x h, fun x hlo hhi => print_integer_spec buf x hlo hhi,
    canonical_decimal_spec⟩

/-- Instance of C21: the largest count and the smallest integer. -/
theorem print_number_appends_canonical_decimal_witness :
    ((2 ^ 64 - 1 < 2 ^ 64) ∧
      print_count [] (2 ^ 64 - 1) = some ([] ++ canonical_decimal (2 ^ 64 - 1))) ∧
    ((-2 ^ 63 ≤ (-2 ^ 63 : Int)) ∧ ((-2 ^ 63 : Int) < 2 ^ 63) ∧
      print_integer [] (-2 ^ 63) = some ([] ++ canonical_decimal_int (-2 ^ 63))) :=
  ⟨⟨by decide, (print_number_appends_canonical_decimal []).1 (2 ^ 64 - 1) (by decide)⟩,
    ⟨by decide, by decide,
      (print_number_appends_canonical_decimal []).2.1 (-2 ^ 63) (by decide) (by decide)⟩⟩

/-- The extreme values of the unit tests of `print`. -/
theorem print_number_examples :
    print_count [] 0 = some "0".toList ∧
    print_count [] 123 = some "123".toList ∧
    print_count [] 18446744073709551615 = some "18446744073709551615".toList ∧
    print_integer [] (-123) = some "-123".toList ∧
    print_integer [] (-9223372036854775808) = some "-9223372036854775808".toList ∧
    print_integer [] 9223372036854775807 = some "9223372036854775807".toList := by
  decide

/-- For a non-empty container `print_range` prints the first element, then a
separator and an element for every element, the first one included. -/
theorem print_range_cons {α : Type} (Open Close Fill : Char)
    (print : List Char → α → List Char) (buf : List Char) (x : α) (rest : List α) :
    print_range Open Close Fill print buf (x :: rest)
      = rest.foldl (fun b y => print (b ++ [',', ' ']) y)
          (print (print (buf ++ [Open]) x ++ [',', ' ']) x) ++ [Close] :=
  rfl

/-- C29: the vector of the booleans T and F is printed as `[T, T, F]`, with
the first element twice, three renderings and two separators, where each
element once gives `[T, F]`; a vector of one element is printed as `[T, T]`.
Empty containers are printed as `[]`, as an empty pair of braces, and as a
pair of braces around `-`. -/
theorem print_range_prints_first_element_twice :
    print_vector print_boolean [] [true, false] = "[T, T, F]".toList ∧
    '[' :: print_separated print_boolean [] [true, false] ++ [']'] = "[T, F]".toList ∧
    print_vector print_boolean [] [true] = "[T, T]".toList ∧
    print_vector print_boolean [] ([] : List Bool) = "[]".toList ∧
    print_set print_boolean [] ([] : List Bool) = "\x7b\x7d".toList ∧
    print_map print_boolean [] ([] : List Bool) = "\x7b-\x7d".toList := by
  decide

/-- C30: the string that consists of a tab and the string that consists of a
backslash and the letter t are different and are printed as the same text, a
backslash and the letter t between quotes. -/
theorem print_string_not_injective :
    [char_tab] ≠ [char_backslash, 't'] ∧
    print_string [] [char_tab] = print_string [] [char_backslash, 't'] ∧
    print_string [] [char_tab] = [char_quote, char_backslash, 't', char_quote] := by
  decide

/-- The string of the unit test of `print`. -/
theorem print_string_example :
    print_string [] "foobar".toList = [char_quote] ++ "foobar".toList ++ [char_quote] := by
  decide

/-! ## Properties of select, truncate and split -/

theorem maximal_runs_cons (id : Nat) (rest : List Nat) :
    ∃ run runs, maximal_runs (id :: rest) = (id :: run) :: runs := by
  unfold maximal_runs
  cases maximal_runs rest with
  | nil => exact ⟨[], [], rfl⟩
  | cons run runs =>
    by_cases h : run.head? = some (id + 1)
    · exact ⟨run, runs, by simp only [if_pos h]⟩
    · exact ⟨[], run :: runs, by simp only [if_neg h]⟩

theorem maximal_runs_step (id : Nat) (rest run : List Nat) (runs : List (List Nat))
    (h : maximal_runs rest = run :: runs) :
    maximal_runs (id :: rest)
      = if run.head? = some (id + 1) then (id :: run) :: runs else [id] :: run :: runs := by
  simp only [maximal_runs, h]

theorem maximal_runs_range_append (n : Nat) :
    ∀ (a : Nat) (tail : List Nat), tail.head? ≠ some (a + n + 1) →
      maximal_runs (List.range' a (n + 1) ++ tail)
        = List.range' a (n + 1) :: maximal_runs tail := by
  induction n with
  | zero =>
    intro a tail h
    show maximal_runs (a :: tail) = [a] :: maximal_runs tail
    cases tail with
    | nil => rfl
    | cons id rest =>
      obtain ⟨run, runs, e⟩ := maximal_runs_cons id rest
      have hne : ¬ (id :: run).head? = some (a + 1) := by
        intro e2
        apply h
        simpa using e2
      rw [maximal_runs_step a (id :: rest) (id :: run) runs e, if_neg hne, e]
  | succ n ih =>
    intro a tail h
    have e : List.range' a (n + 1 + 1) ++ tail
        = a :: (List.range' (a + 1) (n + 1) ++ tail) := rfl
    have hh : (List.range' (a + 1) (n + 1)).head? = some (a + 1) := rfl
    rw [e, maximal_runs_step a _ _ _
      (ih (a + 1) tail (by rw [show a + 1 + n + 1 = a + (n + 1) + 1 by omega]; exact h)),
      if_pos hh]
    rfl

theorem make_ids_test (a b i : Nat) :
    (make_ids a b).test i = decide (a ≤ i ∧ i < b) := by
  unfold make_ids bitmap.test
  rw [List.getD_eq_getElem?_getD]
  by_cases h1 : i < a
  · rw [List.getElem?_append_left (by simpa using h1)]
    simp [h1]
  · rw [List.getElem?_append_right (by simpa using h1)]
    simp only [List.length_replicate]
    by_cases h2 : i < b
    · rw [List.getElem?_replicate]
      have : i - a < b - a := by omega
      simp [this, h2]
      omega
    · rw [List.getElem?_replicate]
      have : ¬ i - a < b - a := by omega
      simp [this, h2]

theorem filter_range_extend (f : Nat → Bool) (n k : Nat) (h : ∀ i, n ≤ i → f i = false) :
    (List.range (n + k)).filter f = (List.range n).filter f := by
  induction k with
  | zero => rfl
  | succ k ih =>
    rw [← Nat.add_assoc, List.range_succ, List.filter_append, ih]
    simp [h (n + k) (by omega)]

theorem bitmap.select_eq (m : bitmap) (N : Nat) (h : ∀ i, N ≤ i → m.test i = false) :
    m.select = (List.range N).filter m.test := by
  unfold bitmap.select
  by_cases hle : m.length ≤ N
  · have e : N = m.length + (N - m.length) := by omega
    rw [e, filter_range_extend m.test m.length _ (fun i hi => bitmap.test_of_length_le m i hi)]
  · have e : m.length = N + (m.length - N) := by omega
    rw [e, filter_range_extend m.test N _ h]

theorem bitmap.rank_eq_length_select (m : bitmap) : m.rank = m.select.length := by
  unfold bitmap.rank bitmap.select
  induction m using List.reverseRecOn with
  | nil => rfl
  | append_singleton l x ih =>
    rw [List.count_append, List.length_append, List.length_singleton, List.range_succ,
      List.filter_append, List.length_append, ih]
    have e1 : (List.range l.length).filter (fun i => bitmap.test (l ++ [x]) i)
        = (List.range l.length).filter (fun i => bitmap.test l i) := by
      apply List.filter_congr
      intro i hi
      exact bitmap.test_append_left l [x] i (List.mem_range.mp hi)
    have e2 : bitmap.test (l ++ [x]) l.length = x := by
      unfold bitmap.test
      simp
    rw [e1]
    congr 1
    cases x <;> simp [e2]

theorem bitmap.select_and_make_ids (sel : ids) (a n : Nat) :
    (sel.and (make_ids a (a + n))).select = (List.range' a n).filter sel.test := by
  have hhi : ∀ i, a + n ≤ i → (sel.and (make_ids a (a + n))).test i = false := by
    intro i hi
    rw [bitmap.test_and, make_ids_test]
    have : ¬ (a ≤ i ∧ i < a + n) := by omega
    simp [this]
  have hsplit : List.range' 0 (a + n) = List.range' 0 a ++ List.range' a n := by
    rw [Nat.add_comm a n, ← List.range'_append_1 0 a n, Nat.zero_add]
  rw [bitmap.select_eq _ (a + n) hhi, List.range_eq_range', hsplit, List.filter_append]
  have e1 : (List.range' 0 a).filter (sel.and (make_ids a (a + n))).test = [] := by
    rw [List.filter_eq_nil_iff]
    intro i hi
    have hi2 := List.mem_range'_1.mp hi
    rw [bitmap.test_and, make_ids_test]
    have : ¬ (a ≤ i ∧ i < a + n) := by omega
    simp [this]
  rw [e1, List.nil_append]
  apply List.filter_congr
  intro i hi
  have hi2 := List.mem_range'_1.mp hi
  rw [bitmap.test_and, make_ids_test]
  have : a ≤ i ∧ i < a + n := by omega
  simp [this]

theorem rows_at_cons {D : Type} (xs : table_slice D) (id : Nat) (rest : List Nat)
    (r : List D) (h : xs.xs[id - xs.offset]? = some r) :
    rows_at xs (id :: rest) = r :: rows_at xs rest := by
  unfold rows_at
  rw [List.filterMap_cons, h]

theorem take_concat_getElem {α : Type} (r : List α) (k : Nat) (h : k < r.length) :
    r.take k ++ [r[k]] = r.take (k + 1) := by
  rw [List.take_succ, List.getElem?_eq_getElem h]
  rfl

theorem rows_at_range {D : Type} (xs : table_slice D) (m : Nat) :
    ∀ k, k + m ≤ xs.rows →
      rows_at xs (List.range' (xs.offset + k) m) = (xs.xs.drop k).take m := by
  induction m with
  | zero => intro k _; rfl
  | succ m ih =>
    intro k hk
    have hlt : k < xs.xs.length := by unfold table_slice.rows at hk; omega
    have e : xs.xs[xs.offset + k - xs.offset]? = some (xs.xs[k]) := by
      rw [Nat.add_sub_cancel_left]
      exact List.getElem?_eq_getElem hlt
    rw [List.range'_succ, rows_at_cons xs _ _ _ e, List.drop_eq_getElem_cons hlt,
      List.take_succ_cons]
    congr 1
    exact ih (k + 1) (by omega)

theorem rows_at_length {D : Type} (xs : table_slice D) (run : List Nat)
    (h : ∀ id ∈ run, xs.offset ≤ id ∧ id < xs.offset + xs.rows) :
    (rows_at xs run).length = run.length := by
  induction run with
  | nil => rfl
  | cons id rest ih =>
    have hid := h id (List.mem_cons_self _ _)
    have hlt : id - xs.offset < xs.xs.length := by unfold table_slice.rows at hid; omega
    rw [rows_at_cons xs _ _ _ (List.getElem?_eq_getElem hlt), List.length_cons,
      List.length_cons]
    congr 1
    exact ih (fun e he => h e (List.mem_cons_of_mem _ he))

theorem rows_at_concat {D : Type} (xs : table_slice D) (run : List Nat) (id : Nat)
    (r : List D) (h : xs.xs[id - xs.offset]? = some r) :
    rows_at xs (run ++ [id]) = rows_at xs run ++ [r] := by
  have e : rows_at xs [id] = [r] := rows_at_cons xs id [] r h
  unfold rows_at at e ⊢
  rw [List.filterMap_append, e]

theorem select.add_cells_row {D : Type} (xs : table_slice D) (i : Nat) (r : List D)
    (layout_name : String) (acc : D → Bool) (hr : xs.xs[i]? = some r)
    (hacc : ∀ c ∈ r, acc c = true) (n : Nat) :
    ∀ (k : Nat) (done : List (List D)), k + (n + 1) = r.length →
      select.add_cells xs i (List.range' k (n + 1)) ⟨layout_name, r.length, acc, r.take k, done⟩
        = some (true, ⟨layout_name, r.length, acc, [], done ++ [r]⟩) := by
  induction n with
  | zero =>
    intro k done hk
    have hlt : k < r.length := by omega
    have hat : xs.at_ i k = some (r[k]) := by
      unfold table_slice.at_
      rw [hr]
      exact List.getElem?_eq_getElem hlt
    have htake : r.take k ++ [r[k]] = r := by
      rw [take_concat_getElem r k hlt, show k + 1 = r.length by omega, List.take_length]
    show select.add_cells xs i [k] _ = _
    unfold select.add_cells
    rw [hat]
    simp only
    unfold table_slice_builder.add
    simp only [hacc _ (List.getElem_mem hlt), if_true, htake]
    rfl
  | succ n ih =>
    intro k done hk
    have hlt : k < r.length := by omega
    have hat : xs.at_ i k = some (r[k]) := by
      unfold table_slice.at_
      rw [hr]
      exact List.getElem?_eq_getElem hlt
    have htake : r.take k ++ [r[k]] = r.take (k + 1) := take_concat_getElem r k hlt
    have hlen : ¬ (r.take (k + 1)).length = r.length := by
      rw [List.length_take]
      omega
    rw [List.range'_succ]
    unfold select.add_cells
    rw [hat]
    simp only
    unfold table_slice_builder.add
    simp only [hacc _ (List.getElem_mem hlt), if_true, htake, if_neg hlen]
    exact ih (k + 1) done (by omega)

theorem select.add_cells_full {D : Type} (xs : table_slice D) (acc : D → Bool)
    (hcols : 0 < xs.columns) (hwf : ∀ row ∈ xs.xs, row.length = xs.columns)
    (hacc : ∀ row ∈ xs.xs, ∀ c ∈ row, acc c = true)
    (id : Nat) (r : List D) (done : List (List D))
    (hr : xs.xs[id - xs.offset]? = some r) :
    select.add_cells xs (id - xs.offset) (List.range xs.columns)
        ⟨xs.layout_name, xs.columns, acc, [], done⟩
      = some (true, ⟨xs.layout_name, xs.columns, acc, [], done ++ [r]⟩) := by
  have hmem : r ∈ xs.xs := List.getElem?_mem hr
  have hlen : r.length = xs.columns := hwf r hmem
  obtain ⟨n, hn⟩ : ∃ n, xs.columns = n + 1 := ⟨xs.columns - 1, by omega⟩
  have h := select.add_cells_row xs (id - xs.offset) r xs.layout_name acc hr (hacc r hmem) n 0
    done (by omega)
  rw [hlen] at h
  rw [List.range_eq_range', hn]
  rw [hn] at h
  exact h

theorem select.push_slice_spec {D : Type} (res : List (table_slice D)) (layout_name : String)
    (columns : Nat) (acc : D → Bool) (done : List (List D)) (lo li : Nat) :
    select.push_slice ⟨res, ⟨layout_name, columns, acc, [], done⟩, lo, li⟩
      = ⟨if done.isEmpty then res else res ++ [⟨layout_name, lo, columns, done⟩],
          ⟨layout_name, columns, acc, [], []⟩, lo, li⟩ := by
  cases done with
  | nil => rfl
  | cons d ds => rfl

theorem select.loop_step {D : Type} (xs : table_slice D) (acc : D → Bool)
    (hcols : 0 < xs.columns) (hwf : ∀ row ∈ xs.xs, row.length = xs.columns)
    (hacc : ∀ row ∈ xs.xs, ∀ c ∈ row, acc c = true)
    (id : Nat) (rest : List Nat) (r : List D) (res : List (table_slice D))
    (done : List (List D)) (lo li : Nat)
    (hlo : xs.offset ≤ id) (hhi : id < xs.offset + xs.rows)
    (hr : xs.xs[id - xs.offset]? = some r) :
    select.loop xs (id :: rest) ⟨res, ⟨xs.layout_name, xs.columns, acc, [], done⟩, lo, li⟩
      = select.loop xs rest
          (if (li + 1) % 2 ^ 64 ≠ id then
            ⟨if done.isEmpty then res else res ++ [⟨xs.layout_name, lo, xs.columns, done⟩],
              ⟨xs.layout_name, xs.columns, acc, [], [r]⟩, id, id⟩
          else ⟨res, ⟨xs.layout_name, xs.columns, acc, [], done ++ [r]⟩, lo,
              (li + 1) % 2 ^ 64⟩) := by
  have h1 : ¬ id < xs.offset := by omega
  have h2 : ¬ ¬ (id - xs.offset < xs.rows) := by omega
  rw [select.loop]
  simp only [if_neg h1, if_neg h2]
  by_cases hc : (li + 1) % 2 ^ 64 ≠ id
  · simp only [if_pos hc, select.push_slice_spec]
    rw [select.add_cells_full xs acc hcols hwf hacc id r [] hr]
    rfl
  · simp only [if_neg hc]
    rw [select.add_cells_full xs acc hcols hwf hacc id r done hr]

theorem rows_at_ne_nil {D : Type} (xs : table_slice D) (lo n : Nat)
    (hlo : xs.offset ≤ lo) (hhi : lo + n < xs.offset + xs.rows) :
    (rows_at xs (List.range' lo (n + 1))).isEmpty = false := by
  have hl := rows_at_length xs (List.range' lo (n + 1)) (fun id hid => by
    have := List.mem_range'_1.mp hid
    omega)
  rw [List.length_range'] at hl
  cases h : rows_at xs (List.range' lo (n + 1)) with
  | nil => rw [h] at hl; cases hl
  | cons d ds => rfl

theorem slice_of_run_range {D : Type} (xs : table_slice D) (lo n : Nat) :
    slice_of_run xs (List.range' lo (n + 1))
      = ⟨xs.layout_name, lo, xs.columns, rows_at xs (List.range' lo (n + 1))⟩ :=
  rfl

theorem select.loop_run {D : Type} (xs : table_slice D) (acc : D → Bool)
    (hcols : 0 < xs.columns) (hwf : ∀ row ∈ xs.xs, row.length = xs.columns)
    (hacc : ∀ row ∈ xs.xs, ∀ c ∈ row, acc c = true)
    (hbound : xs.offset + xs.rows < 2 ^ 64) (ids : List Nat) :
    ∀ (n lo : Nat) (res : List (table_slice D)), xs.offset ≤ lo →
      lo + n < xs.offset + xs.rows →
      (∀ id ∈ ids, xs.offset ≤ id ∧ id < xs.offset + xs.rows) →
      select.loop xs ids
          ⟨res, ⟨xs.layout_name, xs.columns, acc, [], rows_at xs (List.range' lo (n + 1))⟩,
            lo, lo + n⟩
        = some (res ++ (maximal_runs (List.range' lo (n + 1) ++ ids)).map (slice_of_run xs)) := by
  induction ids with
  | nil =>
    intro n lo res hlo hhi _
    rw [select.loop, select.push_slice_spec, rows_at_ne_nil xs lo n hlo hhi,
      maximal_runs_range_append n lo [] (by simp)]
    rfl
  | cons id rest ih =>
    intro n lo res hlo hhi hids
    have hid := hids id (List.mem_cons_self _ _)
    have hrest : ∀ e ∈ rest, xs.offset ≤ e ∧ e < xs.offset + xs.rows :=
      fun e he => hids e (List.mem_cons_of_mem _ he)
    have hlt : id - xs.offset < xs.xs.length := by
      have := hid.2
      unfold table_slice.rows at this
      omega
    have hr : xs.xs[id - xs.offset]? = some (xs.xs[id - xs.offset]) :=
      List.getElem?_eq_getElem hlt
    have hmod : (lo + n + 1) % 2 ^ 64 = lo + n + 1 := Nat.mod_eq_of_lt (by omega)
    rw [select.loop_step xs acc hcols hwf hacc id rest _ res _ lo (lo + n) hid.1 hid.2 hr, hmod]
    by_cases hc : lo + n + 1 = id
    · rw [if_neg (not_not.mpr hc), ← rows_at_concat xs _ id _ hr, ← hc,
        show lo + n + 1 = lo + 1 * (n + 1) by omega, ← List.range'_concat lo (n + 1),
        show lo + 1 * (n + 1) = lo + (n + 1) by omega,
        ih (n + 1) lo res hlo (by omega) hrest, List.range'_concat lo (n + 1)]
      simp
    · rw [if_pos hc, rows_at_ne_nil xs lo n hlo hhi]
      have e1 : [xs.xs[id - xs.offset]] = rows_at xs (List.range' id 1) :=
        (rows_at_cons xs id [] _ hr).symm
      have e2 := ih 0 id (res ++ [⟨xs.layout_name, lo, xs.columns,
        rows_at xs (List.range' lo (n + 1))⟩]) hid.1 (by omega) hrest
      simp only [Nat.add_zero, Nat.zero_add] at e2
      simp only [Bool.false_eq_true, if_false]
      rw [e1, e2, maximal_runs_range_append n lo (id :: rest) (by
        intro e
        apply hc
        have : id = lo + n + 1 := by simpa using e
        omega)]
      rw [List.map_cons, slice_of_run_range]
      simp

theorem select.loop_start {D : Type} (xs : table_slice D) (acc : D → Bool)
    (hcols : 0 < xs.columns) (hwf : ∀ row ∈ xs.xs, row.length = xs.columns)
    (hacc : ∀ row ∈ xs.xs, ∀ c ∈ row, acc c = true)
    (hbound : xs.offset + xs.rows < 2 ^ 64) (ids : List Nat) (res : List (table_slice D))
    (hids : ∀ id ∈ ids, xs.offset ≤ id ∧ id < xs.offset + xs.rows) :
    select.loop xs ids
        ⟨res, ⟨xs.layout_name, xs.columns, acc, [], []⟩, xs.offset,
          size_t_decrement xs.offset⟩
      = some (res ++ (maximal_runs ids).map (slice_of_run xs)) := by
  cases ids with
  | nil =>
    rw [select.loop, select.push_slice_spec]
    simp [maximal_runs]
  | cons id rest =>
    have hid := hids id (List.mem_cons_self _ _)
    have hrest : ∀ e ∈ rest, xs.offset ≤ e ∧ e < xs.offset + xs.rows :=
      fun e he => hids e (List.mem_cons_of_mem _ he)
    have hlt : id - xs.offset < xs.xs.length := by
      have := hid.2
      unfold table_slice.rows at this
      omega
    have hr : xs.xs[id - xs.offset]? = some (xs.xs[id - xs.offset]) :=
      List.getElem?_eq_getElem hlt
    have hmod : (size_t_decrement xs.offset + 1) % 2 ^ 64 = xs.offset := by
      unfold size_t_decrement
      omega
    have e1 : [xs.xs[id - xs.offset]] = rows_at xs (List.range' id 1) :=
      (rows_at_cons xs id [] _ hr).symm
    have e2 := select.loop_run xs acc hcols hwf hacc hbound rest 0 id res hid.1 (by omega) hrest
    simp only [Nat.add_zero, Nat.zero_add] at e2
    rw [select.loop_step xs acc hcols hwf hacc id rest _ res _ _ _ hid.1 hid.2 hr, hmod]
    by_cases hc : xs.offset = id
    · rw [if_neg (not_not.mpr hc), List.nil_append, e1, hc, e2]
      rfl
    · rw [if_pos hc]
      simp only [List.isEmpty_nil, if_true]
      rw [e1, e2]
      rfl

theorem make_ids_rank (a n : Nat) : (make_ids a (a + n)).rank = n := by
  unfold make_ids
  rw [bitmap.rank_append, bitmap.rank_replicate, bitmap.rank_replicate, Nat.add_sub_cancel_left]
  simp

theorem selected_ids_mem {D : Type} (xs : table_slice D) (selection : ids) (id : Nat)
    (h : id ∈ selected_ids xs selection) : xs.offset ≤ id ∧ id < xs.offset + xs.rows :=
  List.mem_range'_1.mp (List.mem_filter.mp h).1

theorem slice_of_run_all {D : Type} (xs : table_slice D) :
    slice_of_run xs (List.range' xs.offset (xs.rows - 1 + 1)) = xs ∨ xs.rows = 0 := by
  by_cases h0 : xs.rows = 0
  · exact Or.inr h0
  · left
    have e : xs.rows - 1 + 1 = xs.rows := by omega
    rw [slice_of_run_range, e]
    have h := rows_at_range xs xs.rows 0 (by omega)
    rw [Nat.add_zero] at h
    rw [h, List.drop_zero]
    unfold table_slice.rows
    rw [List.take_length]

/-- What `select` computes for a slice whose rows have `columns` cells, with a
builder that accepts the cells of the slice: one slice for every maximal run
of the selected ids of the slice. -/
theorem select_spec {D : Type} (acc : D → Bool) (result : List (table_slice D))
    (xs : table_slice D) (selection : ids)
    (hcols : 0 < xs.columns) (hwf : ∀ row ∈ xs.xs, row.length = xs.columns)
    (hacc : ∀ row ∈ xs.xs, ∀ c ∈ row, acc c = true)
    (hbound : xs.offset + xs.rows < 2 ^ 64) :
    select (some acc) result xs selection
      = some (result ++ (maximal_runs (selected_ids xs selection)).map (slice_of_run xs)) := by
  have hmod : (xs.offset + xs.rows) % 2 ^ 64 = xs.offset + xs.rows := Nat.mod_eq_of_lt hbound
  have hsel : (selection.and (make_ids xs.offset (xs.offset + xs.rows))).select
      = selected_ids xs selection := bitmap.select_and_make_ids selection xs.offset xs.rows
  have hrank : (selection.and (make_ids xs.offset (xs.offset + xs.rows))).rank
      = (selected_ids xs selection).length := by
    rw [bitmap.rank_eq_length_select, hsel]
  unfold select
  simp only [hmod, hrank, make_ids_rank, hsel]
  by_cases h0 : (selected_ids xs selection).length = 0
  · rw [if_pos h0, List.length_eq_zero.mp h0]
    simp [maximal_runs]
  · rw [if_neg h0]
    by_cases h1 : xs.rows = (selected_ids xs selection).length
    · rw [if_pos h1]
      have hall : selected_ids xs selection = List.range' xs.offset xs.rows := by
        unfold selected_ids
        rw [List.filter_eq_self, ← List.filter_length_eq_length, List.length_range']
        exact h1.symm
      have hpos : xs.rows ≠ 0 := by omega
      have e : xs.rows = xs.rows - 1 + 1 := by omega
      have hm := maximal_runs_range_append (xs.rows - 1) xs.offset [] (by simp)
      rw [List.append_nil] at hm
      rw [hall]
      rw [e, hm]
      rcases slice_of_run_all xs with h | h
      · simp [maximal_runs, h]
      · exact absurd h hpos
    · rw [if_neg h1]
      exact select.loop_start xs acc hcols hwf hacc hbound _ result
        (selected_ids_mem xs selection)

/-- The runs of `maximal_runs` partition the list in order, each run is a
non-empty range of consecutive ids, and a run does not continue the run
before it. -/
theorem maximal_runs_spec (l : List Nat) :
    (maximal_runs l).flatten = l ∧
    (∀ run ∈ maximal_runs l, run ≠ [] ∧ run = List.range' (run.headD 0) run.length) ∧
    (maximal_runs l).Chain' (fun r1 r2 =>
      ∀ a b, r1.getLast? = some a → r2.head? = some b → b ≠ a + 1) := by
  induction l with
  | nil => exact ⟨rfl, fun _ h => (by cases h), List.chain'_nil⟩
  | cons id rest ih =>
    obtain ⟨i1, i2, i3⟩ := ih
    cases hm : maximal_runs rest with
    | nil =>
      have e : maximal_runs (id :: rest) = [[id]] := by simp only [maximal_runs, hm]
      rw [hm] at i1
      have hrest : rest = [] := by simpa using i1.symm
      rw [e, hrest]
      refine ⟨rfl, ?_, List.chain'_singleton _⟩
      intro run hrun
      have : run = [id] := by simpa using hrun
      rw [this]
      exact ⟨by simp, rfl⟩
    | cons run runs =>
      rw [hm] at i1 i2 i3
      obtain ⟨hne, hrange⟩ := i2 run (List.mem_cons_self _ _)
      rw [maximal_runs_step id rest run runs hm]
      by_cases hh : run.head? = some (id + 1)
      · rw [if_pos hh]
        have hd : run.headD 0 = id + 1 := by
          cases run with
          | nil => exact absurd rfl hne
          | cons a t =>
            have : a = id + 1 := by simpa using hh
            rw [this]; rfl
        refine ⟨?_, ?_, ?_⟩
        · rw [← i1]; rfl
        · intro r hr
          rcases List.mem_cons.mp hr with hr | hr
          · rw [hr]
            refine ⟨by simp, ?_⟩
            show id :: run = List.range' id (run.length + 1)
            rw [List.range'_succ, ← hd, ← hrange]
          · exact i2 r (List.mem_cons_of_mem _ hr)
        · cases runs with
          | nil => exact List.chain'_singleton _
          | cons r2 rs =>
            rw [List.chain'_cons] at i3 ⊢
            refine ⟨?_, i3.2⟩
            intro a b ha hb
            cases run with
            | nil => exact absurd rfl hne
            | cons c t =>
              rw [List.getLast?_cons_cons] at ha
              exact i3.1 a b ha hb
      · rw [if_neg hh]
        refine ⟨?_, ?_, ?_⟩
        · rw [← i1]; rfl
        · intro r hr
          rcases List.mem_cons.mp hr with hr | hr
          · rw [hr]
            exact ⟨by simp, rfl⟩
          · exact i2 r hr
        · rw [List.chain'_cons]
          refine ⟨?_, i3⟩
          intro a b ha hb
          have ha2 : a = id := by simpa using ha.symm
          rw [ha2]
          intro e
          apply hh
          rw [hb, e]

theorem slice_of_run_rows_sum {D : Type} (xs : table_slice D) (runs : List (List Nat))
    (h : ∀ id ∈ runs.flatten, xs.offset ≤ id ∧ id < xs.offset + xs.rows) :
    ((runs.map (slice_of_run xs)).map table_slice.rows).sum = runs.flatten.length := by
  induction runs with
  | nil => rfl
  | cons run rest ih =>
    have h1 : ∀ id ∈ run, xs.offset ≤ id ∧ id < xs.offset + xs.rows :=
      fun id hid => h id (by rw [List.flatten_cons]; exact List.mem_append_left _ hid)
    have h2 : ∀ id ∈ rest.flatten, xs.offset ≤ id ∧ id < xs.offset + xs.rows :=
      fun id hid => h id (by rw [List.flatten_cons]; exact List.mem_append_right _ hid)
    rw [List.map_cons, List.map_cons, List.sum_cons, ih h2, List.flatten_cons,
      List.length_append]
    congr 1
    exact rows_at_length xs run h1

theorem maximal_runs_all_rows {D : Type} (xs : table_slice D) (h : 0 < xs.rows) :
    (maximal_runs (List.range' xs.offset xs.rows)).map (slice_of_run xs) = [xs] := by
  have e : xs.rows = xs.rows - 1 + 1 := by omega
  have hm := maximal_runs_range_append (xs.rows - 1) xs.offset [] (by simp)
  rw [List.append_nil] at hm
  rw [e, hm]
  rcases slice_of_run_all xs with h1 | h1
  · simp [h1, maximal_runs]
  · omega

/-- C27: for a slice whose rows have `columns` cells (at least one), whose ids
fit into 64 bits, and a builder that accepts its cells, `select` appends one
slice per maximal run of consecutive selected ids of the slice, in ascending
order, each with the first id of its run as offset and the original rows of
the run.  The rows appended add up to the rank of the intersection; nothing is
appended when the intersection is empty; the slice itself is appended when all
of its rows are selected. -/
theorem select_appends_one_slice_per_run {D : Type} (acc : D → Bool)
    (result : List (table_slice D)) (xs : table_slice D) (selection : ids)
    (hcols : 0 < xs.columns) (hwf : ∀ row ∈ xs.xs, row.length = xs.columns)
    (hacc : ∀ row ∈ xs.xs, ∀ c ∈ row, acc c = true)
    (hbound : xs.offset + xs.rows < 2 ^ 64) :
    select (some acc) result xs selection
      = some (result ++ (maximal_runs (selected_ids xs selection)).map (slice_of_run xs)) ∧
    (((maximal_runs (selected_ids xs selection)).map (slice_of_run xs)).map
        table_slice.rows).sum
      = (selection.and (make_ids xs.offset (xs.offset + xs.rows))).rank ∧
    ((selection.and (make_ids xs.offset (xs.offset + xs.rows))).rank = 0 →
      select (some acc) result xs selection = some result) ∧
    (0 < xs.rows →
      (∀ id, xs.offset ≤ id → id < xs.offset + xs.rows → selection.test id = true) →
      select (some acc) result xs selection = some (result ++ [xs])) := by
  have hsel : (selection.and (make_ids xs.offset (xs.offset + xs.rows))).select
      = selected_ids xs selection := bitmap.select_and_make_ids selection xs.offset xs.rows
  have hrank : (selection.and (make_ids xs.offset (xs.offset + xs.rows))).rank
      = (selected_ids xs selection).length := by
    rw [bitmap.rank_eq_length_select, hsel]
  have hmain := select_spec acc result xs selection hcols hwf hacc hbound
  refine ⟨hmain, ?_, ?_, ?_⟩
  · rw [slice_of_run_rows_sum xs _ (by
      rw [(maximal_runs_spec _).1]
      exact selected_ids_mem xs selection), (maximal_runs_spec _).1, hrank]
  · intro h0
    rw [hrank] at h0
    rw [hmain, List.length_eq_zero.mp h0]
    simp [maximal_runs]
  · intro hpos hall
    have e : selected_ids xs selection = List.range' xs.offset xs.rows := by
      unfold selected_ids
      rw [List.filter_eq_self]
      intro id hid
      have := List.mem_range'_1.mp hid
      exact hall id this.1 this.2
    rw [hmain, e, maximal_runs_all_rows xs hpos]

/-- Instance of C27: of the ids 10 to 13 the selection holds 10, 11 and 13. -/
theorem select_appends_one_slice_per_run_witness :
    select (some (fun _ => true)) [] sample_slice sample_selection
      = some ([] ++ (maximal_runs (selected_ids sample_slice sample_selection)).map
          (slice_of_run sample_slice)) ∧
    (((maximal_runs (selected_ids sample_slice sample_selection)).map
        (slice_of_run sample_slice)).map table_slice.rows).sum
      = (sample_selection.and (make_ids sample_slice.offset
          (sample_slice.offset + sample_slice.rows))).rank ∧
    ((sample_selection.and (make_ids sample_slice.offset
        (sample_slice.offset + sample_slice.rows))).rank = 0 →
      select (some (fun _ => true)) [] sample_slice sample_selection = some []) ∧
    (0 < sample_slice.rows →
      (∀ id, sample_slice.offset ≤ id → id < sample_slice.offset + sample_slice.rows →
        sample_selection.test id = true) →
      select (some (fun _ => true)) [] sample_slice sample_selection
        = some ([] ++ [sample_slice])) :=
  select_appends_one_slice_per_run (fun _ => true) [] sample_slice sample_selection
    (by decide) (by decide) (fun _ _ _ _ => rfl) (by decide)

/-- The slices `select` yields for the sample: the rows of the ids 10 and 11
at offset 10 and the row of the id 13 at offset 13; all four rows give the
slice itself, and `split` and `truncate` cut it after two rows. -/
theorem select_examples :
    select (some (fun _ => true)) [] sample_slice sample_selection
      = some [⟨"t", 10, 2, [[1, 2], [3, 4]]⟩, ⟨"t", 13, 2, [[7, 8]]⟩] ∧
    select (some (fun _ => true)) [] sample_slice (make_ids 0 20) = some [sample_slice] ∧
    select (some (fun _ => true)) [] sample_slice (make_ids 0 10) = some [] ∧
    split (some (fun _ => true)) sample_slice 2
      = some (some ⟨"t", 10, 2, [[1, 2], [3, 4]]⟩, some ⟨"t", 12, 2, [[5, 6], [7, 8]]⟩) ∧
    truncate (some (fun _ => true)) sample_slice 2 = some ⟨"t", 10, 2, [[1, 2], [3, 4]]⟩ :=
  ⟨rfl, rfl, rfl, rfl, rfl⟩

end vast
